import Mathlib

/-!
# Priority-based preemptive CPU scheduler (`Priority-BasedCPU.cpp`)

A shallow embedding of `Scheduler::loadTasks`, `Scheduler::schedule` and
`Scheduler::generateGanttChart`.

Modelling conventions.

* `int` fields are `Int`.  The loader rejects numerals outside the 32-bit range
  (as `operator>>` does).  The loop of `schedule` is given twice.  In `execute`,
  `runLoop` and `schedule` the operations `currentTime++` and `remainingTime--` are
  taken in the integers; this is the loop of the source as long as no `int`
  overflows.  In `execute32`, `runLoop32` and `schedule32` the result of each of these
  operations is reduced to the 32-bit range (`wrapInt`), which is what the compiled
  program does on overflow (the language leaves signed overflow undefined).  The two runs coincide when the latest arrival time plus
  the total burst time is at most `INT_MAX` (`runLoop32_eq`); what is stated about
  the values of end times is stated on the 32-bit loop.
* `Task*` pointers into `tasks` are indices into the (sorted) registry; the
  registry is not resized while `schedule` runs, so indices are stable.
* `std::priority_queue` is modelled by the list of its elements; `top` returns an
  element that no other element outranks under `compare`, which is what the
  container guarantees.  Among elements that `compare` does not distinguish the
  model returns the one pushed first.
* `std::sort` is modelled by insertion sort with the source's comparator.  The order
  in which `std::sort` leaves tasks of equal arrival time and equal priority is not
  determined; the model keeps them in load order, and the statement about the order
  of the Gantt listing is made for every order `std::sort` may leave.
-/

namespace PriorityCPU

/-! ## Data model -/

/-- The record `struct Task`; `startTime` and `endTime` default to `-1`. -/
structure Task where
  name : String
  arrivalTime : Int
  priority : Int
  burstTime : Int
  startTime : Int := -1
  endTime : Int := -1
  remainingTime : Int
deriving DecidableEq, Repr

/-- Placeholder returned when an index is out of range (never reached on runs). -/
def nullTask : Task :=
  { name := "", arrivalTime := 0, priority := 0, burstTime := 0, remainingTime := 0 }

/-- Dereference of a `Task*`: the task stored at index `i` of the registry. -/
def taskAt (ts : List Task) (i : Nat) : Task := (ts[i]?).getD nullTask

/-! ## `Scheduler::schedule` -/

/-- The comparator given to `std::sort` (lines 68-71): earlier arrival first, and on
equal arrival the higher priority first. -/
def sortLess (a b : Task) : Bool :=
  decide (a.arrivalTime < b.arrivalTime) ||
    (decide (a.arrivalTime = b.arrivalTime) && decide (a.priority > b.priority))

/-- The call `std::sort(tasks.begin(), tasks.end(), ...)`.  `std::sort` leaves a
permutation of the vector in which no task comes before an earlier one for the
comparator, and does not determine the order of tasks that the comparator does not
separate (equal arrival time and equal priority).  This definition is one such result,
the one that keeps those tasks in load order; the statement about the order of the
Gantt listing is proved for every such result. -/
def sortTasks (ts : List Task) : List Task :=
  ts.insertionSort (fun a b => sortLess b a = false)

/-- The lambda `compare` (lines 73-78): `true` when `a` ranks below `b`. -/
def compare (a b : Task) : Bool :=
  if a.priority = b.priority then decide (a.arrivalTime > b.arrivalTime)
  else decide (a.priority < b.priority)

/-- The call `readyQueue.top()`: an element of the queue that is not below any other. -/
def queueTop (ts : List Task) : List Nat → Option Nat
  | [] => none
  | i :: q =>
    match queueTop ts q with
    | none => some i
    | some j => if compare (taskAt ts i) (taskAt ts j) then some j else some i

/-- The call `readyQueue.push(p)`. -/
def queuePush (q : List Nat) (p : Nat) : List Nat := q ++ [p]

/-- The call `readyQueue.pop()`: removes the element `top` returns. -/
def queuePop (ts : List Task) (q : List Nat) : List Nat :=
  match queueTop ts q with
  | none => q
  | some i => q.erase i

/-- The state of `schedule` at a loop boundary: the registry, the ready queue, the
current task, the clock and the completion counter (`numTasks` is `tasks.length`). -/
structure Sched where
  tasks : List Task
  readyQueue : List Nat
  currentTask : Option Nat
  currentTime : Int
  completedTasks : Nat
deriving DecidableEq, Repr

/-- The admission test of line 87. -/
def admissible (now : Int) (t : Task) : Bool :=
  decide (t.arrivalTime ≤ now) && decide (t.remainingTime > 0) && decide (t.startTime = -1)

/-- The admission loop `for (Task& task : tasks)` (lines 86-91), run over the part of
the registry that starts at index `i`. -/
def admitFrom (now : Int) : Nat → List Task → List Nat → List Task × List Nat
  | _, [], q => ([], q)
  | i, t :: rest, q =>
    if admissible now t then
      let r := admitFrom now (i + 1) rest (queuePush q i)
      ({ t with startTime := now } :: r.1, r.2)
    else
      let r := admitFrom now (i + 1) rest q
      (t :: r.1, r.2)

/-- Lines 86-91 as a state transformer. -/
def admitTasks (s : Sched) : Sched :=
  let r := admitFrom s.currentTime 0 s.tasks s.readyQueue
  { s with tasks := r.1, readyQueue := r.2 }

/-- The assignment `currentTask = readyQueue.top(); readyQueue.pop();` (lines 98-99). -/
def takeTop (s : Sched) (q : List Nat) : Sched :=
  { s with currentTask := queueTop s.tasks q, readyQueue := queuePop s.tasks q }

/-- The preemption check (lines 93-100). -/
def preempt (s : Sched) : Sched :=
  match queueTop s.tasks s.readyQueue with
  | none => s
  | some top =>
    match s.currentTask with
    | none => takeTop s s.readyQueue
    | some cur =>
      if (taskAt s.tasks top).priority > (taskAt s.tasks cur).priority then
        if (taskAt s.tasks cur).remainingTime > 0 then
          takeTop s (queuePush s.readyQueue cur)
        else
          takeTop s s.readyQueue
      else s

/-- Processing of the current task (lines 102-113), with `remainingTime--` and
`currentTime++` taken in the integers.  This is the step of the source as long as no
`int` overflows; `execute32` below is the step with the wrap-around of `int`, and
`runLoop32_eq` shows that the two runs coincide when the clock stays within `int`. -/
def execute (s : Sched) : Sched :=
  match s.currentTask with
  | some cur =>
    let t := taskAt s.tasks cur
    let t1 : Task := { t with remainingTime := t.remainingTime - 1 }
    let now := s.currentTime + 1
    if t1.remainingTime = 0 then
      { s with
        tasks := s.tasks.set cur { t1 with endTime := now }
        currentTime := now
        completedTasks := s.completedTasks + 1
        currentTask := none }
    else
      { s with tasks := s.tasks.set cur t1, currentTime := now }
  | none => { s with currentTime := s.currentTime + 1 }

/-- One iteration of the `while` loop (lines 86-113). -/
def loopBody (s : Sched) : Sched := execute (preempt (admitTasks s))

/-- The loop condition `completedTasks < numTasks` (line 85). -/
def loopCond (s : Sched) : Bool := decide (s.completedTasks < s.tasks.length)

/-- The state in which the loop is entered: the registry sorted, the queue empty, no
current task, no completed task; `now` is the value of the field `currentTime`. -/
def initSched (now : Int) (ts : List Task) : Sched :=
  { tasks := sortTasks ts, readyQueue := [], currentTask := none,
    currentTime := now, completedTasks := 0 }

/-- The state in which the loop is entered when `std::sort` has left the registry in the
order `us`. -/
def loopEntry (now : Int) (us : List Task) : Sched :=
  { tasks := us, readyQueue := [], currentTask := none,
    currentTime := now, completedTasks := 0 }

/-- The state after at most `n` iterations of the loop started in `s`: iterations are
performed while the loop condition holds. -/
def runLoop : Nat → Sched → Sched
  | 0, s => s
  | n + 1, s => if loopCond s then runLoop n (loopBody s) else s

/-- The function `Scheduler::schedule` with a bound on the number of iterations:
`none` when the loop has not exited within `fuel` iterations. -/
def schedule (fuel : Nat) (now : Int) (ts : List Task) : Option Sched :=
  let s := runLoop fuel (initSched now ts)
  if loopCond s then none else some s

/-- The task that executes in the iteration started in state `s`, if any: the current
task once admission and the preemption check are done. -/
def executing (s : Sched) : Option Nat := (preempt (admitTasks s)).currentTask

/-- The number of iterations the loop performs within the first `n`. -/
def iterations : Nat → Sched → Nat
  | 0, _ => 0
  | n + 1, s => if loopCond s then 1 + iterations n (loopBody s) else 0

/-- The listing produced by `Scheduler::generateGanttChart` (lines 118-126): one entry
per task, in registry order. -/
def generateGanttChart (ts : List Task) : List (String × Int × Int) :=
  ts.map (fun t => (t.name, t.startTime, t.endTime))

/-! ## The loop with 32-bit arithmetic -/

/-- The value an `int` holds after an operation whose mathematical result is `x`:
the result reduced to the range `INT_MIN .. INT_MAX` modulo `2^32`. -/
def wrapInt (x : Int) : Int := (x + 2147483648) % 4294967296 - 2147483648

/-- Processing of the current task (lines 102-113) with the arithmetic of `int`:
`remainingTime--` and `currentTime++` wrap around at 32 bits.  It differs from `execute`
only in the two applications of `wrapInt`. -/
def execute32 (s : Sched) : Sched :=
  match s.currentTask with
  | some cur =>
    let t := taskAt s.tasks cur
    let t1 : Task := { t with remainingTime := wrapInt (t.remainingTime - 1) }
    let now := wrapInt (s.currentTime + 1)
    if t1.remainingTime = 0 then
      { s with
        tasks := s.tasks.set cur { t1 with endTime := now }
        currentTime := now
        completedTasks := s.completedTasks + 1
        currentTask := none }
    else
      { s with tasks := s.tasks.set cur t1, currentTime := now }
  | none => { s with currentTime := wrapInt (s.currentTime + 1) }

/-- One iteration of the `while` loop (lines 86-113) with the arithmetic of `int`. -/
def loopBody32 (s : Sched) : Sched := execute32 (preempt (admitTasks s))

/-- The state after at most `n` iterations with the arithmetic of `int`. -/
def runLoop32 : Nat → Sched → Sched
  | 0, s => s
  | n + 1, s => if loopCond s then runLoop32 n (loopBody32 s) else s

/-- The function `Scheduler::schedule` with the arithmetic of `int` and a bound on the
number of iterations: `none` when the loop has not exited within `fuel` iterations. -/
def schedule32 (fuel : Nat) (now : Int) (ts : List Task) : Option Sched :=
  let s := runLoop32 fuel (initSched now ts)
  if loopCond s then none else some s

/-! ## `Scheduler::loadTasks` -/

/-- The characters erased from both ends of a line (lines 40-41): space and tab. -/
def isBlank (c : Char) : Bool := c = ' ' || c = '\t'

/-- The two `erase` calls of lines 40-41: leading blanks are removed, then trailing
ones. -/
def trimLine (l : List Char) : List Char :=
  ((l.dropWhile isBlank).reverse.dropWhile isBlank).reverse

/-- The white space that formatted extraction skips (`std::isspace`, "C" locale). -/
def isSpace (c : Char) : Bool :=
  c = ' ' || c = '\t' || c = '\n' || c = '\x0b' || c = '\x0c' || c = '\r'

/-- The call `std::getline(iss, task.name, ',')`: fails on an exhausted stream, else
yields the characters before the first comma and the stream after that comma. -/
def getlineComma : List Char → Option (List Char × List Char)
  | [] => none
  | c :: r =>
    some ((c :: r).takeWhile (fun x => x != ','), ((c :: r).dropWhile (fun x => x != ',')).drop 1)

/-- The value of a decimal digit. -/
def digitVal (c : Char) : Nat := c.toNat - 48

/-- The value of a string of decimal digits. -/
def digitsVal (ds : List Char) : Nat := ds.foldl (fun acc c => 10 * acc + digitVal c) 0

/-- The largest value of `int`. -/
def INT_MAX : Int := 2147483647

/-- The least value of `int`. -/
def INT_MIN : Int := -2147483648

/-- The optional sign of a numeral: whether it is `-`, and the stream after it. -/
def readSign : List Char → Bool × List Char
  | [] => (false, [])
  | c :: r => if c = '-' then (true, r) else if c = '+' then (false, r) else (false, c :: r)

/-- The extraction `iss >> n` for an `int`: white space is skipped, then an optional
sign and the longest run of digits are consumed; the extraction fails when there is
no digit or the value does not fit in `int`. -/
def readInt (s : List Char) : Option (Int × List Char) :=
  let r := readSign (s.dropWhile isSpace)
  let ds := r.2.takeWhile Char.isDigit
  let v : Int := if r.1 then -(digitsVal ds : Int) else (digitsVal ds : Int)
  if ds = [] then none
  else if INT_MIN ≤ v ∧ v ≤ INT_MAX then some (v, r.2.dropWhile Char.isDigit)
  else none

/-- The extraction `iss >> comma` for a `char`: white space is skipped and one
character is read; fails on an exhausted stream. -/
def readChar (s : List Char) : Option (Char × List Char) :=
  match s.dropWhile isSpace with
  | [] => none
  | c :: r => some (c, r)

/-- The extraction `(iss >> n >> comma) && comma == ','`. -/
def readIntComma (s : List Char) : Option (Int × List Char) :=
  match readInt s with
  | none => none
  | some (v, s1) =>
    match readChar s1 with
    | none => none
    | some (c, s2) => if c = ',' then some (v, s2) else none

/-- A task as `loadTasks` builds it from the four fields of a line (lines 44-51). -/
def mkTask (name : String) (arrival prio burst : Int) : Task :=
  { name := name, arrivalTime := arrival, priority := prio, burstTime := burst,
    remainingTime := burst }

/-- The body of the reading loop for one line (lines 40-56): the task to append, or
`none` when the line is reported as malformed and skipped. -/
def parseLine (line : String) : Option Task :=
  match getlineComma (trimLine line.toList) with
  | none => none
  | some (name, s1) =>
    match readIntComma s1 with
    | none => none
    | some (arrival, s2) =>
      match readIntComma s2 with
      | none => none
      | some (prio, s3) =>
        match readInt s3 with
        | none => none
        | some (burst, _) => some (mkTask (String.mk name) arrival prio burst)

/-- The reading loop of `Scheduler::loadTasks` (lines 39-57) over the lines of the
file, started with the registry `tasks`. -/
def loadTasks (tasks : List Task) : List String → List Task
  | [] => tasks
  | line :: rest =>
    match parseLine line with
    | some t => loadTasks (tasks ++ [t]) rest
    | none => loadTasks tasks rest

/-! ## Auxiliary definitions used in the statements -/

/-- A numeral as `operator>>` reads it: white space, an optional sign and decimal
digits, denoting the value `v`, which fits in `int`. -/
def IntLit (f : List Char) (v : Int) : Prop :=
  ∃ ws sgn ds, f = ws ++ sgn ++ ds ∧ (∀ c ∈ ws, isSpace c = true) ∧
    (sgn = [] ∨ sgn = ['+'] ∨ sgn = ['-']) ∧ ds ≠ [] ∧ (∀ c ∈ ds, c.isDigit = true) ∧
    v = (if sgn = ['-'] then -(digitsVal ds : Int) else (digitsVal ds : Int)) ∧
    INT_MIN ≤ v ∧ v ≤ INT_MAX

/-- The shape of the lines `loadTasks` accepts: a name without comma, then three
numerals, each numeral but the last followed by optional white space and a comma; what
follows the digits of the last numeral is arbitrary. -/
def LineShape (l : List Char) (name : List Char) (a p b : Int) : Prop :=
  ∃ f1 w1 f2 w2 f3 rest,
    l = name ++ ',' :: (f1 ++ w1 ++ ',' :: (f2 ++ w2 ++ ',' :: (f3 ++ rest))) ∧
    ',' ∉ name ∧ IntLit f1 a ∧ (∀ c ∈ w1, isSpace c = true) ∧
    IntLit f2 p ∧ (∀ c ∈ w2, isSpace c = true) ∧
    IntLit f3 b ∧ (∀ c, rest.head? = some c → c.isDigit = false)

/-- A field that begins with a numeral fitting in `int`. -/
def StartsWithInt (f : List Char) : Prop := ∃ lit v rest, f = lit ++ rest ∧ IntLit lit v

/-- A field that is a numeral fitting in `int`, followed by white space only. -/
def IsIntField (f : List Char) : Prop :=
  ∃ lit v w, f = lit ++ w ∧ IntLit lit v ∧ ∀ c ∈ w, isSpace c = true

/-- The fields of a line, split at every comma. -/
def splitComma : List Char → List (List Char)
  | [] => [[]]
  | c :: r =>
    if c = ',' then [] :: splitComma r
    else
      match splitComma r with
      | f :: fs => (c :: f) :: fs
      | [] => [[c]]

/-- The comma-separated fields of a line once its ends are trimmed. -/
def fieldsOf (line : String) : List (List Char) := splitComma (trimLine line.toList)

/-- A field that is an integer and nothing else: optional white space around an
optionally signed, non-empty run of digits. -/
def isIntegerField (f : List Char) : Bool :=
  let g := ((f.dropWhile isSpace).reverse.dropWhile isSpace).reverse
  let ds := (readSign g).2
  !ds.isEmpty && ds.all Char.isDigit

/-- The shape the interface description gives for an input line: after trimming,
exactly four comma-separated fields, the last three of them integers. -/
def fourFieldShape (line : String) : Bool :=
  match splitComma (trimLine line.toList) with
  | [_, a, p, b] => isIntegerField a && isIntegerField p && isIntegerField b
  | _ => false


/-- The effect of the admission loop on one task. -/
def admitOne (now : Int) (t : Task) : Task :=
  if admissible now t then { t with startTime := now } else t

/-- The indices the admission loop pushes, in the order it pushes them. -/
def newIdx (now : Int) : Nat → List Task → List Nat
  | _, [] => []
  | i, t :: rest => if admissible now t then i :: newIdx now (i + 1) rest
                    else newIdx now (i + 1) rest

/-- The attributes of a task that `schedule` only reads. -/
def Task.static (t : Task) : String × Int × Int × Int :=
  (t.name, t.arrivalTime, t.priority, t.burstTime)

/-- Sum of the remaining times of a registry. -/
def remSum (ts : List Task) : Int := (ts.map (fun t => t.remainingTime)).sum

/-- Sum of the burst times of a registry. -/
def burstSum (ts : List Task) : Int := (ts.map (fun t => t.burstTime)).sum

/-- The latest arrival time of a registry, or `0` when that is later. -/
def maxArrival : List Task → Int
  | [] => 0
  | t :: rest => max t.arrivalTime (maxArrival rest)

/-- `1` for a task that has no remaining work, `0` otherwise. -/
def finishedInd (t : Task) : Int := if t.remainingTime = 0 then 1 else 0

/-- A bound on the number of iterations of the loop of `schedule`. -/
def tickBound (ts : List Task) : Nat := (burstSum ts).toNat + (maxArrival ts).toNat

/-- The quantity that decreases with every iteration of the loop of `schedule`. -/
def measure (s : Sched) : Nat :=
  (remSum s.tasks).toNat + (maxArrival s.tasks - s.currentTime).toNat

/-- The two-task example of the specification: `A(0, 1, 4)` and `B(1, 2, 3)`. -/
def demoTasks : List Task := [mkTask "A" 0 1 4, mkTask "B" 1 2 3]

/-- Two tasks loaded in an order that is not the order of their arrival. -/
def lateFirst : List String := ["A,1,1,1", "B,0,1,1"]

/-- The state of the run on `demoTasks` after `n` iterations. -/
def demoAt (n : Nat) : Sched := runLoop n (initSched 0 demoTasks)

/-- The tasks are as `loadTasks` leaves them: no start or end time, all work remaining. -/
def Fresh (ts : List Task) : Prop :=
  ∀ t ∈ ts, t.startTime = -1 ∧ t.endTime = -1 ∧ t.remainingTime = t.burstTime

/-- Every burst time is positive. -/
def PositiveBursts (ts : List Task) : Prop := ∀ t ∈ ts, 0 < t.burstTime

instance (ts : List Task) : Decidable (Fresh ts) := by unfold Fresh; infer_instance

instance (ts : List Task) : Decidable (PositiveBursts ts) := by
  unfold PositiveBursts; infer_instance

/-- Task `q` does not outrank task `c`: its priority is not higher, and on equal
priority its arrival is not earlier. -/
def notAbove (ts : List Task) (q c : Nat) : Prop :=
  (taskAt ts q).priority ≤ (taskAt ts c).priority ∧
    ((taskAt ts q).priority = (taskAt ts c).priority →
      (taskAt ts c).arrivalTime ≤ (taskAt ts q).arrivalTime)

/-! ## Invariants of the loop -/

/-- What holds of every task of the registry while the loop runs on positive bursts. -/
structure TaskOk (now : Int) (t : Task) : Prop where
  burst_pos : 0 < t.burstTime
  rem_nonneg : 0 ≤ t.remainingTime
  rem_le : t.remainingTime ≤ t.burstTime
  fresh_rem : t.startTime = -1 → t.remainingTime = t.burstTime
  start_ok : t.startTime ≠ -1 → 0 ≤ t.startTime ∧ t.arrivalTime ≤ t.startTime ∧ t.startTime ≤ now
  end_iff : t.remainingTime = 0 ↔ t.endTime ≠ -1

/-- The part of the invariant that holds at every point of an iteration. -/
structure WF (s : Sched) : Prop where
  time_nonneg : 0 ≤ s.currentTime
  nodup : s.readyQueue.Nodup
  cur_notin : ∀ c, s.currentTask = some c → c ∉ s.readyQueue
  task_ok : ∀ i, i < s.tasks.length → TaskOk s.currentTime (taskAt s.tasks i)
  active_iff : ∀ i, (i ∈ s.readyQueue ∨ s.currentTask = some i) ↔
    (i < s.tasks.length ∧ (taskAt s.tasks i).startTime ≠ -1 ∧
      0 < (taskAt s.tasks i).remainingTime)
  completed_eq : (s.completedTasks : Int) = (s.tasks.map finishedInd).sum

/-- The invariant at the head of the loop. -/
structure Head (s : Sched) : Prop where
  wf : WF s
  unadmitted : ∀ i, i < s.tasks.length → (taskAt s.tasks i).startTime = -1 →
    s.currentTime ≤ (taskAt s.tasks i).arrivalTime ∨ s.currentTime = 0
  cur_best : ∀ c, s.currentTask = some c →
    0 < s.currentTime ∧ (taskAt s.tasks c).arrivalTime < s.currentTime ∧
      ∀ q ∈ s.readyQueue, notAbove s.tasks q c

/-- The invariant after the admission loop. -/
structure Mid (s : Sched) : Prop where
  wf : WF s
  unadmitted : ∀ i, i < s.tasks.length → (taskAt s.tasks i).startTime = -1 →
    s.currentTime < (taskAt s.tasks i).arrivalTime
  cur_best : ∀ c, s.currentTask = some c → ∀ q ∈ s.readyQueue,
    (taskAt s.tasks c).priority < (taskAt s.tasks q).priority ∨ notAbove s.tasks q c

/-- The invariant after the preemption check. -/
structure Post (s : Sched) : Prop where
  wf : WF s
  unadmitted : ∀ i, i < s.tasks.length → (taskAt s.tasks i).startTime = -1 →
    s.currentTime < (taskAt s.tasks i).arrivalTime
  cur_best : ∀ c, s.currentTask = some c → ∀ q ∈ s.readyQueue, notAbove s.tasks q c
  idle_empty : s.currentTask = none → s.readyQueue = []

/-- Every start time that is set is a clock value at or after the arrival. -/
def StartsOk (s : Sched) : Prop :=
  0 ≤ s.currentTime ∧
    ∀ i, (taskAt s.tasks i).startTime ≠ -1 →
      0 ≤ (taskAt s.tasks i).startTime ∧
        (taskAt s.tasks i).arrivalTime ≤ (taskAt s.tasks i).startTime

/-- A start time that is set is the arrival time, or `0` for a task that had arrived
before the clock started. -/
def StartsAtArrival (s : Sched) : Prop :=
  ∀ i, (taskAt s.tasks i).startTime ≠ -1 →
    (taskAt s.tasks i).startTime = max (taskAt s.tasks i).arrivalTime 0

/-- The order in which `std::sort` leaves two tasks: earlier arrival first, and on equal
arrival the priority of the first is not lower. -/
def SortedBefore (a b : Task) : Prop :=
  a.arrivalTime < b.arrivalTime ∨ (a.arrivalTime = b.arrivalTime ∧ b.priority ≤ a.priority)

/-- The single-task example of the specification: `X(0, 5, 1)`. -/
def singleTask : List Task := [mkTask "X" 0 5 1]

/-- End times that are set are not later than the clock and are pairwise different. -/
def EndsOk (s : Sched) : Prop :=
  (∀ i, (taskAt s.tasks i).endTime ≠ -1 → (taskAt s.tasks i).endTime ≤ s.currentTime) ∧
  (∀ i j, i ≠ j → (taskAt s.tasks i).endTime ≠ -1 → (taskAt s.tasks j).endTime ≠ -1 →
    (taskAt s.tasks i).endTime ≠ (taskAt s.tasks j).endTime)

/-- A task of higher priority that arrived before a finished task's end time has itself
finished, earlier. -/
def PriorityOrder (s : Sched) : Prop :=
  ∀ x y, x < s.tasks.length → (taskAt s.tasks y).priority < (taskAt s.tasks x).priority →
    (taskAt s.tasks y).endTime ≠ -1 →
    (taskAt s.tasks x).arrivalTime < (taskAt s.tasks y).endTime →
    (taskAt s.tasks x).endTime ≠ -1 ∧ (taskAt s.tasks x).endTime < (taskAt s.tasks y).endTime

/-- Task `T` has a higher priority than every other task of the registry. -/
def TopPriority (ts : List Task) (T : Nat) : Prop :=
  T < ts.length ∧ ∀ j, j < ts.length → j ≠ T → (taskAt ts j).priority < (taskAt ts T).priority

/-- The progress of a task `T` that runs from its arrival without interruption. -/
def RunsFromArrival (s : Sched) (T : Nat) : Prop :=
  (s.currentTime ≤ (taskAt s.tasks T).arrivalTime →
    (taskAt s.tasks T).remainingTime = (taskAt s.tasks T).burstTime) ∧
  ((taskAt s.tasks T).arrivalTime ≤ s.currentTime →
    s.currentTime ≤ (taskAt s.tasks T).arrivalTime + (taskAt s.tasks T).burstTime →
    (taskAt s.tasks T).remainingTime =
      (taskAt s.tasks T).burstTime - (s.currentTime - (taskAt s.tasks T).arrivalTime)) ∧
  ((taskAt s.tasks T).arrivalTime + (taskAt s.tasks T).burstTime ≤ s.currentTime →
    (taskAt s.tasks T).remainingTime = 0 ∧
      (taskAt s.tasks T).endTime = (taskAt s.tasks T).arrivalTime + (taskAt s.tasks T).burstTime)

/-- `1` for a task whose end time is set, `0` otherwise. -/
def doneInd (t : Task) : Int := if t.endTime = -1 then 0 else 1

/-- An invariant of the loop that does not depend on the burst times being positive. -/
structure Sound (s : Sched) : Prop where
  time_nonneg : 0 ≤ s.currentTime
  nodup : s.readyQueue.Nodup
  cur_notin : ∀ c, s.currentTask = some c → c ∉ s.readyQueue
  active_ok : ∀ i, (i ∈ s.readyQueue ∨ s.currentTask = some i) →
    i < s.tasks.length ∧ (taskAt s.tasks i).startTime ≠ -1 ∧
      0 < (taskAt s.tasks i).remainingTime ∧ (taskAt s.tasks i).endTime = -1
  unstarted : ∀ i, (taskAt s.tasks i).startTime = -1 → (taskAt s.tasks i).endTime = -1
  inert : ∀ i, (taskAt s.tasks i).burstTime ≤ 0 →
    (taskAt s.tasks i).startTime = -1 ∧
      (taskAt s.tasks i).remainingTime = (taskAt s.tasks i).burstTime
  completed_eq : (s.completedTasks : Int) = (s.tasks.map doneInd).sum

/-- A task list with a task of burst time `0`, as `loadTasks` builds it from the lines
`"A,0,1,2"` and `"Z,0,1,0"`. -/
def stuckTasks : List Task := [mkTask "A" 0 1 2, mkTask "Z" 0 1 0]

/-- The clock of the run stays within `int`: the latest arrival time plus the sum of the
burst times, which bounds the number of iterations, is at most `INT_MAX`. -/
def ClockInRange (ts : List Task) : Prop := (tickBound ts : Int) ≤ INT_MAX

instance (ts : List Task) : Decidable (ClockInRange ts) := by
  unfold ClockInRange; infer_instance

/-- An input file with one task that arrives at the largest `int` tick. -/
def lateLines : List String := ["A,2147483647,1,1"]

/-- The number of iterations the loop performs within the first `n`, with the arithmetic
of `int`. -/
def iterations32 : Nat → Sched → Nat
  | 0, _ => 0
  | n + 1, s => if loopCond s then 1 + iterations32 n (loopBody32 s) else 0

/-- The state `schedule` returns on `lateLines` with the arithmetic of `int`. -/
def lateFinal : Sched :=
  { tasks := [{ name := "A", arrivalTime := 2147483647, priority := 1, burstTime := 1,
                startTime := 2147483647, endTime := -2147483648, remainingTime := 0 }],
    readyQueue := [], currentTask := none, currentTime := -2147483648, completedTasks := 1 }

/-- An input file with a task that arrives at the least `int` tick and a task of lower
priority that arrives at the largest. -/
def farApartLines : List String := ["X,-2147483648,2,1", "Y,2147483647,1,2"]

/-- The state `schedule` returns on `farApartLines` with the arithmetic of `int`. -/
def farApartFinal : Sched :=
  { tasks := [{ name := "X", arrivalTime := -2147483648, priority := 2, burstTime := 1,
                startTime := 0, endTime := 1, remainingTime := 0 },
              { name := "Y", arrivalTime := 2147483647, priority := 1, burstTime := 2,
                startTime := 2147483647, endTime := -2147483647, remainingTime := 0 }],
    readyQueue := [], currentTask := none, currentTime := -2147483647, completedTasks := 2 }

/-- An input file whose run takes `2^32 - 1` ticks. -/
def wrapLines : List String := ["P,2147483647,2,2147483647", "Q,2147483647,1,1"]

/-- The state `schedule` returns on `wrapLines` with the arithmetic of `int`. -/
def wrapFinal : Sched :=
  { tasks := [{ name := "P", arrivalTime := 2147483647, priority := 2,
                burstTime := 2147483647, startTime := 2147483647, endTime := -2,
                remainingTime := 0 },
              { name := "Q", arrivalTime := 2147483647, priority := 1, burstTime := 1,
                startTime := 2147483647, endTime := -1, remainingTime := 0 }],
    readyQueue := [], currentTask := none, currentTime := -1, completedTasks := 2 }

/-- An input file whose run takes `2^32 + 1` ticks. -/
def repeatLines : List String :=
  ["A,0,3,1", "P,2147483647,2,2147483647", "Q,2147483647,1,3"]

/-- The state `schedule` returns on `repeatLines` with the arithmetic of `int`. -/
def repeatFinal : Sched :=
  { tasks := [{ name := "A", arrivalTime := 0, priority := 3, burstTime := 1,
                startTime := 0, endTime := 1, remainingTime := 0 },
              { name := "P", arrivalTime := 2147483647, priority := 2,
                burstTime := 2147483647, startTime := 2147483647, endTime := -2,
                remainingTime := 0 },
              { name := "Q", arrivalTime := 2147483647, priority := 1, burstTime := 3,
                startTime := 2147483647, endTime := 1, remainingTime := 0 }],
    readyQueue := [], currentTask := none, currentTime := 1, completedTasks := 3 }

/-! ## Registry access -/

theorem taskAt_of_lt {ts : List Task} {i : Nat} (h : i < ts.length) :
    taskAt ts i = ts[i] := by
  simp [taskAt, List.getElem?_eq_getElem h]

theorem taskAt_mem {ts : List Task} {i : Nat} (h : i < ts.length) : taskAt ts i ∈ ts := by
  rw [taskAt_of_lt h]; exact List.getElem_mem h

theorem exists_taskAt_of_mem {ts : List Task} {t : Task} (h : t ∈ ts) :
    ∃ i, i < ts.length ∧ taskAt ts i = t := by
  obtain ⟨i, hi, rfl⟩ := List.getElem_of_mem h
  exact ⟨i, hi, taskAt_of_lt hi⟩

theorem taskAt_map (f : Task → Task) {ts : List Task} {i : Nat} (h : i < ts.length) :
    taskAt (ts.map f) i = f (taskAt ts i) := by
  simp [taskAt, List.getElem?_eq_getElem h]

theorem taskAt_set_self {ts : List Task} {c : Nat} (x : Task) (h : c < ts.length) :
    taskAt (ts.set c x) c = x := by
  simp [taskAt, h]

theorem taskAt_set_ne {ts : List Task} {c i : Nat} (x : Task) (h : c ≠ i) :
    taskAt (ts.set c x) i = taskAt ts i := by
  simp [taskAt, List.getElem?_set_ne h]

theorem taskAt_cons_succ (t : Task) (ts : List Task) (i : Nat) :
    taskAt (t :: ts) (i + 1) = taskAt ts i := by
  simp [taskAt]

/-! ## The admission loop -/

theorem admitFrom_fst (now : Int) (ts : List Task) :
    ∀ (i : Nat) (q : List Nat), (admitFrom now i ts q).1 = ts.map (admitOne now) := by
  induction ts with
  | nil => intro i q; rfl
  | cons t rest ih =>
    intro i q
    by_cases h : admissible now t = true
    · simp [admitFrom, admitOne, h, ih]
    · simp [admitFrom, admitOne, h, ih]

theorem admitFrom_snd (now : Int) (ts : List Task) :
    ∀ (i : Nat) (q : List Nat), (admitFrom now i ts q).2 = q ++ newIdx now i ts := by
  induction ts with
  | nil => intro i q; simp [admitFrom, newIdx]
  | cons t rest ih =>
    intro i q
    by_cases h : admissible now t = true
    · simp [admitFrom, newIdx, h, ih, queuePush]
    · simp [admitFrom, newIdx, h, ih]

theorem newIdx_cons_pos {now : Int} {t : Task} (h : admissible now t = true) (i : Nat)
    (rest : List Task) : newIdx now i (t :: rest) = i :: newIdx now (i + 1) rest := by
  simp [newIdx, h]

theorem newIdx_cons_neg {now : Int} {t : Task} (h : ¬ admissible now t = true) (i : Nat)
    (rest : List Task) : newIdx now i (t :: rest) = newIdx now (i + 1) rest := by
  simp [newIdx, h]

theorem mem_newIdx (now : Int) (ts : List Task) :
    ∀ (i k : Nat), k ∈ newIdx now i ts ↔
      (i ≤ k ∧ k < i + ts.length ∧ admissible now (taskAt ts (k - i)) = true) := by
  induction ts with
  | nil => intro i k; simp [newIdx]; omega
  | cons t rest ih =>
    intro i k
    have hstep : ∀ (_ : i + 1 ≤ k), taskAt (t :: rest) (k - i) = taskAt rest (k - (i + 1)) := by
      intro hk
      have : k - i = (k - (i + 1)) + 1 := by omega
      rw [this, taskAt_cons_succ]
    have hzero : taskAt (t :: rest) (i - i) = t := by simp [taskAt]
    by_cases h : admissible now t = true
    · rw [newIdx_cons_pos h, List.mem_cons, ih, List.length_cons]
      constructor
      · rintro (rfl | ⟨h1, h2, h3⟩)
        · exact ⟨le_refl _, by omega, by rw [hzero]; exact h⟩
        · exact ⟨by omega, by omega, by rw [hstep h1]; exact h3⟩
      · rintro ⟨h1, h2, h3⟩
        rcases Nat.eq_or_lt_of_le h1 with heq | hlt
        · exact Or.inl heq.symm
        · exact Or.inr ⟨hlt, by omega, by rw [← hstep hlt]; exact h3⟩
    · rw [newIdx_cons_neg h, ih, List.length_cons]
      constructor
      · rintro ⟨h1, h2, h3⟩
        exact ⟨by omega, by omega, by rw [hstep h1]; exact h3⟩
      · rintro ⟨h1, h2, h3⟩
        rcases Nat.eq_or_lt_of_le h1 with heq | hlt
        · subst heq
          exfalso; apply h
          rw [hzero] at h3; exact h3
        · exact ⟨hlt, by omega, by rw [← hstep hlt]; exact h3⟩

theorem nodup_newIdx (now : Int) (ts : List Task) : ∀ (i : Nat), (newIdx now i ts).Nodup := by
  induction ts with
  | nil => intro i; simp [newIdx]
  | cons t rest ih =>
    intro i
    by_cases h : admissible now t = true
    · rw [newIdx_cons_pos h, List.nodup_cons]
      refine ⟨?_, ih _⟩
      intro hmem
      have := (mem_newIdx now rest (i + 1) i).1 hmem
      omega
    · rw [newIdx_cons_neg h]
      exact ih _

@[simp] theorem admitTasks_tasks (s : Sched) :
    (admitTasks s).tasks = s.tasks.map (admitOne s.currentTime) := by
  simp [admitTasks, admitFrom_fst]

@[simp] theorem admitTasks_readyQueue (s : Sched) :
    (admitTasks s).readyQueue = s.readyQueue ++ newIdx s.currentTime 0 s.tasks := by
  simp [admitTasks, admitFrom_snd]

@[simp] theorem admitTasks_currentTask (s : Sched) : (admitTasks s).currentTask = s.currentTask := rfl

@[simp] theorem admitTasks_currentTime (s : Sched) : (admitTasks s).currentTime = s.currentTime := rfl

@[simp] theorem admitTasks_completedTasks (s : Sched) :
    (admitTasks s).completedTasks = s.completedTasks := rfl

theorem admitOne_of_admissible {now : Int} {t : Task} (h : admissible now t = true) :
    admitOne now t = { t with startTime := now } := by
  simp [admitOne, h]

theorem admitOne_of_not {now : Int} {t : Task} (h : ¬ admissible now t = true) :
    admitOne now t = t := by
  simp [admitOne, h]

theorem admissible_iff (now : Int) (t : Task) :
    admissible now t = true ↔
      (t.arrivalTime ≤ now ∧ 0 < t.remainingTime ∧ t.startTime = -1) := by
  simp [admissible, and_assoc]

@[simp] theorem admitOne_static (now : Int) (t : Task) :
    (admitOne now t).static = t.static := by
  unfold admitOne; split <;> rfl

@[simp] theorem admitOne_priority (now : Int) (t : Task) :
    (admitOne now t).priority = t.priority := by
  unfold admitOne; split <;> rfl

@[simp] theorem admitOne_arrivalTime (now : Int) (t : Task) :
    (admitOne now t).arrivalTime = t.arrivalTime := by
  unfold admitOne; split <;> rfl

@[simp] theorem admitOne_burstTime (now : Int) (t : Task) :
    (admitOne now t).burstTime = t.burstTime := by
  unfold admitOne; split <;> rfl

@[simp] theorem admitOne_remainingTime (now : Int) (t : Task) :
    (admitOne now t).remainingTime = t.remainingTime := by
  unfold admitOne; split <;> rfl

@[simp] theorem admitOne_endTime (now : Int) (t : Task) :
    (admitOne now t).endTime = t.endTime := by
  unfold admitOne; split <;> rfl

/-! ## The ready queue -/

theorem compare_eq_false_iff (a b : Task) :
    compare a b = false ↔
      (b.priority ≤ a.priority ∧ (b.priority = a.priority → a.arrivalTime ≤ b.arrivalTime)) := by
  unfold compare
  split
  · rename_i h
    simp only [decide_eq_false_iff_not, not_lt, gt_iff_lt]
    constructor
    · intro h1; exact ⟨by omega, fun _ => h1⟩
    · rintro ⟨_, h2⟩; exact h2 h.symm
  · rename_i h
    simp only [decide_eq_false_iff_not, not_lt]
    constructor
    · intro h1; exact ⟨h1, fun h2 => absurd h2.symm h⟩
    · rintro ⟨h1, _⟩; exact h1

theorem queueTop_eq_none (ts : List Task) (q : List Nat) : queueTop ts q = none ↔ q = [] := by
  cases q with
  | nil => simp [queueTop]
  | cons i q =>
    simp only [queueTop]
    split
    · simp
    · split <;> simp

theorem queueTop_spec (ts : List Task) :
    ∀ (q : List Nat) (m : Nat), queueTop ts q = some m →
      m ∈ q ∧ ∀ i ∈ q, notAbove ts i m := by
  intro q
  induction q with
  | nil => intro m h; simp [queueTop] at h
  | cons i q ih =>
    intro m h
    simp only [queueTop] at h
    split at h
    · rename_i hq
      have hnil := (queueTop_eq_none ts q).1 hq
      subst hnil
      injection h with h; subst h
      refine ⟨List.mem_cons_self _ _, ?_⟩
      intro k hk
      simp only [List.mem_cons, List.not_mem_nil, or_false] at hk
      subst hk
      exact ⟨le_refl _, fun _ => le_refl _⟩
    · rename_i j hq
      obtain ⟨hj, hmax⟩ := ih j hq
      by_cases hc : compare (taskAt ts i) (taskAt ts j) = true
      · rw [if_pos hc] at h
        injection h with h; subst h
        refine ⟨List.mem_cons_of_mem _ hj, ?_⟩
        intro k hk
        rcases List.mem_cons.1 hk with rfl | hk
        · unfold compare at hc
          unfold notAbove
          split at hc
          · rename_i hp
            simp only [decide_eq_true_eq, gt_iff_lt] at hc
            exact ⟨by omega, fun _ => by omega⟩
          · rename_i hp
            simp only [decide_eq_true_eq] at hc
            exact ⟨by omega, fun h2 => by omega⟩
        · exact hmax k hk
      · rw [if_neg hc] at h
        injection h with h; subst h
        refine ⟨List.mem_cons_self _ _, ?_⟩
        have hc2 : compare (taskAt ts i) (taskAt ts j) = false := by
          simpa using hc
        obtain ⟨h1, h2⟩ := (compare_eq_false_iff _ _).1 hc2
        intro k hk
        rcases List.mem_cons.1 hk with rfl | hk
        · exact ⟨le_refl _, fun _ => le_refl _⟩
        · obtain ⟨h3, h4⟩ := hmax k hk
          unfold notAbove
          refine ⟨by omega, ?_⟩
          intro h5
          have h6 : (taskAt ts j).priority = (taskAt ts i).priority := by omega
          have h7 : (taskAt ts k).priority = (taskAt ts j).priority := by omega
          have := h2 h6
          have := h4 h7
          omega

/-! ## Sums over the registry -/

theorem sum_map_set (g : Task → Int) (x : Task) :
    ∀ (ts : List Task) (c : Nat), c < ts.length →
      ((ts.set c x).map g).sum = (ts.map g).sum - g (taskAt ts c) + g x := by
  intro ts
  induction ts with
  | nil => intro c h; simp at h
  | cons t rest ih =>
    intro c h
    cases c with
    | zero => simp [taskAt]; ring
    | succ c =>
      have hc : c < rest.length := by simpa using h
      simp only [List.set_cons_succ, List.map_cons, List.sum_cons, ih c hc, taskAt_cons_succ]
      ring

theorem finishedInd_nonneg (t : Task) : 0 ≤ finishedInd t := by
  unfold finishedInd; split <;> decide

theorem finishedInd_le_one (t : Task) : finishedInd t ≤ 1 := by
  unfold finishedInd; split <;> decide

theorem sum_finishedInd_le (ts : List Task) : (ts.map finishedInd).sum ≤ ts.length := by
  induction ts with
  | nil => simp
  | cons t rest ih =>
    have := finishedInd_le_one t
    simp only [List.map_cons, List.sum_cons, List.length_cons]
    push_cast
    omega

theorem all_finished_of_sum (ts : List Task)
    (h : (ts.length : Int) ≤ (ts.map finishedInd).sum) : ∀ t ∈ ts, t.remainingTime = 0 := by
  induction ts with
  | nil => intro t ht; simp at ht
  | cons a rest ih =>
    have h1 := finishedInd_le_one a
    have h2 := sum_finishedInd_le rest
    simp only [List.map_cons, List.sum_cons, List.length_cons] at h
    push_cast at h
    intro t ht
    rcases List.mem_cons.1 ht with rfl | ht
    · by_contra hne
      have : finishedInd t = 0 := by simp [finishedInd, hne]
      omega
    · exact ih (by omega) t ht

theorem exists_unfinished_of_sum (ts : List Task)
    (h : (ts.map finishedInd).sum < (ts.length : Int)) : ∃ t ∈ ts, t.remainingTime ≠ 0 := by
  induction ts with
  | nil => simp at h
  | cons a rest ih =>
    by_cases ha : a.remainingTime = 0
    · have h1 : finishedInd a = 1 := by simp [finishedInd, ha]
      simp only [List.map_cons, List.sum_cons, List.length_cons, h1] at h
      push_cast at h
      obtain ⟨t, ht, hne⟩ := ih (by omega)
      exact ⟨t, List.mem_cons_of_mem _ ht, hne⟩
    · exact ⟨a, List.mem_cons_self _ _, ha⟩

theorem remSum_nonneg_of (ts : List Task) (h : ∀ t ∈ ts, 0 ≤ t.remainingTime) :
    0 ≤ remSum ts := by
  induction ts with
  | nil => simp [remSum]
  | cons a rest ih =>
    have h1 := h a (List.mem_cons_self _ _)
    have h2 := ih (fun t ht => h t (List.mem_cons_of_mem _ ht))
    simp only [remSum, List.map_cons, List.sum_cons] at h2 ⊢
    omega

theorem remSum_pos_of (ts : List Task) (h : ∀ t ∈ ts, 0 ≤ t.remainingTime)
    (t : Task) (ht : t ∈ ts) (hpos : 0 < t.remainingTime) : 0 < remSum ts := by
  induction ts with
  | nil => simp at ht
  | cons a rest ih =>
    have h1 := h a (List.mem_cons_self _ _)
    have h2 := remSum_nonneg_of rest (fun t ht => h t (List.mem_cons_of_mem _ ht))
    simp only [remSum, List.map_cons, List.sum_cons] at h2 ⊢
    rcases List.mem_cons.1 ht with rfl | ht
    · omega
    · have := ih (fun t ht => h t (List.mem_cons_of_mem _ ht)) ht
      simp only [remSum] at this
      omega

theorem le_maxArrival (ts : List Task) : ∀ t ∈ ts, t.arrivalTime ≤ maxArrival ts := by
  induction ts with
  | nil => intro t ht; simp at ht
  | cons a rest ih =>
    intro t ht
    simp only [maxArrival]
    rcases List.mem_cons.1 ht with rfl | ht
    · exact le_max_left _ _
    · exact le_trans (ih t ht) (le_max_right _ _)

theorem maxArrival_nonneg (ts : List Task) : 0 ≤ maxArrival ts := by
  induction ts with
  | nil => simp [maxArrival]
  | cons a rest ih => simp only [maxArrival]; exact le_trans ih (le_max_right _ _)

theorem maxArrival_congr (ts us : List Task)
    (h : ts.map Task.static = us.map Task.static) : maxArrival ts = maxArrival us := by
  induction ts generalizing us with
  | nil => cases us with
    | nil => rfl
    | cons b us => simp at h
  | cons a rest ih =>
    cases us with
    | nil => simp at h
    | cons b us =>
      simp only [List.map_cons, List.cons.injEq] at h
      have hab : a.arrivalTime = b.arrivalTime := by
        have := congrArg (fun p => p.2.1) h.1
        simpa [Task.static] using this
      simp only [maxArrival, hab, ih us h.2]

theorem burstSum_congr (ts us : List Task)
    (h : ts.map Task.static = us.map Task.static) : burstSum ts = burstSum us := by
  induction ts generalizing us with
  | nil => cases us with
    | nil => rfl
    | cons b us => simp at h
  | cons a rest ih =>
    cases us with
    | nil => simp at h
    | cons b us =>
      simp only [List.map_cons, List.cons.injEq] at h
      have hab : a.burstTime = b.burstTime := by
        have := congrArg (fun p => p.2.2.2) h.1
        simpa [Task.static] using this
      have := ih us h.2
      simp only [burstSum, List.map_cons, List.sum_cons, hab] at this ⊢
      omega

/-! ## Preservation of the invariants -/

theorem sum_finishedInd_admitTasks (now : Int) (ts : List Task) :
    ((ts.map (admitOne now)).map finishedInd).sum = (ts.map finishedInd).sum := by
  rw [List.map_map]
  congr 1
  apply List.map_congr_left
  intro t _
  simp [finishedInd]

theorem taskOk_admitOne {now : Int} {t : Task} (hnow : 0 ≤ now) (h : TaskOk now t) :
    TaskOk now (admitOne now t) := by
  by_cases ha : admissible now t = true
  · rw [admitOne_of_admissible ha]
    obtain ⟨h1, h2, h3⟩ := (admissible_iff now t).1 ha
    exact
      { burst_pos := h.burst_pos
        rem_nonneg := h.rem_nonneg
        rem_le := h.rem_le
        fresh_rem := fun hs => by simp only at hs; omega
        start_ok := fun _ => ⟨hnow, h1, le_refl _⟩
        end_iff := h.end_iff }
  · rw [admitOne_of_not ha]; exact h

theorem mid_of_head {s : Sched} (h : Head s) : Mid (admitTasks s) := by
  have hw := h.wf
  have hlen : (admitTasks s).tasks.length = s.tasks.length := by simp
  have hnew : ∀ k, k ∈ newIdx s.currentTime 0 s.tasks ↔
      (k < s.tasks.length ∧ admissible s.currentTime (taskAt s.tasks k) = true) := by
    intro k
    rw [mem_newIdx]
    simp
  have hat : ∀ i, i < s.tasks.length →
      taskAt (admitTasks s).tasks i = admitOne s.currentTime (taskAt s.tasks i) := by
    intro i hi
    rw [admitTasks_tasks, taskAt_map _ hi]
  have hprio : ∀ i, (taskAt (admitTasks s).tasks i).priority = (taskAt s.tasks i).priority := by
    intro i
    by_cases hi : i < s.tasks.length
    · rw [hat i hi, admitOne_priority]
    · simp [taskAt, List.getElem?_eq_none (Nat.le_of_not_lt hi)]
  have harr : ∀ i, (taskAt (admitTasks s).tasks i).arrivalTime = (taskAt s.tasks i).arrivalTime := by
    intro i
    by_cases hi : i < s.tasks.length
    · rw [hat i hi, admitOne_arrivalTime]
    · simp [taskAt, List.getElem?_eq_none (Nat.le_of_not_lt hi)]
  have hna : ∀ q c, notAbove (admitTasks s).tasks q c ↔ notAbove s.tasks q c := by
    intro q c
    simp only [notAbove, hprio, harr]
  refine ⟨⟨?_, ?_, ?_, ?_, ?_, ?_⟩, ?_, ?_⟩
  · exact hw.time_nonneg
  · rw [admitTasks_readyQueue, List.nodup_append]
    refine ⟨hw.nodup, nodup_newIdx _ _ _, ?_⟩
    intro k hk1 hk2
    have h1 := ((hw.active_iff k).1 (Or.inl hk1)).2.1
    have h2 := ((admissible_iff _ _).1 ((hnew k).1 hk2).2).2.2
    exact h1 h2
  · intro c hc
    rw [admitTasks_currentTask] at hc
    rw [admitTasks_readyQueue, List.mem_append]
    rintro (hk | hk)
    · exact hw.cur_notin c hc hk
    · have h1 := ((hw.active_iff c).1 (Or.inr hc)).2.1
      have h2 := ((admissible_iff _ _).1 ((hnew c).1 hk).2).2.2
      exact h1 h2
  · intro i hi
    rw [hlen] at hi
    rw [hat i hi, admitTasks_currentTime]
    exact taskOk_admitOne hw.time_nonneg (hw.task_ok i hi)
  · intro i
    rw [admitTasks_readyQueue, List.mem_append, admitTasks_currentTask, hlen, hnew]
    by_cases hi : i < s.tasks.length
    · rw [hat i hi]
      by_cases ha : admissible s.currentTime (taskAt s.tasks i) = true
      · obtain ⟨h1, h2, h3⟩ := (admissible_iff _ _).1 ha
        rw [admitOne_of_admissible ha]
        have := hw.time_nonneg
        constructor
        · intro _
          exact ⟨hi, by simp only; omega, h2⟩
        · intro _
          exact Or.inl (Or.inr ⟨hi, ha⟩)
      · rw [admitOne_of_not ha, ← hw.active_iff i]
        constructor
        · rintro ((hq | ⟨_, hq⟩) | hc)
          · exact Or.inl hq
          · exact absurd hq ha
          · exact Or.inr hc
        · rintro (hq | hc)
          · exact Or.inl (Or.inl hq)
          · exact Or.inr hc
    · constructor
      · rintro ((hq | ⟨hq, _⟩) | hc)
        · exact absurd ((hw.active_iff i).1 (Or.inl hq)).1 hi
        · exact absurd hq hi
        · exact absurd ((hw.active_iff i).1 (Or.inr hc)).1 hi
      · rintro ⟨h1, _⟩
        exact absurd h1 hi
  · rw [admitTasks_completedTasks, admitTasks_tasks, sum_finishedInd_admitTasks]
    exact hw.completed_eq
  · intro i hi hs
    rw [hlen] at hi
    rw [hat i hi] at hs
    rw [harr, admitTasks_currentTime]
    have hok := hw.task_ok i hi
    by_cases ha : admissible s.currentTime (taskAt s.tasks i) = true
    · rw [admitOne_of_admissible ha] at hs
      simp only at hs
      have := hw.time_nonneg
      omega
    · rw [admitOne_of_not ha] at hs
      have h1 := hok.fresh_rem hs
      have h2 := hok.burst_pos
      by_contra hcon
      apply ha
      rw [admissible_iff]
      exact ⟨by omega, by omega, hs⟩
  · intro c hc q hq
    rw [admitTasks_currentTask] at hc
    rw [admitTasks_readyQueue, List.mem_append] at hq
    rw [hprio, hprio, hna]
    obtain ⟨hpos, harrc, hbest⟩ := h.cur_best c hc
    rcases hq with hq | hq
    · exact Or.inr (hbest q hq)
    · obtain ⟨hql, hqa⟩ := (hnew q).1 hq
      obtain ⟨_, _, h3⟩ := (admissible_iff _ _).1 hqa
      have h4 := h.unadmitted q hql h3
      by_cases hp : (taskAt s.tasks c).priority < (taskAt s.tasks q).priority
      · exact Or.inl hp
      · refine Or.inr ⟨by omega, fun _ => by omega⟩

theorem post_takeTop {s : Sched} (h : Mid s) {q1 : List Nat} (hne : q1 ≠ [])
    (hnd : q1.Nodup)
    (hmem : ∀ i, i ∈ q1 ↔ (i ∈ s.readyQueue ∨ s.currentTask = some i)) :
    Post (takeTop s q1) := by
  have hw := h.wf
  cases htop : queueTop s.tasks q1 with
  | none => exact absurd ((queueTop_eq_none _ _).1 htop) hne
  | some m =>
    obtain ⟨hm, hmax⟩ := queueTop_spec s.tasks q1 m htop
    have hcur : (takeTop s q1).currentTask = some m := by simp [takeTop, htop]
    have hqueue : (takeTop s q1).readyQueue = q1.erase m := by simp [takeTop, queuePop, htop]
    have htasks : (takeTop s q1).tasks = s.tasks := rfl
    have htime : (takeTop s q1).currentTime = s.currentTime := rfl
    have hcomp : (takeTop s q1).completedTasks = s.completedTasks := rfl
    refine ⟨⟨?_, ?_, ?_, ?_, ?_, ?_⟩, ?_, ?_, ?_⟩
    · rw [htime]; exact hw.time_nonneg
    · rw [hqueue]; exact hnd.erase m
    · intro c hc
      rw [hcur] at hc
      injection hc with hc; subst hc
      rw [hqueue, hnd.mem_erase_iff]
      exact fun hcon => hcon.1 rfl
    · intro i hi
      rw [htasks] at hi ⊢
      rw [htime]
      exact hw.task_ok i hi
    · intro i
      rw [hqueue, hcur, htasks, hnd.mem_erase_iff, ← hw.active_iff i, ← hmem i]
      constructor
      · rintro (⟨_, h1⟩ | h1)
        · exact h1
        · injection h1 with h1; subst h1; exact hm
      · intro h1
        by_cases hi : i = m
        · exact Or.inr (by rw [hi])
        · exact Or.inl ⟨hi, h1⟩
    · rw [hcomp, htasks]; exact hw.completed_eq
    · intro i hi hs
      rw [htasks] at hi hs ⊢
      rw [htime]
      exact h.unadmitted i hi hs
    · intro c hc q hq
      rw [hcur] at hc
      injection hc with hc; subst hc
      rw [hqueue] at hq
      rw [htasks]
      exact hmax q (List.mem_of_mem_erase hq)
    · intro hc
      rw [hcur] at hc
      exact absurd hc (by simp)

theorem post_of_mid {s : Sched} (h : Mid s) : Post (preempt s) := by
  have hw := h.wf
  unfold preempt
  cases htop : queueTop s.tasks s.readyQueue with
  | none =>
    have hq := (queueTop_eq_none _ _).1 htop
    refine ⟨hw, h.unadmitted, ?_, fun _ => hq⟩
    intro c _ q hmem
    rw [hq] at hmem
    exact absurd hmem (List.not_mem_nil _)
  | some top =>
    obtain ⟨htm, hmax⟩ := queueTop_spec s.tasks s.readyQueue top htop
    have hne : s.readyQueue ≠ [] := List.ne_nil_of_mem htm
    cases hcur : s.currentTask with
    | none =>
      simp only
      apply post_takeTop h hne hw.nodup
      intro i
      simp [hcur]
    | some cur =>
      simp only
      have hrem := ((hw.active_iff cur).1 (Or.inr hcur)).2.2
      by_cases hp : (taskAt s.tasks top).priority > (taskAt s.tasks cur).priority
      · rw [if_pos hp, if_pos hrem]
        apply post_takeTop h
        · simp [queuePush]
        · rw [queuePush]
          apply List.Nodup.append hw.nodup (List.nodup_singleton _)
          intro a ha1 ha2
          rw [List.mem_singleton] at ha2
          subst ha2
          exact hw.cur_notin a hcur ha1
        · intro i
          simp only [queuePush, List.mem_append, List.mem_singleton, hcur, Option.some.injEq]
          constructor
          · rintro (h1 | h1)
            · exact Or.inl h1
            · exact Or.inr h1.symm
          · rintro (h1 | h1)
            · exact Or.inl h1
            · exact Or.inr h1.symm
      · rw [if_neg hp]
        refine ⟨hw, h.unadmitted, ?_, ?_⟩
        · intro c hc q hq
          rw [hcur] at hc
          injection hc with hc; subst hc
          rcases h.cur_best cur hcur q hq with h1 | h1
          · have := (hmax q hq).1
            omega
          · exact h1
        · intro hc
          rw [hcur] at hc
          exact absurd hc (by simp)

theorem map_set_same {β : Type} (f : Task → β) (x : Task) :
    ∀ (ts : List Task) (c : Nat), f x = f (taskAt ts c) → (ts.set c x).map f = ts.map f := by
  intro ts
  induction ts with
  | nil => intro c _; simp
  | cons t rest ih =>
    intro c h
    cases c with
    | zero =>
      simp only [taskAt, List.getElem?_cons_zero, Option.getD_some] at h
      simp [h]
    | succ c =>
      rw [taskAt_cons_succ] at h
      simp only [List.set_cons_succ, List.map_cons, ih c h]

theorem taskAt_set (ts : List Task) (c i : Nat) (x : Task) (hc : c < ts.length) :
    taskAt (ts.set c x) i = if i = c then x else taskAt ts i := by
  by_cases h : i = c
  · subst h; rw [if_pos rfl, taskAt_set_self x hc]
  · rw [if_neg h, taskAt_set_ne x (Ne.symm h)]

theorem execute_idle {s : Sched} (h : s.currentTask = none) :
    execute s = { s with currentTime := s.currentTime + 1 } := by
  simp [execute, h]

theorem execute_finish {s : Sched} {c : Nat} (h : s.currentTask = some c)
    (hr : (taskAt s.tasks c).remainingTime - 1 = 0) :
    execute s =
      { s with
        tasks := s.tasks.set c
          { taskAt s.tasks c with
            remainingTime := (taskAt s.tasks c).remainingTime - 1
            endTime := s.currentTime + 1 }
        currentTime := s.currentTime + 1
        completedTasks := s.completedTasks + 1
        currentTask := none } := by
  simp [execute, h, hr]

theorem execute_continue {s : Sched} {c : Nat} (h : s.currentTask = some c)
    (hr : ¬ (taskAt s.tasks c).remainingTime - 1 = 0) :
    execute s =
      { s with
        tasks := s.tasks.set c
          { taskAt s.tasks c with remainingTime := (taskAt s.tasks c).remainingTime - 1 }
        currentTime := s.currentTime + 1 } := by
  simp [execute, h, hr]

theorem TaskOk.mono {now : Int} {t : Task} (h : TaskOk now t) : TaskOk (now + 1) t :=
  { burst_pos := h.burst_pos
    rem_nonneg := h.rem_nonneg
    rem_le := h.rem_le
    fresh_rem := h.fresh_rem
    start_ok := fun hs => by
      obtain ⟨h1, h2, h3⟩ := h.start_ok hs
      exact ⟨h1, h2, by omega⟩
    end_iff := h.end_iff }

theorem head_of_post {s : Sched} (h : Post s) : Head (execute s) := by
  have hw := h.wf
  have hnow := hw.time_nonneg
  cases hcur : s.currentTask with
  | none =>
    rw [execute_idle hcur]
    have hq := h.idle_empty hcur
    refine ⟨⟨?_, hw.nodup, ?_, ?_, ?_, hw.completed_eq⟩, ?_, ?_⟩
    · simp only; omega
    · intro c hc; simp only [hcur] at hc; exact absurd hc (by simp)
    · intro i hi; exact (hw.task_ok i hi).mono
    · exact hw.active_iff
    · intro i hi hs
      have := h.unadmitted i hi hs
      simp only
      omega
    · intro c hc; simp only [hcur] at hc; exact absurd hc (by simp)
  | some c =>
    obtain ⟨hcl, hcs, hcr⟩ := (hw.active_iff c).1 (Or.inr hcur)
    have hok := hw.task_ok c hcl
    have hcq := hw.cur_notin c hcur
    by_cases hr : (taskAt s.tasks c).remainingTime - 1 = 0
    · rw [execute_finish hcur hr]
      refine ⟨⟨?_, hw.nodup, ?_, ?_, ?_, ?_⟩, ?_, ?_⟩
      · simp only; omega
      · intro c hc; simp only at hc; exact absurd hc (by simp)
      · intro i hi
        simp only [List.length_set] at hi
        simp only [taskAt_set _ _ _ _ hcl]
        by_cases hic : i = c
        · subst hic
          rw [if_pos rfl]
          exact
            { burst_pos := hok.burst_pos
              rem_nonneg := by simp only; omega
              rem_le := by simp only; have := hok.burst_pos; omega
              fresh_rem := fun hs => absurd hs hcs
              start_ok := fun hs => by
                obtain ⟨h1, h2, h3⟩ := hok.start_ok hs
                exact ⟨h1, h2, by simp only; omega⟩
              end_iff := by simp only; constructor <;> intro _ <;> omega }
        · rw [if_neg hic]; exact (hw.task_ok i hi).mono
      · intro i
        simp only [List.length_set, taskAt_set _ _ _ _ hcl]
        by_cases hic : i = c
        · subst hic
          rw [if_pos rfl]
          simp only
          constructor
          · rintro (h1 | h1)
            · exact absurd h1 hcq
            · exact absurd h1 (by simp)
          · rintro ⟨_, _, h3⟩; omega
        · rw [if_neg hic, ← hw.active_iff i, hcur]
          constructor
          · rintro (h1 | h1)
            · exact Or.inl h1
            · exact absurd h1 (by simp)
          · rintro (h1 | h1)
            · exact Or.inl h1
            · injection h1 with h1; exact absurd h1.symm hic
      · simp only
        rw [sum_map_set finishedInd _ _ _ hcl]
        have h1 : finishedInd (taskAt s.tasks c) = 0 := by
          simp only [finishedInd]; rw [if_neg]; omega
        have h2 := hw.completed_eq
        simp only [finishedInd, hr, if_true, h1] at h1 ⊢
        push_cast
        omega
      · intro i hi hs
        simp only [List.length_set] at hi
        simp only [taskAt_set _ _ _ _ hcl] at hs ⊢
        by_cases hic : i = c
        · subst hic
          rw [if_pos rfl] at hs
          exact absurd hs hcs
        · rw [if_neg hic] at hs ⊢
          have := h.unadmitted i hi hs
          exact Or.inl (by omega)
      · intro c hc; simp only at hc; exact absurd hc (by simp)
    · rw [execute_continue hcur hr]
      have hstat : ∀ i, (taskAt (s.tasks.set c
            { taskAt s.tasks c with
              remainingTime := (taskAt s.tasks c).remainingTime - 1 }) i).priority
              = (taskAt s.tasks i).priority ∧
          (taskAt (s.tasks.set c
            { taskAt s.tasks c with
              remainingTime := (taskAt s.tasks c).remainingTime - 1 }) i).arrivalTime
              = (taskAt s.tasks i).arrivalTime := by
        intro i
        rw [taskAt_set _ _ _ _ hcl]
        by_cases hic : i = c
        · subst hic; rw [if_pos rfl]; exact ⟨rfl, rfl⟩
        · rw [if_neg hic]; exact ⟨rfl, rfl⟩
      refine ⟨⟨?_, hw.nodup, ?_, ?_, ?_, ?_⟩, ?_, ?_⟩
      · simp only; omega
      · intro c2 hc; simp only [hcur] at hc; injection hc with hc; subst hc; exact hcq
      · intro i hi
        simp only [List.length_set] at hi
        simp only [taskAt_set _ _ _ _ hcl]
        by_cases hic : i = c
        · subst hic
          rw [if_pos rfl]
          exact
            { burst_pos := hok.burst_pos
              rem_nonneg := by simp only; omega
              rem_le := by simp only; have := hok.rem_le; omega
              fresh_rem := fun hs => absurd hs hcs
              start_ok := fun hs => by
                obtain ⟨h1, h2, h3⟩ := hok.start_ok hs
                exact ⟨h1, h2, by simp only; omega⟩
              end_iff := by
                simp only
                have h1 := hok.end_iff
                constructor
                · intro h2; exact absurd h2 hr
                · intro h2; have := h1.2 h2; omega }
        · rw [if_neg hic]; exact (hw.task_ok i hi).mono
      · intro i
        simp only [List.length_set, taskAt_set _ _ _ _ hcl]
        by_cases hic : i = c
        · subst hic
          rw [if_pos rfl]
          simp only
          constructor
          · intro _; exact ⟨hcl, hcs, by omega⟩
          · intro _; exact Or.inr hcur
        · rw [if_neg hic]; exact hw.active_iff i
      · simp only
        rw [sum_map_set finishedInd _ _ _ hcl]
        have h1 : finishedInd (taskAt s.tasks c) = 0 := by
          simp only [finishedInd]; rw [if_neg]; omega
        have h2 := hw.completed_eq
        simp only [finishedInd, hr, if_false, h1] at h1 ⊢
        omega
      · intro i hi hs
        simp only [List.length_set] at hi
        simp only [taskAt_set _ _ _ _ hcl] at hs ⊢
        by_cases hic : i = c
        · subst hic
          rw [if_pos rfl] at hs
          exact absurd hs hcs
        · rw [if_neg hic] at hs ⊢
          have := h.unadmitted i hi hs
          exact Or.inl (by omega)
      · intro c2 hc
        simp only [hcur] at hc
        injection hc with hc; subst hc
        obtain ⟨h1, h2, h3⟩ := hok.start_ok hcs
        refine ⟨by simp only; omega, ?_, ?_⟩
        · simp only [(hstat c).2]; omega
        · intro q hq
          have := h.cur_best c hcur q hq
          simp only [notAbove, (hstat _).1, (hstat _).2]
          exact this

theorem head_loopBody {s : Sched} (h : Head s) : Head (loopBody s) :=
  head_of_post (post_of_mid (mid_of_head h))

/-! ## Frame properties of one iteration -/

@[simp] theorem preempt_tasks (s : Sched) : (preempt s).tasks = s.tasks := by
  unfold preempt
  split
  · rfl
  · split
    · rfl
    · split
      · split <;> rfl
      · rfl

@[simp] theorem preempt_currentTime (s : Sched) : (preempt s).currentTime = s.currentTime := by
  unfold preempt
  split
  · rfl
  · split
    · rfl
    · split
      · split <;> rfl
      · rfl

@[simp] theorem preempt_completedTasks (s : Sched) :
    (preempt s).completedTasks = s.completedTasks := by
  unfold preempt
  split
  · rfl
  · split
    · rfl
    · split
      · split <;> rfl
      · rfl

theorem execute_currentTime (s : Sched) : (execute s).currentTime = s.currentTime + 1 := by
  unfold execute
  split
  · simp only; split <;> rfl
  · rfl

theorem execute_static (s : Sched) :
    (execute s).tasks.map Task.static = s.tasks.map Task.static := by
  unfold execute
  split
  · simp only
    split
    · exact map_set_same Task.static _ _ _ rfl
    · exact map_set_same Task.static _ _ _ rfl
  · rfl

theorem admitTasks_static (s : Sched) :
    (admitTasks s).tasks.map Task.static = s.tasks.map Task.static := by
  rw [admitTasks_tasks, List.map_map]
  apply List.map_congr_left
  intro t _
  simp

theorem loopBody_currentTime (s : Sched) :
    (loopBody s).currentTime = s.currentTime + 1 := by
  simp [loopBody, execute_currentTime]

theorem loopBody_static (s : Sched) :
    (loopBody s).tasks.map Task.static = s.tasks.map Task.static := by
  unfold loopBody
  rw [execute_static, preempt_tasks, admitTasks_static]

theorem runLoop_static (n : Nat) :
    ∀ s : Sched, (runLoop n s).tasks.map Task.static = s.tasks.map Task.static := by
  induction n with
  | zero => intro s; rfl
  | succ n ih =>
    intro s
    simp only [runLoop]
    split
    · rw [ih, loopBody_static]
    · rfl

theorem length_eq_of_static {ts us : List Task}
    (h : ts.map Task.static = us.map Task.static) : ts.length = us.length := by
  have := congrArg List.length h
  simpa using this

theorem remSum_admitTasks (s : Sched) : remSum (admitTasks s).tasks = remSum s.tasks := by
  rw [admitTasks_tasks, remSum, remSum, List.map_map]
  congr 1
  apply List.map_congr_left
  intro t _
  simp

theorem remSum_execute {s : Sched} (h : Post s) :
    remSum (execute s).tasks = remSum s.tasks - (if s.currentTask.isSome then 1 else 0) := by
  cases hcur : s.currentTask with
  | none => rw [execute_idle hcur]; simp
  | some c =>
    have hcl := ((h.wf.active_iff c).1 (Or.inr hcur)).1
    by_cases hr : (taskAt s.tasks c).remainingTime - 1 = 0
    · rw [execute_finish hcur hr]
      simp only [remSum, Option.isSome_some, if_true]
      rw [sum_map_set _ _ _ _ hcl]
      simp only
      omega
    · rw [execute_continue hcur hr]
      simp only [remSum, Option.isSome_some, if_true]
      rw [sum_map_set _ _ _ _ hcl]
      simp only
      omega

theorem remSum_loopBody {s : Sched} (h : Head s) :
    remSum (loopBody s).tasks = remSum s.tasks - (if (executing s).isSome then 1 else 0) := by
  unfold loopBody executing
  rw [remSum_execute (post_of_mid (mid_of_head h)), preempt_tasks, remSum_admitTasks]

/-! ## What an iteration executes -/

theorem executing_spec {s : Sched} (h : Head s) :
    (∀ c, executing s = some c →
      c < s.tasks.length ∧ (taskAt s.tasks c).arrivalTime ≤ s.currentTime ∧
        0 < (taskAt s.tasks c).remainingTime ∧
        ∀ j, j < s.tasks.length → (taskAt s.tasks j).arrivalTime ≤ s.currentTime →
          0 < (taskAt s.tasks j).remainingTime → notAbove s.tasks j c) ∧
    (executing s = none →
      ∀ j, j < s.tasks.length →
        ¬ ((taskAt s.tasks j).arrivalTime ≤ s.currentTime ∧
            0 < (taskAt s.tasks j).remainingTime)) := by
  have hp := post_of_mid (mid_of_head h)
  have hw := hp.wf
  have htasks : (preempt (admitTasks s)).tasks = s.tasks.map (admitOne s.currentTime) := by simp
  have htime : (preempt (admitTasks s)).currentTime = s.currentTime := by simp
  have hlen : (preempt (admitTasks s)).tasks.length = s.tasks.length := by simp
  have hat : ∀ i, i < s.tasks.length →
      taskAt (preempt (admitTasks s)).tasks i = admitOne s.currentTime (taskAt s.tasks i) := by
    intro i hi
    rw [htasks, taskAt_map _ hi]
  constructor
  · intro c hc
    unfold executing at hc
    obtain ⟨hcl, hcs, hcr⟩ := (hw.active_iff c).1 (Or.inr hc)
    rw [hlen] at hcl
    have hok := hw.task_ok c (by rw [hlen]; exact hcl)
    obtain ⟨_, h2, h3⟩ := hok.start_ok hcs
    rw [hat c hcl] at h2 h3 hcr
    simp only [admitOne_arrivalTime, admitOne_remainingTime, htime] at h2 h3 hcr
    refine ⟨hcl, by omega, hcr, ?_⟩
    intro j hj hja hjr
    have hjs : (taskAt (preempt (admitTasks s)).tasks j).startTime ≠ -1 := by
      intro hcon
      have := hp.unadmitted j (by rw [hlen]; exact hj) hcon
      rw [hat j hj, htime, admitOne_arrivalTime] at this
      omega
    have hjr2 : 0 < (taskAt (preempt (admitTasks s)).tasks j).remainingTime := by
      rw [hat j hj, admitOne_remainingTime]; exact hjr
    have hact := (hw.active_iff j).2 ⟨by rw [hlen]; exact hj, hjs, hjr2⟩
    have hres : notAbove (preempt (admitTasks s)).tasks j c := by
      rcases hact with hq | hq
      · exact hp.cur_best c hc j hq
      · rw [hc] at hq
        injection hq with hq; subst hq
        exact ⟨le_refl _, fun _ => le_refl _⟩
    simp only [notAbove, hat j hj, hat c hcl, admitOne_priority, admitOne_arrivalTime] at hres
    exact hres
  · intro hc j hj
    unfold executing at hc
    rintro ⟨hja, hjr⟩
    have hq := hp.idle_empty hc
    have hjs : (taskAt (preempt (admitTasks s)).tasks j).startTime ≠ -1 := by
      intro hcon
      have := hp.unadmitted j (by rw [hlen]; exact hj) hcon
      rw [hat j hj, htime, admitOne_arrivalTime] at this
      omega
    have hjr2 : 0 < (taskAt (preempt (admitTasks s)).tasks j).remainingTime := by
      rw [hat j hj, admitOne_remainingTime]; exact hjr
    have hact := (hw.active_iff j).2 ⟨by rw [hlen]; exact hj, hjs, hjr2⟩
    rw [hq, hc] at hact
    simp at hact

/-! ## The initial state and the run -/

theorem mem_sortTasks {ts : List Task} {t : Task} : t ∈ sortTasks ts ↔ t ∈ ts :=
  (List.perm_insertionSort _ ts).mem_iff

theorem sortTasks_perm (ts : List Task) : (sortTasks ts).Perm ts :=
  List.perm_insertionSort _ ts

theorem maxArrival_perm {ts us : List Task} (h : ts.Perm us) :
    maxArrival ts = maxArrival us := by
  induction h with
  | nil => rfl
  | cons x _ ih => simp only [maxArrival, ih]
  | swap x y l => simp only [maxArrival]; exact max_left_comm _ _ _
  | trans _ _ ih1 ih2 => exact ih1.trans ih2

theorem burstSum_perm {ts us : List Task} (h : ts.Perm us) : burstSum ts = burstSum us := by
  unfold burstSum
  exact (h.map _).sum_eq

theorem sum_finishedInd_zero (ts : List Task) (h : ∀ t ∈ ts, t.remainingTime ≠ 0) :
    (ts.map finishedInd).sum = 0 := by
  induction ts with
  | nil => rfl
  | cons a rest ih =>
    have h1 : finishedInd a = 0 := by
      simp [finishedInd, h a (List.mem_cons_self _ _)]
    simp only [List.map_cons, List.sum_cons, h1, ih (fun t ht => h t (List.mem_cons_of_mem _ ht))]
    rfl

theorem remSum_eq_burstSum (ts : List Task) (h : ∀ t ∈ ts, t.remainingTime = t.burstTime) :
    remSum ts = burstSum ts := by
  unfold remSum burstSum
  congr 1
  exact List.map_congr_left h

theorem head_init {ts : List Task} (hf : Fresh ts) (hp : PositiveBursts ts) :
    Head (initSched 0 ts) := by
  have hmem : ∀ i, i < (sortTasks ts).length → taskAt (sortTasks ts) i ∈ ts :=
    fun i hi => mem_sortTasks.1 (taskAt_mem hi)
  refine ⟨⟨le_refl _, List.nodup_nil, ?_, ?_, ?_, ?_⟩, ?_, ?_⟩
  · intro c hc; simp [initSched] at hc
  · intro i hi
    obtain ⟨h1, h2, h3⟩ := hf _ (hmem i hi)
    have h4 := hp _ (hmem i hi)
    show TaskOk 0 (taskAt (sortTasks ts) i)
    exact
      { burst_pos := h4
        rem_nonneg := by omega
        rem_le := by omega
        fresh_rem := fun _ => h3
        start_ok := fun hs => absurd h1 hs
        end_iff := by constructor <;> intro _ <;> omega }
  · intro i
    simp only [initSched, List.not_mem_nil, false_or]
    constructor
    · intro hc; simp at hc
    · rintro ⟨hi, hs, _⟩
      exact absurd (hf _ (hmem i hi)).1 hs
  · simp only [initSched, Nat.cast_zero]
    rw [sum_finishedInd_zero]
    intro t ht
    have h1 := hf _ (mem_sortTasks.1 ht)
    have h2 := hp _ (mem_sortTasks.1 ht)
    omega
  · intro i _ _; exact Or.inr rfl
  · intro c hc; simp [initSched] at hc

theorem head_runLoop (n : Nat) : ∀ {s : Sched}, Head s → Head (runLoop n s) := by
  induction n with
  | zero => intro s h; exact h
  | succ n ih =>
    intro s h
    simp only [runLoop]
    split
    · exact ih (head_loopBody h)
    · exact h

theorem runLoop_stable (n : Nat) :
    ∀ (s : Sched), loopCond (runLoop n s) = false →
      ∀ m, n ≤ m → runLoop m s = runLoop n s := by
  induction n with
  | zero =>
    intro s h m _
    simp only [runLoop] at h ⊢
    cases m with
    | zero => rfl
    | succ m => simp [runLoop, h]
  | succ n ih =>
    intro s h m hm
    cases m with
    | zero => omega
    | succ m =>
      simp only [runLoop] at h ⊢
      by_cases hc : loopCond s = true
      · rw [if_pos hc] at h
        rw [if_pos hc, if_pos hc]
        exact ih _ h m (by omega)
      · rw [if_neg hc, if_neg hc]

theorem finished_of_exit {s : Sched} (h : Head s) (hc : loopCond s = false) :
    ∀ t ∈ s.tasks, t.remainingTime = 0 ∧ t.endTime ≠ -1 := by
  have hsum : (s.tasks.length : Int) ≤ (s.tasks.map finishedInd).sum := by
    rw [← h.wf.completed_eq]
    simp only [loopCond, decide_eq_false_iff_not, not_lt] at hc
    exact_mod_cast hc
  intro t ht
  have h0 := all_finished_of_sum _ hsum t ht
  obtain ⟨i, hi, rfl⟩ := exists_taskAt_of_mem ht
  exact ⟨h0, (h.wf.task_ok i hi).end_iff.1 h0⟩

theorem measure_decreases {s : Sched} (h : Head s) (hc : loopCond s = true) :
    measure (loopBody s) < measure s := by
  have hrem := remSum_loopBody h
  have hmax : maxArrival (loopBody s).tasks = maxArrival s.tasks :=
    maxArrival_congr _ _ (loopBody_static s)
  have htime := loopBody_currentTime s
  have hnn : 0 ≤ remSum (loopBody s).tasks :=
    remSum_nonneg_of _ (fun t ht => by
      obtain ⟨i, hi, rfl⟩ := exists_taskAt_of_mem ht
      exact ((head_loopBody h).wf.task_ok i hi).rem_nonneg)
  unfold measure
  rw [hmax, htime]
  cases hex : executing s with
  | some c =>
    rw [hex] at hrem
    simp only [Option.isSome_some, if_true] at hrem
    omega
  | none =>
    rw [hex] at hrem
    simp only [Option.isSome_none] at hrem
    have hsum : (s.tasks.map finishedInd).sum < (s.tasks.length : Int) := by
      rw [← h.wf.completed_eq]
      simp only [loopCond, decide_eq_true_eq] at hc
      exact_mod_cast hc
    obtain ⟨t, ht, hne⟩ := exists_unfinished_of_sum _ hsum
    obtain ⟨i, hi, rfl⟩ := exists_taskAt_of_mem ht
    have hok := h.wf.task_ok i hi
    have hpos : 0 < (taskAt s.tasks i).remainingTime := by
      have := hok.rem_nonneg
      omega
    have hnot := (executing_spec h).2 hex i hi
    have hle := le_maxArrival _ _ ht
    have : s.currentTime < (taskAt s.tasks i).arrivalTime := by
      by_contra hcon
      exact hnot ⟨by omega, hpos⟩
    omega

theorem runLoop_exits (n : Nat) :
    ∀ {s : Sched}, Head s → measure s ≤ n → loopCond (runLoop n s) = false := by
  induction n with
  | zero =>
    intro s h hm
    simp only [runLoop]
    by_contra hc
    have := measure_decreases h (by simpa using hc)
    omega
  | succ n ih =>
    intro s h hm
    simp only [runLoop]
    by_cases hc : loopCond s = true
    · rw [if_pos hc]
      have := measure_decreases h hc
      exact ih (head_loopBody h) (by omega)
    · rw [if_neg hc]; simpa using hc

theorem measure_init {ts : List Task} (hf : Fresh ts) :
    measure (initSched 0 ts) = tickBound ts := by
  unfold measure tickBound
  simp only [initSched, sub_zero]
  rw [remSum_eq_burstSum _ (fun t ht => (hf t (mem_sortTasks.1 ht)).2.2),
    burstSum_perm (sortTasks_perm ts), maxArrival_perm (sortTasks_perm ts)]

theorem taskAt_admitTasks (s : Sched) (i : Nat) :
    taskAt (admitTasks s).tasks i = admitOne s.currentTime (taskAt s.tasks i) := by
  by_cases hi : i < s.tasks.length
  · rw [admitTasks_tasks, taskAt_map _ hi]
  · have h1 : taskAt (admitTasks s).tasks i = nullTask := by
      simp [taskAt, List.getElem?_eq_none (Nat.le_of_not_lt hi)]
    have h2 : taskAt s.tasks i = nullTask := by
      simp [taskAt, List.getElem?_eq_none (Nat.le_of_not_lt hi)]
    rw [h1, h2, admitOne_of_not]
    rw [admissible_iff]
    simp [nullTask]

theorem taskAt_set_field {β : Type} (f : Task → β) (ts : List Task) (c i : Nat) (x : Task)
    (h : f x = f (taskAt ts c)) : f (taskAt (ts.set c x) i) = f (taskAt ts i) := by
  by_cases hc : c < ts.length
  · rw [taskAt_set _ _ _ _ hc]
    by_cases hi : i = c
    · subst hi; rw [if_pos rfl, h]
    · rw [if_neg hi]
  · rw [List.set_eq_of_length_le (Nat.le_of_not_lt hc)]

theorem execute_field {β : Type} (f : Task → β)
    (hf : ∀ (t : Task) (r e : Int), f { t with remainingTime := r, endTime := e } = f t)
    (s : Sched) (i : Nat) :
    f (taskAt (execute s).tasks i) = f (taskAt s.tasks i) := by
  unfold execute
  split
  · simp only
    split
    · exact taskAt_set_field f _ _ _ _ (hf _ _ _)
    · exact taskAt_set_field f _ _ _ _ (hf _ _ _)
  · rfl

theorem loopBody_startTime (s : Sched) (i : Nat) :
    (taskAt (loopBody s).tasks i).startTime =
      (admitOne s.currentTime (taskAt s.tasks i)).startTime := by
  unfold loopBody
  rw [execute_field (fun t => t.startTime) (fun _ _ _ => rfl), preempt_tasks, taskAt_admitTasks]

theorem startsOk_init {ts : List Task} (hf : Fresh ts) : StartsOk (initSched 0 ts) := by
  refine ⟨le_refl _, ?_⟩
  intro i hs
  exfalso
  apply hs
  by_cases hi : i < (sortTasks ts).length
  · exact (hf _ (mem_sortTasks.1 (taskAt_mem hi))).1
  · show (taskAt (sortTasks ts) i).startTime = -1
    simp [taskAt, List.getElem?_eq_none (Nat.le_of_not_lt hi), nullTask]

theorem startsOk_loopBody {s : Sched} (h : StartsOk s) : StartsOk (loopBody s) := by
  refine ⟨by rw [loopBody_currentTime]; have := h.1; omega, ?_⟩
  intro i hs
  have harr : (taskAt (loopBody s).tasks i).arrivalTime = (taskAt s.tasks i).arrivalTime := by
    unfold loopBody
    rw [execute_field (fun t => t.arrivalTime) (fun _ _ _ => rfl), preempt_tasks, taskAt_admitTasks,
      admitOne_arrivalTime]
  rw [loopBody_startTime] at hs ⊢
  rw [harr]
  by_cases ha : admissible s.currentTime (taskAt s.tasks i) = true
  · rw [admitOne_of_admissible ha]
    exact ⟨h.1, ((admissible_iff _ _).1 ha).1⟩
  · rw [admitOne_of_not ha] at hs ⊢
    exact h.2 i hs

theorem startsOk_runLoop (n : Nat) : ∀ {s : Sched}, StartsOk s → StartsOk (runLoop n s) := by
  induction n with
  | zero => intro s h; exact h
  | succ n ih =>
    intro s h
    simp only [runLoop]
    split
    · exact ih (startsOk_loopBody h)
    · exact h

theorem sortLess_asymm {a b : Task} (h : sortLess a b = true) : sortLess b a = false := by
  simp only [sortLess, Bool.or_eq_true, Bool.and_eq_true, decide_eq_true_eq, gt_iff_lt] at h
  simp only [sortLess, Bool.or_eq_false_iff, Bool.and_eq_false_iff, decide_eq_false_iff_not,
    gt_iff_lt]
  omega

theorem sortTasks_of_sorted {ts : List Task}
    (h : ts.Pairwise (fun a b => sortLess a b = true)) : sortTasks ts = ts := by
  unfold sortTasks
  apply List.Sorted.insertionSort_eq
  exact List.Pairwise.imp (fun hab => sortLess_asymm hab) h

theorem schedule_eq_some {fuel : Nat} {now : Int} {ts : List Task} {s : Sched}
    (h : schedule fuel now ts = some s) :
    s = runLoop fuel (initSched now ts) ∧ loopCond s = false := by
  unfold schedule at h
  simp only at h
  split at h
  · exact absurd h (by simp)
  · rename_i hc
    injection h with h
    subst h
    exact ⟨rfl, by simpa using hc⟩

/-! ## The scheduling claims -/

/-- With the clock taken in the integers, the run on freshly loaded tasks with positive
burst times exits within `tickBound ts` iterations, with every task finished and its end
time set. -/
theorem ideal_terminates_all_finished (ts : List Task) (hf : Fresh ts)
    (hp : PositiveBursts ts) :
    ∃ s : Sched, (∀ fuel, tickBound ts ≤ fuel → schedule fuel 0 ts = some s) ∧
      (s.tasks.map Task.static).Perm (ts.map Task.static) ∧
      ∀ t ∈ s.tasks, t.remainingTime = 0 ∧ t.endTime ≠ -1 := by
  have hh0 := head_init hf hp
  have hexit : loopCond (runLoop (tickBound ts) (initSched 0 ts)) = false :=
    runLoop_exits _ hh0 (le_of_eq (measure_init hf))
  refine ⟨runLoop (tickBound ts) (initSched 0 ts), ?_, ?_, ?_⟩
  · intro fuel hfuel
    unfold schedule
    simp only
    rw [runLoop_stable _ _ hexit fuel hfuel, hexit]
    simp
  · rw [runLoop_static]
    exact (sortTasks_perm ts).map _
  · exact finished_of_exit (head_runLoop _ hh0) hexit

/-- C4: in an iteration of `Scheduler::schedule` started with task `T` current, the task
`U` that executes is `T` itself or has a strictly higher priority than `T`; so a task of
equal priority (in particular one of equal priority and equal arrival time) never
displaces the running task. -/
theorem C4_displaced_only_by_higher_priority (s : Sched) (T U : Nat)
    (hT : s.currentTask = some T) (hU : executing s = some U) (hne : U ≠ T) :
    (taskAt s.tasks T).priority < (taskAt s.tasks U).priority ∧
      ¬ ((taskAt s.tasks U).priority = (taskAt s.tasks T).priority ∧
          (taskAt s.tasks U).arrivalTime = (taskAt s.tasks T).arrivalTime) := by
  have hprio : ∀ i, (taskAt (admitTasks s).tasks i).priority = (taskAt s.tasks i).priority := by
    intro i; rw [taskAt_admitTasks, admitOne_priority]
  have hcur : (admitTasks s).currentTask = some T := hT
  have key : (taskAt (admitTasks s).tasks T).priority < (taskAt (admitTasks s).tasks U).priority := by
    unfold executing preempt at hU
    cases htop : queueTop (admitTasks s).tasks (admitTasks s).readyQueue with
    | none =>
      rw [htop] at hU
      simp only [hcur] at hU
      injection hU with hU
      exact absurd hU.symm hne
    | some top =>
      rw [htop] at hU
      simp only [hcur] at hU
      obtain ⟨htm, _⟩ := queueTop_spec _ _ _ htop
      by_cases hp : (taskAt (admitTasks s).tasks top).priority > (taskAt (admitTasks s).tasks T).priority
      · rw [if_pos hp] at hU
        by_cases hr : (taskAt (admitTasks s).tasks T).remainingTime > 0
        · rw [if_pos hr] at hU
          simp only [takeTop] at hU
          obtain ⟨_, hmax⟩ := queueTop_spec _ _ _ hU
          have := (hmax top (List.mem_append_left _ htm)).1
          omega
        · rw [if_neg hr] at hU
          simp only [takeTop] at hU
          rw [htop] at hU
          injection hU with hU
          subst hU
          exact hp
      · rw [if_neg hp] at hU
        rw [hcur] at hU
        injection hU with hU
        exact absurd hU.symm hne
  rw [hprio, hprio] at key
  exact ⟨key, fun hcon => by omega⟩

/-- Witness of C4: at tick 1 of the two-task example `B` (priority 2) displaces the
running task `A` (priority 1). -/
theorem C4_witness :
    (demoAt 1).currentTask = some 0 ∧ executing (demoAt 1) = some 1 ∧
      ((taskAt (demoAt 1).tasks 0).priority < (taskAt (demoAt 1).tasks 1).priority ∧
        ¬ ((taskAt (demoAt 1).tasks 1).priority = (taskAt (demoAt 1).tasks 0).priority ∧
            (taskAt (demoAt 1).tasks 1).arrivalTime =
              (taskAt (demoAt 1).tasks 0).arrivalTime)) :=
  ⟨by decide, by decide,
    C4_displaced_only_by_higher_priority (demoAt 1) 0 1 (by decide) (by decide) (by decide)⟩

/-- C5: the run from `currentTime = 0` on `A(0, 1, 4)` and `B(1, 2, 3)` takes exactly 7
iterations; `A` executes at tick 0 (`A.startTime = 0`), at tick 1 the unfinished `A` is
current and `B` executes instead, and the run ends with `B.endTime = 4` and
`A.endTime = 7`. -/
theorem C5_two_task_example :
    schedule 6 0 demoTasks = none ∧
    (schedule 7 0 demoTasks).map (fun s => generateGanttChart s.tasks)
      = some [("A", 0, 7), ("B", 1, 4)] ∧
    (List.range 7).map (fun n => executing (demoAt n))
      = [some 0, some 1, some 1, some 1, some 0, some 0, some 0] ∧
    (demoAt 1).currentTask = some 0 ∧ (demoAt 1).currentTime = 1 ∧
    (taskAt (demoAt 1).tasks 0).name = "A" ∧ (taskAt (demoAt 1).tasks 0).startTime = 0 ∧
    (taskAt (demoAt 1).tasks 0).remainingTime = 3 ∧
    (taskAt (demoAt 1).tasks 1).name = "B" := by
  decide

theorem sortLess_eq_false_iff (a b : Task) : sortLess b a = false ↔ SortedBefore a b := by
  simp only [sortLess, SortedBefore, Bool.or_eq_false_iff, Bool.and_eq_false_iff,
    decide_eq_false_iff_not, gt_iff_lt]
  constructor
  · rintro ⟨h1, h2⟩
    omega
  · intro h
    omega

theorem sortTasks_sorted (ts : List Task) : (sortTasks ts).Pairwise SortedBefore := by
  haveI : IsTotal Task (fun a b => sortLess b a = false) :=
    ⟨fun a b => by
      simp only [sortLess_eq_false_iff, SortedBefore]
      omega⟩
  haveI : IsTrans Task (fun a b => sortLess b a = false) :=
    ⟨fun a b c hab hbc => by
      simp only [sortLess_eq_false_iff, SortedBefore] at hab hbc ⊢
      omega⟩
  have h := List.sorted_insertionSort (fun a b : Task => sortLess b a = false) ts
  exact List.Pairwise.imp (fun hab => (sortLess_eq_false_iff _ _).1 hab) h

theorem pairwise_sortedBefore_of_static {ts us : List Task}
    (h : ts.map Task.static = us.map Task.static) (hs : us.Pairwise SortedBefore) :
    ts.Pairwise SortedBefore := by
  have key : ∀ l : List Task, l.Pairwise SortedBefore ↔
      (l.map Task.static).Pairwise
        (fun p q => p.2.1 < q.2.1 ∨ (p.2.1 = q.2.1 ∧ q.2.2.1 ≤ p.2.2.1)) := by
    intro l
    rw [List.pairwise_map]
    rfl
  rw [key, h, ← key]
  exact hs

theorem sorted_perm_eq_of_strict {ts us : List Task} (hperm : us.Perm ts)
    (hsorted : us.Pairwise (fun a b => sortLess b a = false))
    (hstrict : ts.Pairwise (fun a b => sortLess a b = true)) : us = ts := by
  refine List.Perm.eq_of_sorted ?_ hsorted
    (List.Pairwise.imp (fun hab => sortLess_asymm hab) hstrict) hperm
  intro a b ha hb hab hba
  have ha1 : a ∈ ts := hperm.mem_iff.1 ha
  by_contra hne
  have hsymm : Symmetric (fun a b : Task => sortLess a b = true ∨ sortLess b a = true) :=
    fun x y h => h.symm
  have hor := (List.Pairwise.imp (fun h => Or.inl h) hstrict).forall hsymm ha1 hb hne
  rcases hor with h | h
  · rw [h] at hba; exact Bool.noConfusion hba
  · rw [h] at hab; exact Bool.noConfusion hab

/-- C6 as stated fails: two tasks loaded as `A` (arrival 1) then `B` (arrival 0) are
listed by the Gantt chart as `B` then `A`. -/
theorem C6_counterexample :
    (loadTasks [] lateFirst).map (fun t => t.name) = ["A", "B"] ∧
    (schedule 2 0 (loadTasks [] lateFirst)).map
        (fun s => (generateGanttChart s.tasks).map (fun e => e.1)) = some ["B", "A"] := by
  decide

/-- C6, amended: the Gantt listing is in registry order, which is the order in which
`std::sort` leaves the loaded tasks, not the load order.  For every order `us` that
`std::sort` may leave (a permutation of the loaded list `ts` in which no task comes
before an earlier one for the comparator; the order of tasks with equal arrival time and
equal priority is not determined), after any number of iterations of the loop the names
listed are those of `us` in order; they are a permutation of the loaded names; and they
are in load order when the load order is strictly ascending for the comparator.  The
registry of `initSched` is one such order, so the same holds of the state that
`Scheduler::schedule` returns. -/
theorem C6_gantt_lists_sorted_registry (ts us : List Task) (hperm : us.Perm ts)
    (hsorted : us.Pairwise (fun a b => sortLess b a = false)) (n : Nat) (now : Int) :
    (generateGanttChart (runLoop n (loopEntry now us)).tasks).map (fun e => e.1)
      = us.map (fun t => t.name) ∧
    ((generateGanttChart (runLoop n (loopEntry now us)).tasks).map (fun e => e.1)).Perm
      (ts.map (fun t => t.name)) ∧
    (ts.Pairwise (fun a b => sortLess a b = true) →
      (generateGanttChart (runLoop n (loopEntry now us)).tasks).map (fun e => e.1)
        = ts.map (fun t => t.name)) ∧
    (initSched now ts = loopEntry now (sortTasks ts) ∧ (sortTasks ts).Perm ts ∧
      (sortTasks ts).Pairwise (fun a b => sortLess b a = false)) ∧
    (∀ fuel s, schedule fuel now ts = some s →
      (generateGanttChart s.tasks).map (fun e => e.1) = s.tasks.map (fun t => t.name) ∧
      (s.tasks.map (fun t => t.name)).Perm (ts.map (fun t => t.name)) ∧
      s.tasks.Pairwise (fun a b => sortLess b a = false) ∧
      (ts.Pairwise (fun a b => sortLess a b = true) →
        (generateGanttChart s.tasks).map (fun e => e.1) = ts.map (fun t => t.name))) := by
  have names_of_static : ∀ l m : List Task, l.map Task.static = m.map Task.static →
      (generateGanttChart l).map (fun e => e.1) = m.map (fun t => t.name) := by
    intro l m h
    have := congrArg (List.map (fun p : String × Int × Int × Int => p.1)) h
    simpa [generateGanttChart, Task.static, List.map_map, Function.comp_def] using this
  have hnames : (generateGanttChart (runLoop n (loopEntry now us)).tasks).map (fun e => e.1)
      = us.map (fun t => t.name) :=
    names_of_static _ _ (runLoop_static n (loopEntry now us))
  have hsortedModel : (sortTasks ts).Pairwise (fun a b => sortLess b a = false) :=
    List.Pairwise.imp (fun hab => (sortLess_eq_false_iff _ _).2 hab) (sortTasks_sorted ts)
  refine ⟨hnames, ?_, ?_, ⟨rfl, sortTasks_perm ts, hsortedModel⟩, ?_⟩
  · rw [hnames]; exact hperm.map _
  · intro hstrict
    rw [hnames, sorted_perm_eq_of_strict hperm hsorted hstrict]
  · intro fuel s hs
    obtain ⟨h1, _⟩ := schedule_eq_some hs
    have hstat : s.tasks.map Task.static = (sortTasks ts).map Task.static := by
      rw [h1, runLoop_static]; rfl
    have hn : s.tasks.map (fun t => t.name) = (sortTasks ts).map (fun t => t.name) := by
      have := congrArg (List.map (fun p : String × Int × Int × Int => p.1)) hstat
      simpa [Task.static, List.map_map, Function.comp_def] using this
    have hg : (generateGanttChart s.tasks).map (fun e => e.1)
        = s.tasks.map (fun t => t.name) := names_of_static _ _ rfl
    refine ⟨hg, ?_, ?_, ?_⟩
    · rw [hn]; exact (sortTasks_perm ts).map _
    · exact List.Pairwise.imp (fun hab => (sortLess_eq_false_iff _ _).2 hab)
        (pairwise_sortedBefore_of_static hstat (sortTasks_sorted ts))
    · intro hstrict
      rw [hg, hn, sortTasks_of_sorted hstrict]

/-- Witness of C6 (amended) on the two-task example, whose load order is sorted. -/
theorem C6_witness :
    demoTasks.Perm demoTasks ∧
    demoTasks.Pairwise (fun a b => sortLess b a = false) ∧
    demoTasks.Pairwise (fun a b => sortLess a b = true) ∧
    (generateGanttChart (runLoop 7 (loopEntry 0 demoTasks)).tasks).map (fun e => e.1)
      = demoTasks.map (fun t => t.name) :=
  ⟨List.Perm.refl _, by decide, by decide,
    (C6_gantt_lists_sorted_registry demoTasks demoTasks (List.Perm.refl _) (by decide) 7
      0).2.2.1 (by decide)⟩

/-- C7: in a run of `Scheduler::schedule` from `currentTime = 0` on freshly loaded
tasks, a start time that is set is never below the arrival time and is never assigned
again, and an iteration that assigns a start time does so to an unset one, at a tick
with `arrivalTime ≤ currentTime`, giving it the value of the clock, which is not `-1`. -/
theorem C7_startTime_set_once_not_before_arrival (ts : List Task) (hf : Fresh ts)
    (n : Nat) (s : Sched) (hs : s = runLoop n (initSched 0 ts)) (i : Nat) :
    ((taskAt s.tasks i).startTime ≠ -1 →
      (taskAt s.tasks i).arrivalTime ≤ (taskAt s.tasks i).startTime ∧
        (taskAt (loopBody s).tasks i).startTime = (taskAt s.tasks i).startTime) ∧
    ((taskAt (loopBody s).tasks i).startTime ≠ (taskAt s.tasks i).startTime →
      (taskAt s.tasks i).startTime = -1 ∧ (taskAt s.tasks i).arrivalTime ≤ s.currentTime ∧
        (taskAt (loopBody s).tasks i).startTime = s.currentTime ∧ s.currentTime ≠ -1) := by
  have hok : StartsOk s := by rw [hs]; exact startsOk_runLoop n (startsOk_init hf)
  rw [loopBody_startTime]
  by_cases ha : admissible s.currentTime (taskAt s.tasks i) = true
  · obtain ⟨h1, _, h3⟩ := (admissible_iff _ _).1 ha
    rw [admitOne_of_admissible ha]
    have := hok.1
    refine ⟨fun hset => absurd h3 hset, fun _ => ⟨h3, h1, rfl, by omega⟩⟩
  · rw [admitOne_of_not ha]
    exact ⟨fun hset => ⟨(hok.2 i hset).2, rfl⟩, fun hcon => absurd rfl hcon⟩

/-- Witness of C7: task `B` of the two-task example gets its start time in the second
iteration. -/
theorem C7_witness :
    Fresh demoTasks ∧
    (((taskAt (demoAt 1).tasks 1).startTime ≠ -1 →
      (taskAt (demoAt 1).tasks 1).arrivalTime ≤ (taskAt (demoAt 1).tasks 1).startTime ∧
        (taskAt (loopBody (demoAt 1)).tasks 1).startTime
          = (taskAt (demoAt 1).tasks 1).startTime) ∧
    ((taskAt (loopBody (demoAt 1)).tasks 1).startTime ≠ (taskAt (demoAt 1).tasks 1).startTime →
      (taskAt (demoAt 1).tasks 1).startTime = -1 ∧
        (taskAt (demoAt 1).tasks 1).arrivalTime ≤ (demoAt 1).currentTime ∧
        (taskAt (loopBody (demoAt 1)).tasks 1).startTime = (demoAt 1).currentTime ∧
        (demoAt 1).currentTime ≠ -1)) :=
  ⟨by decide,
    C7_startTime_set_once_not_before_arrival demoTasks (by decide) 1 (demoAt 1) rfl 1⟩

/-- C10: on the empty task list `Scheduler::schedule` returns at once, whatever the
iteration budget: the loop performs no iteration, the clock keeps its value and the
registry is empty. -/
theorem C10_empty_task_list (fuel : Nat) (now : Int) :
    schedule fuel now [] =
      some { tasks := [], readyQueue := [], currentTask := none, currentTime := now,
             completedTasks := 0 } ∧
    iterations fuel (initSched now []) = 0 := by
  cases fuel <;>
    simp [schedule, runLoop, iterations, initSched, sortTasks, loopCond]

/-! ## The line parser -/

theorem while_split {p : Char → Bool} (w r : List Char) (hw : ∀ c ∈ w, p c = true)
    (hr : ∀ c, r.head? = some c → p c = false) :
    (w ++ r).dropWhile p = r ∧ (w ++ r).takeWhile p = w := by
  have h1 : r.dropWhile p = r ∧ r.takeWhile p = [] := by
    cases r with
    | nil => exact ⟨rfl, rfl⟩
    | cons c r' =>
      have hc : ¬ p c = true := by simp [hr c rfl]
      exact ⟨List.dropWhile_cons_of_neg hc, List.takeWhile_cons_of_neg hc⟩
  rw [List.dropWhile_append_of_pos hw, List.takeWhile_append_of_pos hw, h1.1, h1.2]
  simp

theorem while_parts (p : Char → Bool) (s : List Char) :
    s = s.takeWhile p ++ s.dropWhile p ∧ (∀ c ∈ s.takeWhile p, p c = true) ∧
      (∀ c, (s.dropWhile p).head? = some c → p c = false) := by
  refine ⟨(List.takeWhile_append_dropWhile p s).symm, fun c hc => List.mem_takeWhile_imp hc, ?_⟩
  intro c hc
  have := List.head?_dropWhile_not p s
  rw [hc] at this
  exact this

theorem isDigit_not_space {c : Char} (h : c.isDigit = true) : isSpace c = false := by
  simp only [isSpace, Bool.or_eq_false_iff, decide_eq_false_iff_not]
  refine ⟨⟨⟨⟨⟨?_, ?_⟩, ?_⟩, ?_⟩, ?_⟩, ?_⟩ <;>
    (rintro rfl; revert h; decide)

theorem isDigit_ne_minus {c : Char} (h : c.isDigit = true) : c ≠ '-' := by
  rintro rfl; revert h; decide

theorem isDigit_ne_plus {c : Char} (h : c.isDigit = true) : c ≠ '+' := by
  rintro rfl; revert h; decide

theorem isDigit_ne_comma {c : Char} (h : c.isDigit = true) : c ≠ ',' := by
  rintro rfl; revert h; decide

theorem isSpace_ne_comma {c : Char} (h : isSpace c = true) : c ≠ ',' := by
  rintro rfl; revert h; decide

theorem readSign_spec (s : List Char) :
    ∃ sgn, s = sgn ++ (readSign s).2 ∧ (sgn = [] ∨ sgn = ['+'] ∨ sgn = ['-']) ∧
      ((readSign s).1 = true ↔ sgn = ['-']) := by
  cases s with
  | nil => exact ⟨[], rfl, Or.inl rfl, by simp [readSign]⟩
  | cons c r =>
    by_cases h1 : c = '-'
    · subst h1
      exact ⟨['-'], by simp [readSign], Or.inr (Or.inr rfl), by simp [readSign]⟩
    · by_cases h2 : c = '+'
      · subst h2
        refine ⟨['+'], by simp [readSign], Or.inr (Or.inl rfl), ?_⟩
        simp only [readSign, if_neg h1, if_true]
        constructor
        · intro h; exact absurd h (by simp)
        · intro h; exact absurd h (by decide)
      · exact ⟨[], by simp [readSign, h1, h2], Or.inl rfl, by simp [readSign, h1, h2]⟩

theorem readSign_of_shape (sgn ds r : List Char)
    (hs : sgn = [] ∨ sgn = ['+'] ∨ sgn = ['-']) (hne : ds ≠ [])
    (hd : ∀ c ∈ ds, c.isDigit = true) :
    readSign (sgn ++ ds ++ r) = (decide (sgn = ['-']), ds ++ r) := by
  rcases hs with rfl | rfl | rfl
  · cases ds with
    | nil => exact absurd rfl hne
    | cons c ds' =>
      have hc := hd c (List.mem_cons_self _ _)
      simp [readSign, isDigit_ne_minus hc, isDigit_ne_plus hc]
  · simp [readSign]
  · simp [readSign]

theorem readInt_of_lit {f : List Char} {v : Int} (h : IntLit f v) (r : List Char)
    (hr : ∀ c, r.head? = some c → c.isDigit = false) : readInt (f ++ r) = some (v, r) := by
  obtain ⟨ws, sgn, ds, rfl, hws, hsgn, hne, hds, hv, hlo, hhi⟩ := h
  have hhead : ∀ c, (sgn ++ ds ++ r).head? = some c → isSpace c = false := by
    intro c hc
    rcases hsgn with rfl | rfl | rfl
    · cases ds with
      | nil => exact absurd rfl hne
      | cons d ds' =>
        simp only [List.nil_append, List.cons_append, List.head?_cons, Option.some.injEq] at hc
        subst hc
        exact isDigit_not_space (hds _ (List.mem_cons_self _ _))
    · simp only [List.cons_append, List.head?_cons, Option.some.injEq] at hc
      subst hc; decide
    · simp only [List.cons_append, List.head?_cons, Option.some.injEq] at hc
      subst hc; decide
  have h1 : (ws ++ sgn ++ ds ++ r).dropWhile isSpace = sgn ++ ds ++ r := by
    have := (while_split ws (sgn ++ ds ++ r) hws hhead).1
    simpa [List.append_assoc] using this
  obtain ⟨h2, h3⟩ := while_split ds r hds hr
  unfold readInt
  simp only [h1, readSign_of_shape sgn ds r hsgn hne hds, h2, h3, if_neg hne]
  have hv2 : (if decide (sgn = ['-']) = true then -(digitsVal ds : Int) else (digitsVal ds : Int))
      = v := by
    rw [hv]; simp
  rw [hv2, if_pos ⟨hlo, hhi⟩]

theorem readInt_spec {s r : List Char} {v : Int} (h : readInt s = some (v, r)) :
    ∃ f, s = f ++ r ∧ IntLit f v ∧ (∀ c, r.head? = some c → c.isDigit = false) := by
  unfold readInt at h
  simp only at h
  by_cases hne : (readSign (s.dropWhile isSpace)).2.takeWhile Char.isDigit = []
  · rw [if_pos hne] at h
    exact absurd h (by simp)
  · rw [if_neg hne] at h
    by_cases hrange : INT_MIN ≤ (if (readSign (s.dropWhile isSpace)).1 = true
          then -(digitsVal ((readSign (s.dropWhile isSpace)).2.takeWhile Char.isDigit) : Int)
          else (digitsVal ((readSign (s.dropWhile isSpace)).2.takeWhile Char.isDigit) : Int)) ∧
        (if (readSign (s.dropWhile isSpace)).1 = true
          then -(digitsVal ((readSign (s.dropWhile isSpace)).2.takeWhile Char.isDigit) : Int)
          else (digitsVal ((readSign (s.dropWhile isSpace)).2.takeWhile Char.isDigit) : Int))
          ≤ INT_MAX
    · rw [if_pos hrange] at h
      simp only [Option.some.injEq, Prod.mk.injEq] at h
      obtain ⟨hv, hr⟩ := h
      obtain ⟨sgn, hsplit, hsgn, hneg⟩ := readSign_spec (s.dropWhile isSpace)
      obtain ⟨hp1, hp2, _⟩ := while_parts isSpace s
      obtain ⟨hq1, hq2, hq3⟩ := while_parts Char.isDigit (readSign (s.dropWhile isSpace)).2
      refine ⟨s.takeWhile isSpace ++ sgn ++
        (readSign (s.dropWhile isSpace)).2.takeWhile Char.isDigit, ?_, ?_, ?_⟩
      · rw [← hr]
        calc s = s.takeWhile isSpace ++ s.dropWhile isSpace := hp1
          _ = s.takeWhile isSpace ++ (sgn ++ (readSign (s.dropWhile isSpace)).2) := by
              rw [← hsplit]
          _ = _ := by
              conv_lhs => rw [hq1]
              simp [List.append_assoc]
      · refine ⟨_, sgn, _, rfl, hp2, hsgn, hne, hq2, ?_, ?_, ?_⟩
        · rw [← hv]
          by_cases hb : (readSign (s.dropWhile isSpace)).1 = true
          · rw [if_pos hb, if_pos (hneg.1 hb)]
          · rw [if_neg hb, if_neg (fun hc => hb (hneg.2 hc))]
        · rw [← hv]; exact hrange.1
        · rw [← hv]; exact hrange.2
      · rw [← hr]; exact hq3
    · rw [if_neg hrange] at h
      exact absurd h (by simp)

theorem readChar_of_shape (w : List Char) (c : Char) (r : List Char)
    (hw : ∀ x ∈ w, isSpace x = true) (hc : isSpace c = false) :
    readChar (w ++ c :: r) = some (c, r) := by
  have := (while_split w (c :: r) hw (by
    intro x hx
    simp only [List.head?_cons, Option.some.injEq] at hx
    subst hx; exact hc)).1
  simp [readChar, this]

theorem readChar_spec {s r : List Char} {c : Char} (h : readChar s = some (c, r)) :
    ∃ w, s = w ++ c :: r ∧ (∀ x ∈ w, isSpace x = true) := by
  unfold readChar at h
  obtain ⟨hp1, hp2, _⟩ := while_parts isSpace s
  split at h
  · exact absurd h (by simp)
  · rename_i c' r' heq
    simp only [Option.some.injEq, Prod.mk.injEq] at h
    obtain ⟨rfl, rfl⟩ := h
    exact ⟨s.takeWhile isSpace, by rw [← heq]; exact hp1, hp2⟩

theorem readIntComma_of_shape {f : List Char} {v : Int} (h : IntLit f v) (w r : List Char)
    (hw : ∀ x ∈ w, isSpace x = true) :
    readIntComma (f ++ w ++ ',' :: r) = some (v, r) := by
  have hhead : ∀ c, (w ++ ',' :: r).head? = some c → c.isDigit = false := by
    intro c hc
    cases w with
    | nil =>
      simp only [List.nil_append, List.head?_cons, Option.some.injEq] at hc
      subst hc; decide
    | cons x w' =>
      simp only [List.cons_append, List.head?_cons, Option.some.injEq] at hc
      subst hc
      have hx := hw x (List.mem_cons_self _ _)
      by_contra hcon
      have := isDigit_not_space (by simpa using hcon : x.isDigit = true)
      rw [hx] at this
      exact absurd this (by simp)
  unfold readIntComma
  rw [List.append_assoc, readInt_of_lit h _ hhead]
  simp only
  rw [readChar_of_shape w ',' r hw (by decide)]
  simp

theorem readIntComma_spec {s r : List Char} {v : Int} (h : readIntComma s = some (v, r)) :
    ∃ f w, s = f ++ w ++ ',' :: r ∧ IntLit f v ∧ (∀ x ∈ w, isSpace x = true) := by
  unfold readIntComma at h
  split at h
  · exact absurd h (by simp)
  · rename_i v1 s1 hint
    split at h
    · exact absurd h (by simp)
    · rename_i c s2 hchar
      split at h
      · rename_i hc
        simp only [Option.some.injEq, Prod.mk.injEq] at h
        obtain ⟨rfl, rfl⟩ := h
        subst hc
        obtain ⟨f, hf, hlit, _⟩ := readInt_spec hint
        obtain ⟨w, hw, hsp⟩ := readChar_spec hchar
        exact ⟨f, w, by rw [hf, hw, List.append_assoc], hlit, hsp⟩
      · exact absurd h (by simp)

theorem getlineComma_of_shape (name r : List Char) (h : ',' ∉ name) :
    getlineComma (name ++ ',' :: r) = some (name, r) := by
  have hname : ∀ c ∈ name, (fun x : Char => x != ',') c = true := by
    intro c hc
    simp only [bne_iff_ne, ne_eq]
    rintro rfl
    exact h hc
  obtain ⟨h1, h2⟩ := while_split (p := fun x : Char => x != ',') name (',' :: r) hname (by
    intro c hc
    simp only [List.head?_cons, Option.some.injEq] at hc
    subst hc; simp)
  cases hl : name ++ ',' :: r with
  | nil => simp at hl
  | cons c l =>
    simp only [getlineComma]
    rw [← hl, h1, h2]
    simp

theorem getlineComma_spec {l name r : List Char} (h : getlineComma l = some (name, r)) :
    ',' ∉ name ∧ (l = name ++ ',' :: r ∨ r = []) := by
  cases l with
  | nil => simp [getlineComma] at h
  | cons c l' =>
    simp only [getlineComma, Option.some.injEq, Prod.mk.injEq] at h
    obtain ⟨hn, hr⟩ := h
    obtain ⟨hp1, hp2, hp3⟩ := while_parts (fun x : Char => x != ',') (c :: l')
    refine ⟨?_, ?_⟩
    · intro hmem
      rw [← hn] at hmem
      have := hp2 _ hmem
      simp at this
    · cases hd : (c :: l').dropWhile (fun x : Char => x != ',') with
      | nil => right; rw [← hr, hd]; rfl
      | cons d rest =>
        left
        have hdc : d = ',' := by
          have := hp3 d (by rw [hd]; rfl)
          simpa using this
        subst hdc
        rw [hd] at hr hp1
        simp only [List.drop_succ_cons, List.drop_zero] at hr
        rw [← hn, ← hr]
        exact hp1

theorem readIntComma_nil : readIntComma [] = none := by
  simp [readIntComma, readInt, readSign]

theorem parseLine_eq_some_iff (line : String) (t : Task) :
    parseLine line = some t ↔
      ∃ name a p b, LineShape (trimLine line.toList) name a p b ∧
        t = mkTask (String.mk name) a p b := by
  constructor
  · intro h
    unfold parseLine at h
    split at h
    · exact absurd h (by simp)
    · rename_i name s1 hname
      split at h
      · exact absurd h (by simp)
      · rename_i a s2 ha
        split at h
        · exact absurd h (by simp)
        · rename_i p s3 hp
          split at h
          · exact absurd h (by simp)
          · rename_i b s4 hb
            injection h with h
            obtain ⟨hnc, hl⟩ := getlineComma_spec hname
            rcases hl with hl | hl
            · obtain ⟨f1, w1, e1, l1, hw1⟩ := readIntComma_spec ha
              obtain ⟨f2, w2, e2, l2, hw2⟩ := readIntComma_spec hp
              obtain ⟨f3, e3, l3, hrest⟩ := readInt_spec hb
              refine ⟨name, a, p, b, ⟨f1, w1, f2, w2, f3, s4, ?_, hnc, l1, hw1, l2, hw2, l3, hrest⟩,
                h.symm⟩
              rw [hl, e1, e2, e3]
            · rw [hl, readIntComma_nil] at ha
              exact absurd ha (by simp)
  · rintro ⟨name, a, p, b, ⟨f1, w1, f2, w2, f3, rest, hl, hnc, l1, hw1, l2, hw2, l3, hrest⟩, rfl⟩
    unfold parseLine
    rw [hl, getlineComma_of_shape _ _ hnc]
    simp only
    rw [readIntComma_of_shape l1 w1 _ hw1]
    simp only
    rw [readIntComma_of_shape l2 w2 _ hw2]
    simp only
    rw [readInt_of_lit l3 rest hrest]

theorem loadTasks_eq (lines : List String) :
    ∀ reg : List Task, loadTasks reg lines = reg ++ lines.filterMap parseLine := by
  induction lines with
  | nil => intro reg; simp [loadTasks]
  | cons l rest ih =>
    intro reg
    cases h : parseLine l with
    | none => simp [loadTasks, h, ih]
    | some t => simp [loadTasks, h, ih]

theorem splitComma_ne_nil (l : List Char) : splitComma l ≠ [] := by
  induction l with
  | nil => simp [splitComma]
  | cons c r ih =>
    unfold splitComma
    split
    · simp
    · split <;> simp

theorem splitComma_append (x y : List Char) (h : ',' ∉ x) :
    ∃ g fs, splitComma y = g :: fs ∧ splitComma (x ++ y) = (x ++ g) :: fs := by
  induction x with
  | nil =>
    cases hy : splitComma y with
    | nil => exact absurd hy (splitComma_ne_nil y)
    | cons g fs => exact ⟨g, fs, rfl, by simpa using hy⟩
  | cons c x ih =>
    have hc : c ≠ ',' := fun hcon => h (by rw [hcon]; exact List.mem_cons_self _ _)
    obtain ⟨g, fs, h1, h2⟩ := ih (fun hcon => h (List.mem_cons_of_mem _ hcon))
    refine ⟨g, fs, h1, ?_⟩
    have h3 : splitComma (c :: (x ++ y)) = (c :: (x ++ g)) :: fs := by
      rw [splitComma, if_neg hc, h2]
    simpa using h3

theorem splitComma_append_comma (x y : List Char) (h : ',' ∉ x) :
    splitComma (x ++ ',' :: y) = x :: splitComma y := by
  obtain ⟨g, fs, h1, h2⟩ := splitComma_append x (',' :: y) h
  simp only [splitComma, if_true, List.cons.injEq] at h1
  rw [h2, ← h1.1, ← h1.2]
  simp

theorem comma_not_mem_lit {f : List Char} {v : Int} (h : IntLit f v) : ',' ∉ f := by
  obtain ⟨ws, sgn, ds, rfl, hws, hsgn, _, hds, _⟩ := h
  simp only [List.mem_append, not_or]
  refine ⟨⟨fun hc => isSpace_ne_comma (hws _ hc) rfl, ?_⟩,
    fun hc => isDigit_ne_comma (hds _ hc) rfl⟩
  rcases hsgn with rfl | rfl | rfl
  · simp
  · decide
  · decide

theorem comma_not_mem_spaces {w : List Char} (h : ∀ c ∈ w, isSpace c = true) : ',' ∉ w :=
  fun hc => isSpace_ne_comma (h _ hc) rfl

theorem fields_of_shape {l name : List Char} {a p b : Int} (h : LineShape l name a p b) :
    ∃ f1 f2 f3 more, splitComma l = name :: f1 :: f2 :: f3 :: more ∧
      IsIntField f1 ∧ IsIntField f2 ∧ StartsWithInt f3 := by
  obtain ⟨f1, w1, f2, w2, f3, rest, hl, hnc, l1, hw1, l2, hw2, l3, _⟩ := h
  have hc1 : ',' ∉ f1 ++ w1 := by
    simp only [List.mem_append, not_or]
    exact ⟨comma_not_mem_lit l1, comma_not_mem_spaces hw1⟩
  have hc2 : ',' ∉ f2 ++ w2 := by
    simp only [List.mem_append, not_or]
    exact ⟨comma_not_mem_lit l2, comma_not_mem_spaces hw2⟩
  obtain ⟨g, fs, _, h3⟩ := splitComma_append f3 rest (comma_not_mem_lit l3)
  refine ⟨f1 ++ w1, f2 ++ w2, f3 ++ g, fs, ?_, ⟨f1, a, w1, rfl, l1, hw1⟩,
    ⟨f2, p, w2, rfl, l2, hw2⟩, ⟨f3, b, g, rfl, l3⟩⟩
  rw [hl, splitComma_append_comma _ _ hnc, splitComma_append_comma _ _ hc1,
    splitComma_append_comma _ _ hc2, h3]

theorem parseLine_fields {line : String} {t : Task} (h : parseLine line = some t) :
    ∃ name f1 f2 f3 more, fieldsOf line = name :: f1 :: f2 :: f3 :: more ∧
      IsIntField f1 ∧ IsIntField f2 ∧ StartsWithInt f3 := by
  obtain ⟨name, a, p, b, hshape, _⟩ := (parseLine_eq_some_iff line t).1 h
  obtain ⟨f1, f2, f3, more, h1, h2, h3, h4⟩ := fields_of_shape hshape
  exact ⟨name, f1, f2, f3, more, h1, h2, h3, h4⟩

/-! ## The loading claims -/

/-- C8 as stated fails: the fourth field of the line `"T,0,1,5ms"` is `5ms`, which is not
a number, yet the line is not skipped: it contributes the task `T(0, 1, 5)`. -/
theorem C8_counterexample :
    fieldsOf "T,0,1,5ms" = [['T'], ['0'], ['1'], ['5', 'm', 's']] ∧
    isIntegerField ['5', 'm', 's'] = false ∧ ¬ IsIntField ['5', 'm', 's'] ∧
    parseLine "T,0,1,5ms" = some (mkTask "T" 0 1 5) ∧
    loadTasks [] ["A,0,1,4", "T,0,1,5ms"] = [mkTask "A" 0 1 4, mkTask "T" 0 1 5] := by
  refine ⟨by decide, by decide, ?_, by decide, by decide⟩
  rintro ⟨lit, v, w, hf, ⟨ws, sgn, ds, hlit, hws, hsgn, _, hds, _⟩, hw⟩
  have hm : 'm' ∈ lit ++ w := by rw [← hf]; decide
  rcases List.mem_append.1 hm with h | h
  · rw [hlit] at h
    rcases List.mem_append.1 h with h | h
    · rcases List.mem_append.1 h with h | h
      · exact absurd (hws _ h) (by decide)
      · rcases hsgn with rfl | rfl | rfl
        · exact absurd h (by decide)
        · exact absurd h (by decide)
        · exact absurd h (by decide)
    · exact absurd (hds _ h) (by decide)
  · exact absurd (hw _ h) (by decide)

/-- C8, amended: `Scheduler::loadTasks` appends one task per accepted line, in input
order, each line being treated independently of the others; an accepted task has
`startTime = endTime = -1` and `remainingTime = burstTime`; a line of the shape
`name,arrival,priority,burst` (numerals fitting in `int`), whatever follows the digits
of the burst time, is accepted with its four fields in that order; a line with fewer
than four comma-separated fields, or whose second or third field is not a numeral, or
whose fourth field does not begin with a numeral, contributes no task (so does
`"Bad,,1"`), and dropping a rejected line from the input leaves the registry
unchanged. -/
theorem C8_loadTasks_one_task_per_wellformed_line :
    (∀ (reg : List Task) (lines : List String),
      loadTasks reg lines = reg ++ lines.filterMap parseLine) ∧
    (∀ (line : String) (t : Task), parseLine line = some t →
      t.startTime = -1 ∧ t.endTime = -1 ∧ t.remainingTime = t.burstTime) ∧
    (∀ (line : String) (name : List Char) (a p b : Int),
      LineShape (trimLine line.toList) name a p b →
        parseLine line = some (mkTask (String.mk name) a p b)) ∧
    (∀ line : String,
      ((fieldsOf line).length < 4 ∨
        (∃ f, (fieldsOf line)[1]? = some f ∧ ¬ IsIntField f) ∨
        (∃ f, (fieldsOf line)[2]? = some f ∧ ¬ IsIntField f) ∨
        (∃ f, (fieldsOf line)[3]? = some f ∧ ¬ StartsWithInt f)) →
      parseLine line = none) ∧
    parseLine "Bad,,1" = none ∧
    (∀ (reg : List Task) (pre post : List String) (bad : String), parseLine bad = none →
      loadTasks reg (pre ++ bad :: post) = loadTasks reg (pre ++ post)) := by
  refine ⟨fun reg lines => loadTasks_eq lines reg, ?_, ?_, ?_, by decide, ?_⟩
  · intro line t h
    obtain ⟨name, a, p, b, _, rfl⟩ := (parseLine_eq_some_iff line t).1 h
    exact ⟨rfl, rfl, rfl⟩
  · intro line name a p b h
    exact (parseLine_eq_some_iff line _).2 ⟨name, a, p, b, h, rfl⟩
  · intro line hbad
    cases hp : parseLine line with
    | none => rfl
    | some t =>
      exfalso
      obtain ⟨name, f1, f2, f3, more, hf, h1, h2, h3⟩ := parseLine_fields hp
      rw [hf] at hbad
      rcases hbad with hlen | ⟨f, hf1, hn⟩ | ⟨f, hf2, hn⟩ | ⟨f, hf3, hn⟩
      · simp only [List.length_cons] at hlen
        omega
      · simp only [List.getElem?_cons_succ, List.getElem?_cons_zero, Option.some.injEq] at hf1
        exact hn (hf1 ▸ h1)
      · simp only [List.getElem?_cons_succ, List.getElem?_cons_zero, Option.some.injEq] at hf2
        exact hn (hf2 ▸ h2)
      · simp only [List.getElem?_cons_succ, List.getElem?_cons_zero, Option.some.injEq] at hf3
        exact hn (hf3 ▸ h3)
  · intro reg pre post bad hbad
    rw [loadTasks_eq, loadTasks_eq, List.filterMap_append, List.filterMap_append,
      List.filterMap_cons_none hbad]

/-- Witness of C8 (amended): the line `"A,0,1,4"` has the accepted shape and is loaded as the
task `A(0, 1, 4)`. -/
theorem C8_witness :
    parseLine "A,0,1,4" = some (mkTask "A" 0 1 4) ∧
    loadTasks [] ["A,0,1,4", "Bad,,1", "B,1,2,3"] = demoTasks :=
  ⟨C8_loadTasks_one_task_per_wellformed_line.2.2.1 "A,0,1,4" ['A'] 0 1 4
      ⟨['0'], [], ['1'], [], ['4'], [], by decide, by decide,
        ⟨[], [], ['0'], by decide, by decide, by decide, by decide, by decide, by decide,
          by decide, by decide⟩,
        by decide,
        ⟨[], [], ['1'], by decide, by decide, by decide, by decide, by decide, by decide,
          by decide, by decide⟩,
        by decide,
        ⟨[], [], ['4'], by decide, by decide, by decide, by decide, by decide, by decide,
          by decide, by decide⟩,
        by decide⟩,
    by decide⟩

/-- C9 as stated fails: the lines `"A,1,2,3,4"` (an extra trailing field) and
`"A,1,2,3x"` (characters after the burst time) do not consist of exactly four fields of
which the last three are integers, yet both are accepted as the task `A(1, 2, 3)`. -/
theorem C9_counterexample :
    fourFieldShape "A,1,2,3,4" = false ∧ parseLine "A,1,2,3,4" = some (mkTask "A" 1 2 3) ∧
    fourFieldShape "A,1,2,3x" = false ∧ parseLine "A,1,2,3x" = some (mkTask "A" 1 2 3) := by
  decide

/-- C9, amended: `Scheduler::loadTasks` accepts a line if and only if, after trimming,
the line begins with a name without comma, a comma, and three numerals fitting in `int`,
the first two each followed by optional white space and a comma; whatever follows the
digits of the third numeral is ignored.  The task built has these four fields. -/
theorem C9_accepts_iff_line_starts_with_four_fields (line : String) (t : Task) :
    parseLine line = some t ↔
      ∃ name a p b, LineShape (trimLine line.toList) name a p b ∧
        t = mkTask (String.mk name) a p b :=
  parseLine_eq_some_iff line t

/-! ## The effect of one iteration on a task -/

theorem taskAt_of_ge {ts : List Task} {i : Nat} (h : ts.length ≤ i) : taskAt ts i = nullTask := by
  simp [taskAt, List.getElem?_eq_none h]

theorem loopBody_task (s : Sched) (i : Nat) :
    taskAt (loopBody s).tasks i =
      if executing s = some i ∧ i < s.tasks.length then
        if (taskAt s.tasks i).remainingTime - 1 = 0 then
          { admitOne s.currentTime (taskAt s.tasks i) with
            remainingTime := (taskAt s.tasks i).remainingTime - 1
            endTime := s.currentTime + 1 }
        else
          { admitOne s.currentTime (taskAt s.tasks i) with
            remainingTime := (taskAt s.tasks i).remainingTime - 1 }
      else admitOne s.currentTime (taskAt s.tasks i) := by
  have hP : ∀ j, taskAt (preempt (admitTasks s)).tasks j
      = admitOne s.currentTime (taskAt s.tasks j) := by
    intro j; rw [preempt_tasks, taskAt_admitTasks]
  have hlen : (preempt (admitTasks s)).tasks.length = s.tasks.length := by simp
  have htime : (preempt (admitTasks s)).currentTime = s.currentTime := by simp
  unfold loopBody
  cases hex : executing s with
  | none =>
    have hcur : (preempt (admitTasks s)).currentTask = none := hex
    rw [execute_idle hcur, if_neg (fun hcon => by simp at hcon)]
    exact hP i
  | some c =>
    have hcur : (preempt (admitTasks s)).currentTask = some c := hex
    have hremc : (taskAt (preempt (admitTasks s)).tasks c).remainingTime
        = (taskAt s.tasks c).remainingTime := by rw [hP, admitOne_remainingTime]
    by_cases hcl : c < s.tasks.length
    · by_cases hr : (taskAt s.tasks c).remainingTime - 1 = 0
      · rw [execute_finish hcur (by rw [hremc]; exact hr)]
        simp only
        rw [taskAt_set _ _ _ _ (by rw [hlen]; exact hcl)]
        by_cases hic : i = c
        · subst hic
          rw [if_pos rfl, if_pos ⟨rfl, hcl⟩, if_pos hr, hP, htime, admitOne_remainingTime]
        · rw [if_neg hic, if_neg (fun hcon => hic (Option.some.inj hcon.1).symm), hP]
      · rw [execute_continue hcur (by rw [hremc]; exact hr)]
        simp only
        rw [taskAt_set _ _ _ _ (by rw [hlen]; exact hcl)]
        by_cases hic : i = c
        · subst hic
          rw [if_pos rfl, if_pos ⟨rfl, hcl⟩, if_neg hr, hP, admitOne_remainingTime]
        · rw [if_neg hic, if_neg (fun hcon => hic (Option.some.inj hcon.1).symm), hP]
    · have hge : (preempt (admitTasks s)).tasks.length ≤ c := by
        rw [hlen]; exact Nat.le_of_not_lt hcl
      have hsame : (execute (preempt (admitTasks s))).tasks = (preempt (admitTasks s)).tasks := by
        unfold execute
        rw [hcur]
        simp only
        split <;> exact List.set_eq_of_length_le hge
      rw [hsame, hP]
      by_cases hic : i = c
      · subst hic
        rw [if_neg (fun hcon => hcl hcon.2)]
      · rw [if_neg (fun hcon => hic (Option.some.inj hcon.1).symm)]

theorem loopBody_remainingTime (s : Sched) (i : Nat) :
    (taskAt (loopBody s).tasks i).remainingTime =
      (taskAt s.tasks i).remainingTime -
        (if executing s = some i ∧ i < s.tasks.length then 1 else 0) := by
  rw [loopBody_task]
  split
  · split <;> simp
  · simp

theorem loopBody_endTime (s : Sched) (i : Nat) :
    (taskAt (loopBody s).tasks i).endTime =
      if (executing s = some i ∧ i < s.tasks.length) ∧ (taskAt s.tasks i).remainingTime = 1
      then s.currentTime + 1 else (taskAt s.tasks i).endTime := by
  rw [loopBody_task]
  by_cases h1 : executing s = some i ∧ i < s.tasks.length
  · rw [if_pos h1]
    by_cases h2 : (taskAt s.tasks i).remainingTime - 1 = 0
    · rw [if_pos h2, if_pos ⟨h1, by omega⟩]
    · rw [if_neg h2, if_neg (fun hcon => h2 (by omega))]
      simp
  · rw [if_neg h1, if_neg (fun hcon => h1 hcon.1)]
    simp

theorem loopBody_priority (s : Sched) (i : Nat) :
    (taskAt (loopBody s).tasks i).priority = (taskAt s.tasks i).priority := by
  rw [loopBody_task]
  split
  · split <;> simp
  · simp

theorem loopBody_arrivalTime (s : Sched) (i : Nat) :
    (taskAt (loopBody s).tasks i).arrivalTime = (taskAt s.tasks i).arrivalTime := by
  rw [loopBody_task]
  split
  · split <;> simp
  · simp

theorem loopBody_burstTime (s : Sched) (i : Nat) :
    (taskAt (loopBody s).tasks i).burstTime = (taskAt s.tasks i).burstTime := by
  rw [loopBody_task]
  split
  · split <;> simp
  · simp

theorem loopBody_length (s : Sched) : (loopBody s).tasks.length = s.tasks.length :=
  length_eq_of_static (loopBody_static s)

/-! ## Tasks of a reachable state and tasks of the input -/

theorem taskAt_static_of_map_eq {ts us : List Task}
    (h : ts.map Task.static = us.map Task.static) (i : Nat) :
    (taskAt ts i).static = (taskAt us i).static := by
  have h1 := congrArg (fun l => l[i]?) h
  simp only [List.getElem?_map] at h1
  unfold taskAt
  cases h2 : ts[i]? with
  | none =>
    rw [h2] at h1
    cases h3 : us[i]? with
    | none => rfl
    | some b => rw [h3] at h1; simp at h1
  | some a =>
    rw [h2] at h1
    cases h3 : us[i]? with
    | none => rw [h3] at h1; simp at h1
    | some b =>
      rw [h3] at h1
      simpa using h1

theorem static_arrivalTime {a b : Task} (h : a.static = b.static) :
    a.arrivalTime = b.arrivalTime := by
  have := congrArg (fun p => p.2.1) h
  simpa [Task.static] using this

theorem static_priority {a b : Task} (h : a.static = b.static) : a.priority = b.priority := by
  have := congrArg (fun p => p.2.2.1) h
  simpa [Task.static] using this

theorem static_burstTime {a b : Task} (h : a.static = b.static) :
    a.burstTime = b.burstTime := by
  have := congrArg (fun p => p.2.2.2) h
  simpa [Task.static] using this

theorem runLoop_length (n : Nat) (now : Int) (ts : List Task) :
    (runLoop n (initSched now ts)).tasks.length = ts.length := by
  rw [length_eq_of_static (runLoop_static n (initSched now ts))]
  exact (sortTasks_perm ts).length_eq

theorem runLoop_task_origin (n : Nat) (now : Int) (ts : List Task) (i : Nat)
    (hi : i < (runLoop n (initSched now ts)).tasks.length) :
    ∃ t0 ∈ ts, (taskAt (runLoop n (initSched now ts)).tasks i).static = t0.static := by
  have hlen : i < (sortTasks ts).length := by
    have := length_eq_of_static (runLoop_static n (initSched now ts))
    rw [this] at hi
    exact hi
  refine ⟨taskAt (sortTasks ts) i, mem_sortTasks.1 (taskAt_mem hlen), ?_⟩
  exact taskAt_static_of_map_eq (runLoop_static n (initSched now ts)) i

/-! ## Start times equal arrival times -/

theorem admissible_nullTask (now : Int) : ¬ admissible now nullTask = true := by
  rw [admissible_iff]
  simp [nullTask]

theorem startsAtArrival_loopBody {s : Sched} (h : Head s) (hs : StartsAtArrival s) :
    StartsAtArrival (loopBody s) := by
  intro i hset
  rw [loopBody_startTime] at hset ⊢
  rw [loopBody_arrivalTime]
  by_cases ha : admissible s.currentTime (taskAt s.tasks i) = true
  · have hi : i < s.tasks.length := by
      by_contra hcon
      rw [taskAt_of_ge (Nat.le_of_not_lt hcon)] at ha
      exact admissible_nullTask _ ha
    obtain ⟨h1, _, h3⟩ := (admissible_iff _ _).1 ha
    rw [admitOne_of_admissible ha]
    simp only
    have hnow := h.wf.time_nonneg
    rcases h.unadmitted i hi h3 with h4 | h4
    · have : (taskAt s.tasks i).arrivalTime = s.currentTime := le_antisymm h1 h4
      rw [this, max_eq_left hnow]
    · rw [h4] at h1 ⊢
      rw [max_eq_right h1]
  · rw [admitOne_of_not ha] at hset ⊢
    exact hs i hset

theorem startsAtArrival_init {ts : List Task} (hf : Fresh ts) :
    StartsAtArrival (initSched 0 ts) := by
  intro i hset
  exfalso
  apply hset
  by_cases hi : i < (sortTasks ts).length
  · exact (hf _ (mem_sortTasks.1 (taskAt_mem hi))).1
  · show (taskAt (sortTasks ts) i).startTime = -1
    rw [taskAt_of_ge (Nat.le_of_not_lt hi)]; rfl

theorem startsAtArrival_runLoop (n : Nat) :
    ∀ {s : Sched}, Head s → StartsAtArrival s → StartsAtArrival (runLoop n s) := by
  induction n with
  | zero => intro s _ h; exact h
  | succ n ih =>
    intro s hh h
    simp only [runLoop]
    split
    · exact ih (head_loopBody hh) (startsAtArrival_loopBody hh h)
    · exact h

/-! ## Claims on start times, end times and remaining times -/

/-- C11: on freshly loaded tasks with positive burst times and non-negative arrival
times, run from `currentTime = 0`, the run terminates and every task ends with
`startTime = arrivalTime`; moreover at every loop boundary a start time that is set is
the arrival time. -/
theorem C11_startTime_is_arrivalTime (ts : List Task) (hf : Fresh ts)
    (hp : PositiveBursts ts) (ha : ∀ t ∈ ts, 0 ≤ t.arrivalTime) :
    (schedule (tickBound ts) 0 ts).isSome = true ∧
    (∀ fuel s, schedule fuel 0 ts = some s → ∀ t ∈ s.tasks, t.startTime = t.arrivalTime) ∧
    (∀ n i, (taskAt (runLoop n (initSched 0 ts)).tasks i).startTime ≠ -1 →
      (taskAt (runLoop n (initSched 0 ts)).tasks i).startTime
        = (taskAt (runLoop n (initSched 0 ts)).tasks i).arrivalTime) := by
  have hh0 := head_init hf hp
  have key : ∀ n i, (taskAt (runLoop n (initSched 0 ts)).tasks i).startTime ≠ -1 →
      (taskAt (runLoop n (initSched 0 ts)).tasks i).startTime
        = (taskAt (runLoop n (initSched 0 ts)).tasks i).arrivalTime := by
    intro n i hset
    have h1 := startsAtArrival_runLoop n hh0 (startsAtArrival_init hf) i hset
    have hnn : 0 ≤ (taskAt (runLoop n (initSched 0 ts)).tasks i).arrivalTime := by
      by_cases hi : i < (runLoop n (initSched 0 ts)).tasks.length
      · obtain ⟨t0, ht0, hst⟩ := runLoop_task_origin n 0 ts i hi
        rw [static_arrivalTime hst]
        exact ha t0 ht0
      · rw [taskAt_of_ge (Nat.le_of_not_lt hi)]; decide
    rw [h1, max_eq_left hnn]
  refine ⟨?_, ?_, key⟩
  · have hexit : loopCond (runLoop (tickBound ts) (initSched 0 ts)) = false :=
      runLoop_exits _ hh0 (le_of_eq (measure_init hf))
    simp [schedule, hexit]
  · intro fuel s hs t ht
    obtain ⟨hs1, hs2⟩ := schedule_eq_some hs
    have hh : Head s := by rw [hs1]; exact head_runLoop _ hh0
    obtain ⟨i, hi, rfl⟩ := exists_taskAt_of_mem ht
    have hfin := (finished_of_exit hh hs2 _ ht).1
    have hok := hh.wf.task_ok i hi
    have hset : (taskAt s.tasks i).startTime ≠ -1 := by
      intro hcon
      have := hok.fresh_rem hcon
      have := hok.burst_pos
      omega
    rw [hs1] at hset ⊢
    exact key fuel i hset

/-- Witness of C11 on the two-task example. -/
theorem C11_witness :
    Fresh demoTasks ∧ PositiveBursts demoTasks ∧ (∀ t ∈ demoTasks, 0 ≤ t.arrivalTime) ∧
    (schedule (tickBound demoTasks) 0 demoTasks).isSome = true ∧
    (∀ fuel s, schedule fuel 0 demoTasks = some s →
      ∀ t ∈ s.tasks, t.startTime = t.arrivalTime) ∧
    (∀ n i, (taskAt (runLoop n (initSched 0 demoTasks)).tasks i).startTime ≠ -1 →
      (taskAt (runLoop n (initSched 0 demoTasks)).tasks i).startTime
        = (taskAt (runLoop n (initSched 0 demoTasks)).tasks i).arrivalTime) :=
  ⟨by decide, by decide, by decide,
    C11_startTime_is_arrivalTime demoTasks (by decide) (by decide) (by decide)⟩

/-- With the clock taken in the integers: an end time is set exactly when no work remains,
is not assigned again, and is assigned by the iteration that takes the remaining time of
the executing task from `1` to `0`. -/
theorem ideal_endTime_set_once (ts : List Task) (hf : Fresh ts)
    (hp : PositiveBursts ts) (n : Nat) (s : Sched) (hs : s = runLoop n (initSched 0 ts))
    (i : Nat) (hi : i < s.tasks.length) :
    ((taskAt s.tasks i).endTime ≠ -1 ↔ (taskAt s.tasks i).remainingTime = 0) ∧
    ((taskAt s.tasks i).endTime ≠ -1 →
      (taskAt (loopBody s).tasks i).endTime = (taskAt s.tasks i).endTime) ∧
    ((taskAt (loopBody s).tasks i).endTime ≠ (taskAt s.tasks i).endTime →
      (taskAt s.tasks i).endTime = -1 ∧ executing s = some i ∧
        (taskAt s.tasks i).remainingTime = 1 ∧
        (taskAt (loopBody s).tasks i).remainingTime = 0 ∧
        (taskAt (loopBody s).tasks i).endTime = s.currentTime + 1 ∧
        (loopBody s).currentTime = s.currentTime + 1) ∧
    (∀ fuel s1, schedule fuel 0 ts = some s1 → ∀ t ∈ s1.tasks, t.endTime ≠ -1) := by
  have hh0 := head_init hf hp
  have hh : Head s := by rw [hs]; exact head_runLoop n hh0
  have hok := hh.wf.task_ok i hi
  refine ⟨hok.end_iff.symm, ?_, ?_, ?_⟩
  · intro hset
    have hrem := hok.end_iff.2 hset
    rw [loopBody_endTime, if_neg]
    rintro ⟨_, h2⟩
    omega
  · intro hchg
    rw [loopBody_endTime] at hchg
    by_cases hc : (executing s = some i ∧ i < s.tasks.length) ∧
        (taskAt s.tasks i).remainingTime = 1
    · have hend : (taskAt s.tasks i).endTime = -1 := by
        by_contra hcon
        have := hok.end_iff.2 hcon
        omega
      refine ⟨hend, hc.1.1, hc.2, ?_, ?_, loopBody_currentTime s⟩
      · rw [loopBody_remainingTime, if_pos hc.1]; omega
      · rw [loopBody_endTime, if_pos hc]
    · rw [if_neg hc] at hchg
      exact absurd rfl hchg
  · intro fuel s1 hs1 t ht
    obtain ⟨h1, h2⟩ := schedule_eq_some hs1
    exact (finished_of_exit (by rw [h1]; exact head_runLoop _ hh0) h2 t ht).2

/-- C14: on freshly loaded tasks with positive burst times, every state the run reaches
(at a loop boundary, and inside an iteration once admission and the preemption check are
done) has `0 ≤ remainingTime ≤ burstTime` for every task, and the task that executes has
`remainingTime > 0` before the decrement, which takes away exactly one unit. -/
theorem C14_remainingTime_within_bounds (ts : List Task) (hf : Fresh ts)
    (hp : PositiveBursts ts) (n : Nat) (s : Sched) (hs : s = runLoop n (initSched 0 ts)) :
    (∀ t ∈ s.tasks, 0 ≤ t.remainingTime ∧ t.remainingTime ≤ t.burstTime) ∧
    (∀ t ∈ (admitTasks s).tasks, 0 ≤ t.remainingTime ∧ t.remainingTime ≤ t.burstTime) ∧
    (∀ t ∈ (preempt (admitTasks s)).tasks,
      0 ≤ t.remainingTime ∧ t.remainingTime ≤ t.burstTime) ∧
    (∀ c, executing s = some c →
      0 < (taskAt s.tasks c).remainingTime ∧
        (taskAt (loopBody s).tasks c).remainingTime = (taskAt s.tasks c).remainingTime - 1 ∧
        0 ≤ (taskAt (loopBody s).tasks c).remainingTime) := by
  have hh : Head s := by rw [hs]; exact head_runLoop n (head_init hf hp)
  have hm := mid_of_head hh
  have hpo := post_of_mid hm
  refine ⟨?_, ?_, ?_, ?_⟩
  · intro t ht
    obtain ⟨i, hi, rfl⟩ := exists_taskAt_of_mem ht
    exact ⟨(hh.wf.task_ok i hi).rem_nonneg, (hh.wf.task_ok i hi).rem_le⟩
  · intro t ht
    obtain ⟨i, hi, rfl⟩ := exists_taskAt_of_mem ht
    exact ⟨(hm.wf.task_ok i hi).rem_nonneg, (hm.wf.task_ok i hi).rem_le⟩
  · intro t ht
    obtain ⟨i, hi, rfl⟩ := exists_taskAt_of_mem ht
    exact ⟨(hpo.wf.task_ok i hi).rem_nonneg, (hpo.wf.task_ok i hi).rem_le⟩
  · intro c hc
    obtain ⟨h1, _, h3, _⟩ := (executing_spec hh).1 c hc
    have h4 : (taskAt (loopBody s).tasks c).remainingTime
        = (taskAt s.tasks c).remainingTime - 1 := by
      rw [loopBody_remainingTime, if_pos ⟨hc, h1⟩]
    exact ⟨h3, h4, by omega⟩

/-- Witness of C14 on the two-task example. -/
theorem C14_witness :
    Fresh demoTasks ∧ PositiveBursts demoTasks ∧
    (∀ t ∈ (demoAt 2).tasks, 0 ≤ t.remainingTime ∧ t.remainingTime ≤ t.burstTime) ∧
    executing (demoAt 2) = some 1 ∧ 0 < (taskAt (demoAt 2).tasks 1).remainingTime :=
  ⟨by decide, by decide,
    (C14_remainingTime_within_bounds demoTasks (by decide) (by decide) 2 (demoAt 2) rfl).1,
    by decide, by decide⟩

/-- C15: `Scheduler::schedule` changes no static attribute and neither adds nor removes
a task: after any number of iterations, and in the state the function returns, the
multiset of `(name, arrivalTime, priority, burstTime)` tuples of the registry is that of
the tasks given, and the registry has as many tasks. -/
theorem C15_static_attributes_preserved (ts : List Task) (now : Int) :
    (∀ n, Multiset.ofList ((runLoop n (initSched now ts)).tasks.map Task.static)
        = Multiset.ofList (ts.map Task.static) ∧
      (runLoop n (initSched now ts)).tasks.length = ts.length) ∧
    (∀ fuel s, schedule fuel now ts = some s →
      Multiset.ofList (s.tasks.map Task.static) = Multiset.ofList (ts.map Task.static) ∧
        s.tasks.length = ts.length) := by
  have key : ∀ n, Multiset.ofList ((runLoop n (initSched now ts)).tasks.map Task.static)
        = Multiset.ofList (ts.map Task.static) ∧
      (runLoop n (initSched now ts)).tasks.length = ts.length := by
    intro n
    refine ⟨?_, runLoop_length n now ts⟩
    rw [Multiset.coe_eq_coe, runLoop_static]
    exact (sortTasks_perm ts).map _
  refine ⟨key, ?_⟩
  intro fuel s hs
  obtain ⟨h1, _⟩ := schedule_eq_some hs
  rw [h1]
  exact key fuel

/-! ## The order of the registry -/

theorem sortTasks_eq_of_perm {ts us : List Task} (h : ts.Perm us)
    (hd : ts.Pairwise
      (fun a b => ¬ (a.priority = b.priority ∧ a.arrivalTime = b.arrivalTime))) :
    sortTasks ts = sortTasks us := by
  refine List.Perm.eq_of_sorted ?_ (sortTasks_sorted ts) (sortTasks_sorted us)
    ((sortTasks_perm ts).trans (h.trans (sortTasks_perm us).symm))
  intro a b ha hb hab hba
  have ha1 : a ∈ ts := mem_sortTasks.1 ha
  have hb1 : b ∈ ts := h.mem_iff.2 (mem_sortTasks.1 hb)
  by_contra hne
  have hsymm : Symmetric
      (fun a b : Task => ¬ (a.priority = b.priority ∧ a.arrivalTime = b.arrivalTime)) := by
    intro x y hxy hcon
    exact hxy ⟨hcon.1.symm, hcon.2.symm⟩
  have := hd.forall hsymm ha1 hb1 hne
  apply this
  simp only [SortedBefore] at hab hba
  omega

/-- C16: the registry that `Scheduler::schedule` works on and leaves behind is ordered
by the rule of the initial sort: of two tasks the earlier in the registry has the
earlier arrival time or, on equal arrival times, a priority that is not lower.  This
rule is not the one of the ready queue: task `A(0, 1, 4)` is sorted before `B(1, 2, 3)`
although `compare` ranks `A` below `B`. -/
theorem C16_registry_sorted_by_arrival_then_priority (ts : List Task) (now : Int) :
    (∀ n, (runLoop n (initSched now ts)).tasks.Pairwise SortedBefore) ∧
    (∀ fuel s, schedule fuel now ts = some s →
      s.tasks.Pairwise
        (fun a b => a.arrivalTime < b.arrivalTime ∨
          (a.arrivalTime = b.arrivalTime ∧ b.priority ≤ a.priority))) ∧
    (sortLess (mkTask "A" 0 1 4) (mkTask "B" 1 2 3) = true ∧
      compare (mkTask "A" 0 1 4) (mkTask "B" 1 2 3) = true) := by
  have key : ∀ n, (runLoop n (initSched now ts)).tasks.Pairwise SortedBefore := by
    intro n
    exact pairwise_sortedBefore_of_static (runLoop_static n (initSched now ts))
      (sortTasks_sorted ts)
  refine ⟨key, ?_, by decide⟩
  intro fuel s hs
  obtain ⟨h1, _⟩ := schedule_eq_some hs
  rw [h1]
  exact key fuel

/-- C12: for two task lists that are permutations of each other and in which no two
tasks share both priority and arrival time, `Scheduler::schedule` from `currentTime = 0`
behaves identically: for every iteration budget both runs give the same result, and on
freshly loaded tasks with positive burst times both return the same final state, so
every task has the same start and end time in both. -/
theorem C12_schedule_independent_of_input_order (ts us : List Task) (hperm : ts.Perm us)
    (hd : ts.Pairwise
      (fun a b => ¬ (a.priority = b.priority ∧ a.arrivalTime = b.arrivalTime)))
    (hf : Fresh ts) (hp : PositiveBursts ts) :
    (∀ fuel, schedule fuel 0 ts = schedule fuel 0 us) ∧
    ∃ s : Sched, ∀ fuel, tickBound ts ≤ fuel →
      schedule fuel 0 ts = some s ∧ schedule fuel 0 us = some s := by
  have hsort := sortTasks_eq_of_perm hperm hd
  have hsame : ∀ fuel, schedule fuel 0 ts = schedule fuel 0 us := by
    intro fuel
    unfold schedule initSched
    rw [hsort]
  refine ⟨hsame, ?_⟩
  have hh0 := head_init hf hp
  have hexit : loopCond (runLoop (tickBound ts) (initSched 0 ts)) = false :=
    runLoop_exits _ hh0 (le_of_eq (measure_init hf))
  refine ⟨runLoop (tickBound ts) (initSched 0 ts), ?_⟩
  intro fuel hfuel
  have h1 : schedule fuel 0 ts = some (runLoop (tickBound ts) (initSched 0 ts)) := by
    unfold schedule
    simp only
    rw [runLoop_stable _ _ hexit fuel hfuel, hexit]
    simp
  exact ⟨h1, by rw [← hsame]; exact h1⟩

/-- Witness of C12: the two-task example given in either order. -/
theorem C12_witness :
    demoTasks.Perm demoTasks.reverse ∧
    demoTasks.Pairwise
      (fun a b => ¬ (a.priority = b.priority ∧ a.arrivalTime = b.arrivalTime)) ∧
    Fresh demoTasks ∧ PositiveBursts demoTasks ∧
    ((∀ fuel, schedule fuel 0 demoTasks = schedule fuel 0 demoTasks.reverse) ∧
      ∃ s : Sched, ∀ fuel, tickBound demoTasks ≤ fuel →
        schedule fuel 0 demoTasks = some s ∧ schedule fuel 0 demoTasks.reverse = some s) :=
  ⟨(List.reverse_perm demoTasks).symm, by decide, by decide, by decide,
    C12_schedule_independent_of_input_order demoTasks demoTasks.reverse
      (List.reverse_perm demoTasks).symm (by decide) (by decide) (by decide)⟩

/-! ## End times -/

theorem endsOk_loopBody {s : Sched} (h : EndsOk s) : EndsOk (loopBody s) := by
  obtain ⟨h1, h2⟩ := h
  constructor
  · intro i hset
    rw [loopBody_endTime] at hset ⊢
    rw [loopBody_currentTime]
    split
    · exact le_refl _
    · rename_i hc
      rw [if_neg hc] at hset
      have := h1 i hset
      omega
  · intro i j hij hi hj
    rw [loopBody_endTime] at hi hj ⊢
    rw [loopBody_endTime]
    by_cases hci : (executing s = some i ∧ i < s.tasks.length) ∧
        (taskAt s.tasks i).remainingTime = 1
    · have hcj : ¬ ((executing s = some j ∧ j < s.tasks.length) ∧
          (taskAt s.tasks j).remainingTime = 1) := by
        rintro ⟨⟨hj1, _⟩, _⟩
        rw [hci.1.1] at hj1
        exact hij (Option.some.inj hj1)
      rw [if_pos hci, if_neg hcj]
      rw [if_neg hcj] at hj
      have := h1 j hj
      omega
    · rw [if_neg hci] at hi ⊢
      by_cases hcj : (executing s = some j ∧ j < s.tasks.length) ∧
          (taskAt s.tasks j).remainingTime = 1
      · rw [if_pos hcj]
        have := h1 i hi
        omega
      · rw [if_neg hcj] at hj ⊢
        exact h2 i j hij hi hj

theorem fresh_taskAt_init {ts : List Task} (hf : Fresh ts) (now : Int) (i : Nat) :
    (taskAt (initSched now ts).tasks i).startTime = -1 ∧
      (taskAt (initSched now ts).tasks i).endTime = -1 ∧
      (taskAt (initSched now ts).tasks i).remainingTime
        = (taskAt (initSched now ts).tasks i).burstTime := by
  by_cases hi : i < (sortTasks ts).length
  · exact hf _ (mem_sortTasks.1 (taskAt_mem hi))
  · show (taskAt (sortTasks ts) i).startTime = -1 ∧ (taskAt (sortTasks ts) i).endTime = -1 ∧
      (taskAt (sortTasks ts) i).remainingTime = (taskAt (sortTasks ts) i).burstTime
    rw [taskAt_of_ge (Nat.le_of_not_lt hi)]
    exact ⟨rfl, rfl, rfl⟩

theorem endsOk_init {ts : List Task} (hf : Fresh ts) (now : Int) :
    EndsOk (initSched now ts) :=
  ⟨fun i hset => absurd (fresh_taskAt_init hf now i).2.1 hset,
    fun i _ _ hset _ => absurd (fresh_taskAt_init hf now i).2.1 hset⟩

theorem endsOk_runLoop (n : Nat) : ∀ {s : Sched}, EndsOk s → EndsOk (runLoop n s) := by
  induction n with
  | zero => intro s h; exact h
  | succ n ih =>
    intro s h
    simp only [runLoop]
    split
    · exact ih (endsOk_loopBody h)
    · exact h

theorem priorityOrder_loopBody {s : Sched} (hh : Head s) (he : EndsOk s)
    (h : PriorityOrder s) : PriorityOrder (loopBody s) := by
  intro x y hx hprio hy harr
  rw [loopBody_length] at hx
  rw [loopBody_priority, loopBody_priority] at hprio
  rw [loopBody_arrivalTime] at harr
  have hokx := hh.wf.task_ok x hx
  have hne : x ≠ y := by
    rintro rfl
    omega
  by_cases hcy : (executing s = some y ∧ y < s.tasks.length) ∧
      (taskAt s.tasks y).remainingTime = 1
  · have hcx : ¬ ((executing s = some x ∧ x < s.tasks.length) ∧
        (taskAt s.tasks x).remainingTime = 1) := by
      rintro ⟨⟨hx1, _⟩, _⟩
      rw [hcy.1.1] at hx1
      exact hne (Option.some.inj hx1).symm
    rw [loopBody_endTime, if_pos hcy] at harr
    rw [loopBody_endTime, if_neg hcx, loopBody_endTime, if_pos hcy]
    have hremx : (taskAt s.tasks x).remainingTime = 0 := by
      by_contra hcon
      have hpos : 0 < (taskAt s.tasks x).remainingTime := by
        have := hokx.rem_nonneg
        omega
      have := ((executing_spec hh).1 y hcy.1.1).2.2.2 x hx (by omega) hpos
      have := this.1
      omega
    have hsetx := hokx.end_iff.1 hremx
    have := he.1 x hsetx
    exact ⟨hsetx, by omega⟩
  · rw [loopBody_endTime, if_neg hcy] at hy harr
    obtain ⟨h1, h2⟩ := h x y hx hprio hy harr
    have hcx : ¬ ((executing s = some x ∧ x < s.tasks.length) ∧
        (taskAt s.tasks x).remainingTime = 1) := by
      rintro ⟨_, hx2⟩
      have := hokx.end_iff.2 h1
      omega
    rw [loopBody_endTime, if_neg hcx, loopBody_endTime, if_neg hcy]
    exact ⟨h1, h2⟩

theorem priorityOrder_runLoop (n : Nat) :
    ∀ {s : Sched}, Head s → EndsOk s → PriorityOrder s → PriorityOrder (runLoop n s) := by
  induction n with
  | zero => intro s _ _ h; exact h
  | succ n ih =>
    intro s hh he h
    simp only [runLoop]
    split
    · exact ih (head_loopBody hh) (endsOk_loopBody he) (priorityOrder_loopBody hh he h)
    · exact h

/-! ## A task of highest priority -/

theorem executing_top {s : Sched} (hh : Head s) {T : Nat} (hT : TopPriority s.tasks T) :
    executing s = some T ↔
      ((taskAt s.tasks T).arrivalTime ≤ s.currentTime ∧ 0 < (taskAt s.tasks T).remainingTime) := by
  constructor
  · intro hex
    obtain ⟨_, h2, h3, _⟩ := (executing_spec hh).1 T hex
    exact ⟨h2, h3⟩
  · rintro ⟨h1, h2⟩
    cases hex : executing s with
    | none => exact absurd ⟨h1, h2⟩ ((executing_spec hh).2 hex T hT.1)
    | some c =>
      obtain ⟨hc, _, _, hbest⟩ := (executing_spec hh).1 c hex
      by_cases hcT : c = T
      · rw [hcT]
      · have := (hbest T hT.1 h1 h2).1
        have := hT.2 c hc hcT
        omega

theorem topPriority_loopBody {s : Sched} {T : Nat} (hT : TopPriority s.tasks T) :
    TopPriority (loopBody s).tasks T := by
  refine ⟨by rw [loopBody_length]; exact hT.1, ?_⟩
  intro j hj hne
  rw [loopBody_length] at hj
  rw [loopBody_priority, loopBody_priority]
  exact hT.2 j hj hne

theorem runsFromArrival_loopBody {s : Sched} (hh : Head s) {T : Nat}
    (hT : TopPriority s.tasks T) (h : RunsFromArrival s T) : RunsFromArrival (loopBody s) T := by
  obtain ⟨h1, h2, h3⟩ := h
  have hex := executing_top hh hT
  have hok := hh.wf.task_ok T hT.1
  have hbp := hok.burst_pos
  unfold RunsFromArrival
  rw [loopBody_currentTime, loopBody_arrivalTime, loopBody_burstTime, loopBody_remainingTime,
    loopBody_endTime]
  by_cases hc : executing s = some T
  · obtain ⟨ha, hr⟩ := hex.1 hc
    rw [if_pos ⟨hc, hT.1⟩]
    have hle : s.currentTime ≤ (taskAt s.tasks T).arrivalTime + (taskAt s.tasks T).burstTime := by
      by_contra hcon
      have := (h3 (by omega)).1
      omega
    have hrem := h2 ha hle
    refine ⟨fun _ => by omega, fun _ _ => by omega, ?_⟩
    intro hfin
    have hone : (taskAt s.tasks T).remainingTime = 1 := by omega
    rw [if_pos ⟨⟨hc, hT.1⟩, hone⟩]
    exact ⟨by omega, by omega⟩
  · rw [if_neg (fun hcon => hc hcon.1), if_neg (fun hcon => hc hcon.1.1)]
    have hnot : ¬ ((taskAt s.tasks T).arrivalTime ≤ s.currentTime ∧
        0 < (taskAt s.tasks T).remainingTime) := fun hcon => hc (hex.2 hcon)
    by_cases ha : (taskAt s.tasks T).arrivalTime ≤ s.currentTime
    · have hr0 : (taskAt s.tasks T).remainingTime = 0 := by
        have := hok.rem_nonneg
        by_contra hcon
        exact hnot ⟨ha, by omega⟩
      have hge : (taskAt s.tasks T).arrivalTime + (taskAt s.tasks T).burstTime ≤ s.currentTime := by
        by_contra hcon
        have := h2 ha (by omega)
        omega
      have := h3 hge
      refine ⟨fun _ => by omega, fun _ _ => by omega, fun _ => ⟨by omega, this.2⟩⟩
    · have := h1 (by omega)
      refine ⟨fun _ => by omega, fun _ _ => by omega, fun _ => by omega⟩

theorem runsFromArrival_runLoop (n : Nat) :
    ∀ {s : Sched} {T : Nat}, Head s → TopPriority s.tasks T → RunsFromArrival s T →
      RunsFromArrival (runLoop n s) T := by
  induction n with
  | zero => intro s T _ _ h; exact h
  | succ n ih =>
    intro s T hh hT h
    simp only [runLoop]
    split
    · exact ih (head_loopBody hh) (topPriority_loopBody hT) (runsFromArrival_loopBody hh hT h)
    · exact h

/-! ## Claims on the order of completion -/

theorem runsFromArrival_init {ts : List Task} (hf : Fresh ts) (hp : PositiveBursts ts)
    (ha : ∀ t ∈ ts, 0 ≤ t.arrivalTime) {T : Nat} (hT : T < (sortTasks ts).length) :
    RunsFromArrival (initSched 0 ts) T := by
  have hmem : taskAt (sortTasks ts) T ∈ ts := mem_sortTasks.1 (taskAt_mem hT)
  have h1 := (hf _ hmem).2.2
  have h2 := hp _ hmem
  have h3 := ha _ hmem
  refine ⟨fun _ => h1, fun h4 _ => ?_, fun h4 => ?_⟩
  · show (taskAt (sortTasks ts) T).remainingTime
      = (taskAt (sortTasks ts) T).burstTime - (0 - (taskAt (sortTasks ts) T).arrivalTime)
    have : (taskAt (sortTasks ts) T).arrivalTime ≤ 0 := h4
    omega
  · have : (taskAt (sortTasks ts) T).arrivalTime + (taskAt (sortTasks ts) T).burstTime ≤ 0 := h4
    omega

/-- With the clock taken in the integers and non-negative arrival times: a task whose
priority is strictly the highest starts at its arrival and ends one burst later. -/
theorem ideal_top_priority_runs_undisturbed (ts : List Task) (hf : Fresh ts)
    (hp : PositiveBursts ts) (ha : ∀ t ∈ ts, 0 ≤ t.arrivalTime) (fuel : Nat) (s : Sched)
    (hs : schedule fuel 0 ts = some s) (T : Nat) (hT : TopPriority s.tasks T) :
    (taskAt s.tasks T).startTime = (taskAt s.tasks T).arrivalTime ∧
      (taskAt s.tasks T).endTime
        = (taskAt s.tasks T).arrivalTime + (taskAt s.tasks T).burstTime := by
  obtain ⟨hs1, hs2⟩ := schedule_eq_some hs
  have hh0 := head_init hf hp
  have hh : Head s := by rw [hs1]; exact head_runLoop _ hh0
  have hstat := runLoop_static fuel (initSched 0 ts)
  rw [← hs1] at hstat
  have hlen := length_eq_of_static hstat
  have hT0 : TopPriority (initSched 0 ts).tasks T := by
    refine ⟨by rw [← hlen]; exact hT.1, ?_⟩
    intro j hj hne
    rw [← static_priority (taskAt_static_of_map_eq hstat j),
      ← static_priority (taskAt_static_of_map_eq hstat T)]
    exact hT.2 j (by rw [hlen]; exact hj) hne
  have hrun : RunsFromArrival s T := by
    rw [hs1]
    exact runsFromArrival_runLoop fuel hh0 hT0 (runsFromArrival_init hf hp ha hT0.1)
  have hfin := finished_of_exit hh hs2 _ (taskAt_mem hT.1)
  have hok := hh.wf.task_ok T hT.1
  have hbp := hok.burst_pos
  have harr : 0 ≤ (taskAt s.tasks T).arrivalTime := by
    obtain ⟨t0, ht0, hst⟩ := runLoop_task_origin fuel 0 ts T (by rw [← hs1]; exact hT.1)
    rw [← hs1] at hst
    rw [static_arrivalTime hst]
    exact ha t0 ht0
  constructor
  · have hset : (taskAt s.tasks T).startTime ≠ -1 := by
      intro hcon
      have := hok.fresh_rem hcon
      omega
    have hsa : StartsAtArrival s := by
      rw [hs1]; exact startsAtArrival_runLoop fuel hh0 (startsAtArrival_init hf)
    rw [hsa T hset, max_eq_left harr]
  · obtain ⟨h1, h2, h3⟩ := hrun
    have hge : (taskAt s.tasks T).arrivalTime + (taskAt s.tasks T).burstTime
        ≤ s.currentTime := by
      by_contra hcon
      by_cases hle : s.currentTime ≤ (taskAt s.tasks T).arrivalTime
      · have := h1 hle
        omega
      · have := h2 (by omega) (by omega)
        omega
    exact (h3 hge).2

/-- With the clock taken in the integers: a task of higher priority that arrives before
another task completes, completes before it. -/
theorem ideal_higher_priority_finishes_first (ts : List Task) (hf : Fresh ts)
    (hp : PositiveBursts ts) (fuel : Nat) (s : Sched) (hs : schedule fuel 0 ts = some s)
    (X Y : Nat) (hX : X < s.tasks.length) (hY : Y < s.tasks.length)
    (hprio : (taskAt s.tasks Y).priority < (taskAt s.tasks X).priority)
    (harr : (taskAt s.tasks X).arrivalTime < (taskAt s.tasks Y).endTime) :
    (taskAt s.tasks X).endTime < (taskAt s.tasks Y).endTime := by
  obtain ⟨hs1, hs2⟩ := schedule_eq_some hs
  have hh0 := head_init hf hp
  have hh : Head s := by rw [hs1]; exact head_runLoop _ hh0
  have hpo : PriorityOrder s := by
    rw [hs1]
    refine priorityOrder_runLoop fuel hh0 (endsOk_init hf 0) ?_
    intro x y _ _ hy _
    exact absurd (fresh_taskAt_init hf 0 y).2.1 hy
  have hsetY := (finished_of_exit hh hs2 _ (taskAt_mem hY)).2
  exact (hpo X Y hX hprio hsetY harr).2

/-- With the clock taken in the integers: an iteration takes one unit from the remaining
time of the executing task and changes no other remaining time, and the end times of
different tasks are different when the run is over. -/
theorem ideal_one_task_per_tick_distinct_end_times (ts : List Task) (hf : Fresh ts)
    (hp : PositiveBursts ts) :
    (∀ (s : Sched) (i j : Nat),
      ((taskAt (loopBody s).tasks i).remainingTime ≠ (taskAt s.tasks i).remainingTime →
        executing s = some i ∧
          (taskAt (loopBody s).tasks i).remainingTime = (taskAt s.tasks i).remainingTime - 1) ∧
      ((taskAt (loopBody s).tasks i).remainingTime ≠ (taskAt s.tasks i).remainingTime →
        (taskAt (loopBody s).tasks j).remainingTime ≠ (taskAt s.tasks j).remainingTime →
        i = j)) ∧
    (∀ fuel s, schedule fuel 0 ts = some s →
      ∀ i j, i < s.tasks.length → j < s.tasks.length → i ≠ j →
        (taskAt s.tasks i).endTime ≠ -1 ∧ (taskAt s.tasks j).endTime ≠ -1 ∧
          (taskAt s.tasks i).endTime ≠ (taskAt s.tasks j).endTime) := by
  have step : ∀ (s : Sched) (i : Nat),
      (taskAt (loopBody s).tasks i).remainingTime ≠ (taskAt s.tasks i).remainingTime →
        executing s = some i ∧
          (taskAt (loopBody s).tasks i).remainingTime = (taskAt s.tasks i).remainingTime - 1 := by
    intro s i hchg
    rw [loopBody_remainingTime] at hchg ⊢
    by_cases hc : executing s = some i ∧ i < s.tasks.length
    · rw [if_pos hc]; exact ⟨hc.1, rfl⟩
    · rw [if_neg hc] at hchg
      exact absurd (sub_zero _) hchg
  refine ⟨fun s i j => ⟨step s i, fun hi hj => ?_⟩, ?_⟩
  · have h1 := (step s i hi).1
    have h2 := (step s j hj).1
    rw [h1] at h2
    exact Option.some.inj h2
  · intro fuel s hs i j hi hj hij
    obtain ⟨hs1, hs2⟩ := schedule_eq_some hs
    have hh : Head s := by rw [hs1]; exact head_runLoop _ (head_init hf hp)
    have he : EndsOk s := by rw [hs1]; exact endsOk_runLoop fuel (endsOk_init hf 0)
    have hi1 := (finished_of_exit hh hs2 _ (taskAt_mem hi)).2
    have hj1 := (finished_of_exit hh hs2 _ (taskAt_mem hj)).2
    exact ⟨hi1, hj1, he.2 i j hij hi1 hj1⟩

/-! ## Runs on task lists with a burst time that is not positive -/

theorem doneInd_le_one (t : Task) : doneInd t ≤ 1 := by
  unfold doneInd; split <;> decide

theorem sum_doneInd_le (ts : List Task) : (ts.map doneInd).sum ≤ ts.length := by
  induction ts with
  | nil => simp
  | cons t rest ih =>
    have := doneInd_le_one t
    simp only [List.map_cons, List.sum_cons, List.length_cons]
    push_cast
    omega

theorem sum_doneInd_lt (ts : List Task) (t : Task) (ht : t ∈ ts) (h : t.endTime = -1) :
    (ts.map doneInd).sum < ts.length := by
  induction ts with
  | nil => simp at ht
  | cons a rest ih =>
    simp only [List.map_cons, List.sum_cons, List.length_cons]
    push_cast
    rcases List.mem_cons.1 ht with rfl | ht
    · have h1 : doneInd t = 0 := by simp [doneInd, h]
      have := sum_doneInd_le rest
      omega
    · have := ih ht
      have := doneInd_le_one a
      omega

theorem sound_admitTasks {s : Sched} (h : Sound s) : Sound (admitTasks s) := by
  have hnow := h.time_nonneg
  have hnew : ∀ k, k ∈ newIdx s.currentTime 0 s.tasks ↔
      (k < s.tasks.length ∧ admissible s.currentTime (taskAt s.tasks k) = true) := by
    intro k
    rw [mem_newIdx]
    simp
  refine ⟨hnow, ?_, ?_, ?_, ?_, ?_, ?_⟩
  · rw [admitTasks_readyQueue, List.nodup_append]
    refine ⟨h.nodup, nodup_newIdx _ _ _, ?_⟩
    intro k hk1 hk2
    have h1 := (h.active_ok k (Or.inl hk1)).2.1
    have h2 := ((admissible_iff _ _).1 ((hnew k).1 hk2).2).2.2
    exact h1 h2
  · intro c hc
    rw [admitTasks_currentTask] at hc
    rw [admitTasks_readyQueue, List.mem_append]
    rintro (hk | hk)
    · exact h.cur_notin c hc hk
    · have h1 := (h.active_ok c (Or.inr hc)).2.1
      have h2 := ((admissible_iff _ _).1 ((hnew c).1 hk).2).2.2
      exact h1 h2
  · intro i hi
    rw [admitTasks_readyQueue, List.mem_append, admitTasks_currentTask] at hi
    have hlen : (admitTasks s).tasks.length = s.tasks.length := by simp
    rw [hlen, taskAt_admitTasks]
    have hold : (i ∈ s.readyQueue ∨ s.currentTask = some i) →
        i < s.tasks.length ∧ (admitOne s.currentTime (taskAt s.tasks i)).startTime ≠ -1 ∧
          0 < (admitOne s.currentTime (taskAt s.tasks i)).remainingTime ∧
          (admitOne s.currentTime (taskAt s.tasks i)).endTime = -1 := by
      intro hact
      obtain ⟨h1, h2, h3, h4⟩ := h.active_ok i hact
      have hna : ¬ admissible s.currentTime (taskAt s.tasks i) = true := by
        intro hcon
        exact h2 ((admissible_iff _ _).1 hcon).2.2
      rw [admitOne_of_not hna]
      exact ⟨h1, h2, h3, h4⟩
    rcases hi with (hq | hn) | hc
    · exact hold (Or.inl hq)
    · obtain ⟨hil, hia⟩ := (hnew i).1 hn
      obtain ⟨_, h2, h3⟩ := (admissible_iff _ _).1 hia
      rw [admitOne_of_admissible hia]
      exact ⟨hil, by simp only; omega, h2, h.unstarted i h3⟩
    · exact hold (Or.inr hc)
  · intro i hs
    rw [taskAt_admitTasks] at hs ⊢
    by_cases ha : admissible s.currentTime (taskAt s.tasks i) = true
    · rw [admitOne_of_admissible ha] at hs
      simp only at hs
      omega
    · rw [admitOne_of_not ha] at hs ⊢
      exact h.unstarted i hs
  · intro i hb
    rw [taskAt_admitTasks] at hb ⊢
    rw [admitOne_burstTime] at hb
    obtain ⟨h1, h2⟩ := h.inert i hb
    have hna : ¬ admissible s.currentTime (taskAt s.tasks i) = true := by
      intro hcon
      have := ((admissible_iff _ _).1 hcon).2.1
      omega
    rw [admitOne_of_not hna]
    exact ⟨h1, h2⟩
  · rw [admitTasks_completedTasks, admitTasks_tasks, List.map_map]
    rw [h.completed_eq]
    congr 1
    apply List.map_congr_left
    intro t _
    simp [doneInd]

theorem sound_takeTop {s : Sched} (h : Sound s) {q1 : List Nat} (hnd : q1.Nodup)
    (hsub : ∀ i, i ∈ q1 → (i ∈ s.readyQueue ∨ s.currentTask = some i)) :
    Sound (takeTop s q1) := by
  cases htop : queueTop s.tasks q1 with
  | none =>
    have hq := (queueTop_eq_none _ _).1 htop
    have hcur : (takeTop s q1).currentTask = none := by simp [takeTop, htop]
    have hqueue : (takeTop s q1).readyQueue = [] := by
      subst hq
      simp [takeTop, queuePop, queueTop]
    refine ⟨h.time_nonneg, by rw [hqueue]; exact List.nodup_nil, ?_, ?_, h.unstarted, h.inert,
      h.completed_eq⟩
    · intro c hc; rw [hcur] at hc; exact absurd hc (by simp)
    · intro i hi
      rw [hqueue, hcur] at hi
      simp at hi
  | some m =>
    obtain ⟨hm, _⟩ := queueTop_spec s.tasks q1 m htop
    have hcur : (takeTop s q1).currentTask = some m := by simp [takeTop, htop]
    have hqueue : (takeTop s q1).readyQueue = q1.erase m := by simp [takeTop, queuePop, htop]
    refine ⟨h.time_nonneg, by rw [hqueue]; exact hnd.erase m, ?_, ?_, h.unstarted, h.inert,
      h.completed_eq⟩
    · intro c hc
      rw [hcur] at hc
      injection hc with hc; subst hc
      rw [hqueue, hnd.mem_erase_iff]
      exact fun hcon => hcon.1 rfl
    · intro i hi
      rw [hqueue, hcur] at hi
      have hin : i ∈ q1 := by
        rcases hi with hi | hi
        · exact List.mem_of_mem_erase hi
        · injection hi with hi; subst hi; exact hm
      exact h.active_ok i (hsub i hin)

theorem sound_preempt {s : Sched} (h : Sound s) : Sound (preempt s) := by
  unfold preempt
  split
  · exact h
  · split
    · exact sound_takeTop h h.nodup (fun i hi => Or.inl hi)
    · rename_i cur hcur
      split
      · split
        · apply sound_takeTop h
          · rw [queuePush]
            apply List.Nodup.append h.nodup (List.nodup_singleton _)
            intro a ha1 ha2
            rw [List.mem_singleton] at ha2
            subst ha2
            exact h.cur_notin a hcur ha1
          · intro i hi
            simp only [queuePush, List.mem_append, List.mem_singleton] at hi
            rcases hi with hi | hi
            · exact Or.inl hi
            · exact Or.inr (by rw [hi]; exact hcur)
        · exact sound_takeTop h h.nodup (fun i hi => Or.inl hi)
      · exact h

theorem sound_execute {s : Sched} (h : Sound s) : Sound (execute s) := by
  have hnow := h.time_nonneg
  cases hcur : s.currentTask with
  | none =>
    rw [execute_idle hcur]
    refine ⟨by simp only; omega, h.nodup, ?_, ?_, h.unstarted, h.inert, h.completed_eq⟩
    · intro c hc; simp only [hcur] at hc; exact absurd hc (by simp)
    · intro i hi; exact h.active_ok i hi
  | some c =>
    obtain ⟨hcl, hcs, hcr, hce⟩ := h.active_ok c (Or.inr hcur)
    have hcq := h.cur_notin c hcur
    have hbc : 0 < (taskAt s.tasks c).burstTime := by
      by_contra hcon
      exact hcs (h.inert c (by omega)).1
    by_cases hr : (taskAt s.tasks c).remainingTime - 1 = 0
    · rw [execute_finish hcur hr]
      refine ⟨by simp only; omega, h.nodup, ?_, ?_, ?_, ?_, ?_⟩
      · intro c2 hc; simp only at hc; exact absurd hc (by simp)
      · intro i hi
        simp only [List.length_set, taskAt_set _ _ _ _ hcl] at hi ⊢
        rcases hi with hi | hi
        · have hic : i ≠ c := fun hcon => hcq (hcon ▸ hi)
          rw [if_neg hic]
          exact h.active_ok i (Or.inl hi)
        · exact absurd hi (by simp)
      · intro i hs
        simp only [taskAt_set _ _ _ _ hcl] at hs ⊢
        by_cases hic : i = c
        · subst hic
          rw [if_pos rfl] at hs
          exact absurd hs hcs
        · rw [if_neg hic] at hs ⊢
          exact h.unstarted i hs
      · intro i hb
        simp only [taskAt_set _ _ _ _ hcl] at hb ⊢
        by_cases hic : i = c
        · subst hic
          rw [if_pos rfl] at hb
          simp only at hb
          omega
        · rw [if_neg hic] at hb ⊢
          exact h.inert i hb
      · simp only
        rw [sum_map_set doneInd _ _ _ hcl]
        have h1 : doneInd (taskAt s.tasks c) = 0 := by simp [doneInd, hce]
        have h2 : doneInd { taskAt s.tasks c with
            remainingTime := (taskAt s.tasks c).remainingTime - 1
            endTime := s.currentTime + 1 } = 1 := by
          simp only [doneInd]
          rw [if_neg (by omega)]
        have h3 := h.completed_eq
        rw [h1, h2]
        push_cast
        omega
    · rw [execute_continue hcur hr]
      refine ⟨by simp only; omega, h.nodup, ?_, ?_, ?_, ?_, ?_⟩
      · intro c2 hc; simp only [hcur] at hc; injection hc with hc; subst hc; exact hcq
      · intro i hi
        simp only [List.length_set, taskAt_set _ _ _ _ hcl] at hi ⊢
        by_cases hic : i = c
        · subst hic
          rw [if_pos rfl]
          exact ⟨hcl, hcs, by simp only; omega, hce⟩
        · rw [if_neg hic]
          exact h.active_ok i hi
      · intro i hs
        simp only [taskAt_set _ _ _ _ hcl] at hs ⊢
        by_cases hic : i = c
        · subst hic
          rw [if_pos rfl] at hs
          exact absurd hs hcs
        · rw [if_neg hic] at hs ⊢
          exact h.unstarted i hs
      · intro i hb
        simp only [taskAt_set _ _ _ _ hcl] at hb ⊢
        by_cases hic : i = c
        · subst hic
          rw [if_pos rfl] at hb
          simp only at hb
          omega
        · rw [if_neg hic] at hb ⊢
          exact h.inert i hb
      · simp only
        rw [sum_map_set doneInd _ _ _ hcl]
        have h1 : doneInd { taskAt s.tasks c with
            remainingTime := (taskAt s.tasks c).remainingTime - 1 }
            = doneInd (taskAt s.tasks c) := rfl
        have h3 := h.completed_eq
        rw [h1]
        omega

theorem sound_loopBody {s : Sched} (h : Sound s) : Sound (loopBody s) :=
  sound_execute (sound_preempt (sound_admitTasks h))

theorem sound_init {ts : List Task} (hf : Fresh ts) : Sound (initSched 0 ts) := by
  refine ⟨le_refl _, List.nodup_nil, ?_, ?_, ?_, ?_, ?_⟩
  · intro c hc; simp [initSched] at hc
  · intro i hi; simp [initSched] at hi
  · intro i _; exact (fresh_taskAt_init hf 0 i).2.1
  · intro i _; exact ⟨(fresh_taskAt_init hf 0 i).1, (fresh_taskAt_init hf 0 i).2.2⟩
  · show ((0 : Nat) : Int) = ((sortTasks ts).map doneInd).sum
    have : ∀ l : List Task, (∀ t ∈ l, t.endTime = -1) → (l.map doneInd).sum = 0 := by
      intro l
      induction l with
      | nil => intro _; rfl
      | cons a rest ih =>
        intro hl
        have h1 : doneInd a = 0 := by simp [doneInd, hl a (List.mem_cons_self _ _)]
        simp only [List.map_cons, List.sum_cons, h1,
          ih (fun t ht => hl t (List.mem_cons_of_mem _ ht))]
        rfl
    rw [this _ (fun t ht => (hf t (mem_sortTasks.1 ht)).2.1)]
    rfl

theorem sound_runLoop (n : Nat) : ∀ {s : Sched}, Sound s → Sound (runLoop n s) := by
  induction n with
  | zero => intro s h; exact h
  | succ n ih =>
    intro s h
    simp only [runLoop]
    split
    · exact ih (sound_loopBody h)
    · exact h

theorem loopCond_of_inert {s : Sched} (h : Sound s) (i : Nat) (hi : i < s.tasks.length)
    (hb : (taskAt s.tasks i).burstTime ≤ 0) : loopCond s = true := by
  have hend := h.unstarted i (h.inert i hb).1
  have hlt := sum_doneInd_lt s.tasks _ (taskAt_mem hi) hend
  rw [← h.completed_eq] at hlt
  simp only [loopCond, decide_eq_true_eq]
  exact_mod_cast hlt

theorem iterations_of_loopCond (n : Nat) :
    ∀ s : Sched, (∀ k, loopCond (runLoop k s) = true) → iterations n s = n := by
  induction n with
  | zero => intro s _; rfl
  | succ n ih =>
    intro s h
    have h0 : loopCond s = true := h 0
    simp only [iterations, if_pos h0]
    rw [ih (loopBody s) (fun k => by
      have := h (k + 1)
      simpa [runLoop, h0] using this)]
    omega

/-- C20: `Scheduler::loadTasks` accepts lines whose burst time is `0` or negative, and on
a freshly loaded task list that contains a task with `burstTime ≤ 0` the loop of
`Scheduler::schedule` never exits: such a task is never admitted (its start and end time
stay `-1`, it is neither queued nor current), the loop condition holds after every
number of iterations, and no iteration budget makes the function return. -/
theorem C20_nonpositive_burst_never_terminates (ts : List Task) (hf : Fresh ts) (t : Task)
    (ht : t ∈ ts) (hb : t.burstTime ≤ 0) :
    (∀ n, loopCond (runLoop n (initSched 0 ts)) = true) ∧
    (∀ fuel, schedule fuel 0 ts = none) ∧
    (∀ n, iterations n (initSched 0 ts) = n) ∧
    (∀ n i, (taskAt (runLoop n (initSched 0 ts)).tasks i).burstTime ≤ 0 →
      (taskAt (runLoop n (initSched 0 ts)).tasks i).startTime = -1 ∧
        (taskAt (runLoop n (initSched 0 ts)).tasks i).endTime = -1 ∧
        i ∉ (runLoop n (initSched 0 ts)).readyQueue ∧
        (runLoop n (initSched 0 ts)).currentTask ≠ some i) ∧
    (parseLine "Z,0,1,0" = some (mkTask "Z" 0 1 0) ∧
      parseLine "Z,0,1,-2" = some (mkTask "Z" 0 1 (-2)) ∧
      loadTasks [] ["A,0,1,2", "Z,0,1,0"] = stuckTasks) := by
  have hsound : ∀ n, Sound (runLoop n (initSched 0 ts)) :=
    fun n => sound_runLoop n (sound_init hf)
  obtain ⟨i, hi, hti⟩ := exists_taskAt_of_mem (mem_sortTasks.2 ht)
  have hcond : ∀ n, loopCond (runLoop n (initSched 0 ts)) = true := by
    intro n
    have hstat := runLoop_static n (initSched 0 ts)
    have hlen := length_eq_of_static hstat
    apply loopCond_of_inert (hsound n) i (by rw [hlen]; exact hi)
    rw [static_burstTime (taskAt_static_of_map_eq hstat i)]
    show (taskAt (sortTasks ts) i).burstTime ≤ 0
    rw [hti]
    exact hb
  refine ⟨hcond, ?_, fun n => iterations_of_loopCond n _ hcond, ?_, by decide⟩
  · intro fuel
    simp [schedule, hcond fuel]
  · intro n j hj
    have hs := hsound n
    obtain ⟨h1, _⟩ := hs.inert j hj
    refine ⟨h1, hs.unstarted j h1, ?_, ?_⟩
    · intro hq
      exact (hs.active_ok j (Or.inl hq)).2.1 h1
    · intro hc
      exact (hs.active_ok j (Or.inr hc)).2.1 h1

/-- Witness of C20: with the task `Z(0, 1, 0)` in the list the function has not returned
after a thousand iterations. -/
theorem C20_witness :
    Fresh stuckTasks ∧ mkTask "Z" 0 1 0 ∈ stuckTasks ∧ (mkTask "Z" 0 1 0).burstTime ≤ 0 ∧
    schedule 1000 0 stuckTasks = none ∧ iterations 1000 (initSched 0 stuckTasks) = 1000 :=
  ⟨by decide, by decide, by decide,
    (C20_nonpositive_burst_never_terminates stuckTasks (by decide) (mkTask "Z" 0 1 0)
      (by decide) (by decide)).2.1 1000,
    (C20_nonpositive_burst_never_terminates stuckTasks (by decide) (mkTask "Z" 0 1 0)
      (by decide) (by decide)).2.2.1 1000⟩

/-! ## The 32-bit run and the run over the integers -/

theorem wrapInt_of_range {x : Int} (h1 : INT_MIN ≤ x) (h2 : x ≤ INT_MAX) : wrapInt x = x := by
  simp only [INT_MIN, INT_MAX] at h1 h2
  unfold wrapInt
  omega

theorem wrapInt_range (x : Int) : INT_MIN ≤ wrapInt x ∧ wrapInt x ≤ INT_MAX := by
  simp only [INT_MIN, INT_MAX]
  unfold wrapInt
  omega

theorem wrapInt_wrapInt_add (x y : Int) : wrapInt (wrapInt x + y) = wrapInt (x + y) := by
  unfold wrapInt
  omega

theorem execute32_eq {s : Sched}
    (ht : INT_MIN ≤ s.currentTime + 1 ∧ s.currentTime + 1 ≤ INT_MAX)
    (hr : ∀ c, s.currentTask = some c →
      INT_MIN ≤ (taskAt s.tasks c).remainingTime - 1 ∧
        (taskAt s.tasks c).remainingTime - 1 ≤ INT_MAX) :
    execute32 s = execute s := by
  unfold execute32 execute
  cases hcur : s.currentTask with
  | none => simp only [wrapInt_of_range ht.1 ht.2]
  | some c =>
    obtain ⟨h1, h2⟩ := hr c hcur
    simp only [wrapInt_of_range ht.1 ht.2, wrapInt_of_range h1 h2]

theorem le_remSum (ts : List Task) (h : ∀ t ∈ ts, 0 ≤ t.remainingTime) :
    ∀ t ∈ ts, t.remainingTime ≤ remSum ts := by
  induction ts with
  | nil => intro t ht; simp at ht
  | cons a rest ih =>
    intro t ht
    have h1 := h a (List.mem_cons_self _ _)
    have h2 := remSum_nonneg_of rest (fun t ht => h t (List.mem_cons_of_mem _ ht))
    simp only [remSum, List.map_cons, List.sum_cons] at h2 ⊢
    rcases List.mem_cons.1 ht with rfl | ht
    · omega
    · have := ih (fun t ht => h t (List.mem_cons_of_mem _ ht)) t ht
      simp only [remSum] at this
      omega

theorem loopBody32_eq {s : Sched} (h : Head s) (hc : loopCond s = true)
    (hb : s.currentTime + (measure s : Int) ≤ INT_MAX) : loopBody32 s = loopBody s := by
  have hdec := measure_decreases h hc
  have hpo := post_of_mid (mid_of_head h)
  have hnow := h.wf.time_nonneg
  have hrs : remSum (preempt (admitTasks s)).tasks = remSum s.tasks := by
    rw [preempt_tasks, remSum_admitTasks]
  have hnn : ∀ t ∈ (preempt (admitTasks s)).tasks, 0 ≤ t.remainingTime := by
    intro t ht
    obtain ⟨i, hi, rfl⟩ := exists_taskAt_of_mem ht
    exact (hpo.wf.task_ok i hi).rem_nonneg
  have hm : remSum s.tasks ≤ (measure s : Int) := by
    unfold measure
    push_cast
    have := Int.self_le_toNat (remSum s.tasks)
    omega
  unfold loopBody32 loopBody
  apply execute32_eq
  · rw [preempt_currentTime, admitTasks_currentTime]
    simp only [INT_MIN, INT_MAX] at hb ⊢
    omega
  · intro c hcur
    obtain ⟨hcl, _, hcr⟩ := (hpo.wf.active_iff c).1 (Or.inr hcur)
    have hle := le_remSum _ hnn _ (taskAt_mem hcl)
    rw [hrs] at hle
    simp only [INT_MIN, INT_MAX] at hb ⊢
    omega

theorem runLoop32_eq_of_head (n : Nat) :
    ∀ {s : Sched}, Head s → s.currentTime + (measure s : Int) ≤ INT_MAX →
      runLoop32 n s = runLoop n s := by
  induction n with
  | zero => intro s _ _; rfl
  | succ n ih =>
    intro s h hb
    simp only [runLoop32, runLoop]
    by_cases hc : loopCond s = true
    · rw [if_pos hc, if_pos hc, loopBody32_eq h hc hb]
      apply ih (head_loopBody h)
      have := measure_decreases h hc
      rw [loopBody_currentTime]
      omega
    · rw [if_neg hc, if_neg hc]

/-- On freshly loaded tasks with positive burst times whose clock stays within `int`,
the run with 32-bit arithmetic is the run over the integers. -/
theorem runLoop32_eq {ts : List Task} (hf : Fresh ts) (hp : PositiveBursts ts)
    (hr : ClockInRange ts) (n : Nat) :
    runLoop32 n (initSched 0 ts) = runLoop n (initSched 0 ts) := by
  apply runLoop32_eq_of_head n (head_init hf hp)
  rw [measure_init hf]
  show (0 : Int) + (tickBound ts : Int) ≤ INT_MAX
  rw [zero_add]
  exact hr

theorem schedule32_eq {ts : List Task} (hf : Fresh ts) (hp : PositiveBursts ts)
    (hr : ClockInRange ts) (fuel : Nat) : schedule32 fuel 0 ts = schedule fuel 0 ts := by
  unfold schedule32 schedule
  rw [runLoop32_eq hf hp hr]

theorem clock_bound_runLoop (n : Nat) (B : Int) :
    ∀ {s : Sched}, Head s → s.currentTime + (measure s : Int) ≤ B →
      (runLoop n s).currentTime + (measure (runLoop n s) : Int) ≤ B := by
  induction n with
  | zero => intro s _ h; exact h
  | succ n ih =>
    intro s h hb
    simp only [runLoop]
    by_cases hc : loopCond s = true
    · rw [if_pos hc]
      apply ih (head_loopBody h)
      have := measure_decreases h hc
      rw [loopBody_currentTime]
      omega
    · rw [if_neg hc]; exact hb

theorem loopBody32_eq_of_reachable {ts : List Task} (hf : Fresh ts) (hp : PositiveBursts ts)
    (hr : ClockInRange ts) (n : Nat) (hc : loopCond (runLoop n (initSched 0 ts)) = true) :
    loopBody32 (runLoop n (initSched 0 ts)) = loopBody (runLoop n (initSched 0 ts)) := by
  apply loopBody32_eq (head_runLoop n (head_init hf hp)) hc
  apply clock_bound_runLoop n INT_MAX (head_init hf hp)
  rw [measure_init hf]
  show (0 : Int) + (tickBound ts : Int) ≤ INT_MAX
  rw [zero_add]
  exact hr

/-! ## Long phases of the 32-bit run -/

theorem runLoop32_of_not_cond (n : Nat) {s : Sched} (h : ¬ loopCond s = true) :
    runLoop32 n s = s := by
  cases n with
  | zero => rfl
  | succ n => simp only [runLoop32, if_neg h]

theorem runLoop32_add (a b : Nat) : ∀ s : Sched,
    runLoop32 (a + b) s = runLoop32 b (runLoop32 a s) := by
  induction a with
  | zero => intro s; simp [runLoop32]
  | succ a ih =>
    intro s
    rw [Nat.succ_add]
    by_cases hc : loopCond s = true
    · simp only [runLoop32, if_pos hc]
      exact ih _
    · simp only [runLoop32, if_neg hc]
      exact (runLoop32_of_not_cond b hc).symm

theorem runLoop32_one {s : Sched} (h : loopCond s = true) : runLoop32 1 s = loopBody32 s := by
  simp [runLoop32, h]

theorem newIdx_eq_nil {now : Int} (ts : List Task) :
    ∀ i, (∀ t ∈ ts, admissible now t = false) → newIdx now i ts = [] := by
  induction ts with
  | nil => intro i _; rfl
  | cons a rest ih =>
    intro i h
    have ha : ¬ admissible now a = true := by
      rw [h a (List.mem_cons_self _ _)]; simp
    rw [newIdx_cons_neg ha]
    exact ih _ (fun t ht => h t (List.mem_cons_of_mem _ ht))

theorem map_admitOne_eq_self {now : Int} (ts : List Task)
    (h : ∀ t ∈ ts, admissible now t = false) : ts.map (admitOne now) = ts := by
  induction ts with
  | nil => rfl
  | cons a rest ih =>
    have ha : ¬ admissible now a = true := by
      rw [h a (List.mem_cons_self _ _)]; simp
    rw [List.map_cons, admitOne_of_not ha, ih (fun t ht => h t (List.mem_cons_of_mem _ ht))]

theorem admitTasks_eq_self {s : Sched} (h : ∀ t ∈ s.tasks, admissible s.currentTime t = false) :
    admitTasks s = s := by
  cases s with
  | mk tasks readyQueue currentTask currentTime completedTasks =>
    simp only [admitTasks, admitFrom_fst, admitFrom_snd]
    simp only at h
    rw [map_admitOne_eq_self _ h, newIdx_eq_nil _ _ h, List.append_nil]

theorem preempt_eq_self_of_nil {s : Sched} (h : s.readyQueue = []) : preempt s = s := by
  unfold preempt
  rw [h]
  simp [queueTop]

theorem preempt_eq_self_of_le {s : Sched} {c : Nat} (hcur : s.currentTask = some c)
    (hq : ∀ i ∈ s.readyQueue, (taskAt s.tasks i).priority ≤ (taskAt s.tasks c).priority) :
    preempt s = s := by
  unfold preempt
  cases htop : queueTop s.tasks s.readyQueue with
  | none => rfl
  | some top =>
    obtain ⟨hm, _⟩ := queueTop_spec _ _ _ htop
    have := hq top hm
    simp only [hcur]
    rw [if_neg (by omega)]

theorem not_admissible_of {now : Int} {t : Task}
    (h : t.startTime ≠ -1 ∨ t.remainingTime ≤ 0 ∨ now < t.arrivalTime) :
    admissible now t = false := by
  by_contra hcon
  have hadm : admissible now t = true := by simpa using hcon
  obtain ⟨h1, h2, h3⟩ := (admissible_iff _ _).1 hadm
  rcases h with h | h | h
  · exact h h3
  · omega
  · omega

theorem loopBody32_idle {s : Sched} (hcur : s.currentTask = none) (hq : s.readyQueue = [])
    (hadm : ∀ t ∈ s.tasks, admissible s.currentTime t = false) :
    loopBody32 s = { s with currentTime := wrapInt (s.currentTime + 1) } := by
  unfold loopBody32
  rw [admitTasks_eq_self hadm, preempt_eq_self_of_nil hq]
  simp [execute32, hcur]

/-- While no task is ready and none arrives, the 32-bit run only advances the clock. -/
theorem idle_phase32 (k : Nat) :
    ∀ (s : Sched), s.currentTask = none → s.readyQueue = [] → loopCond s = true →
      0 ≤ s.currentTime → s.currentTime + k ≤ INT_MAX →
      (∀ t ∈ s.tasks, t.startTime ≠ -1 ∨ t.remainingTime ≤ 0 ∨
        s.currentTime + k ≤ t.arrivalTime) →
      runLoop32 k s = { s with currentTime := s.currentTime + k } := by
  induction k with
  | zero => intro s _ _ _ _ _ _; simp [runLoop32]
  | succ k ih =>
    intro s hcur hq hloop h0 hk hwait
    push_cast at hk hwait
    have hstep : loopBody32 s = { s with currentTime := s.currentTime + 1 } := by
      rw [loopBody32_idle hcur hq, wrapInt_of_range]
      · simp only [INT_MIN]; omega
      · omega
      · intro t ht
        apply not_admissible_of
        rcases hwait t ht with h | h | h
        · exact Or.inl h
        · exact Or.inr (Or.inl h)
        · exact Or.inr (Or.inr (by omega))
    simp only [runLoop32, if_pos hloop, hstep]
    rw [ih { s with currentTime := s.currentTime + 1 } hcur hq hloop
      (by simp only; omega) (by simp only; omega)
      (fun t ht => by
        rcases hwait t ht with h | h | h
        · exact Or.inl h
        · exact Or.inr (Or.inl h)
        · exact Or.inr (Or.inr (by simp only; omega)))]
    simp only [Sched.mk.injEq, true_and, and_true]
    push_cast
    ring

theorem set_taskAt_self (ts : List Task) (c : Nat) : ts.set c (taskAt ts c) = ts := by
  induction ts generalizing c with
  | nil => rfl
  | cons a rest ih =>
    cases c with
    | zero => simp [taskAt]
    | succ c => simp only [List.set_cons_succ, taskAt_cons_succ, ih]

theorem priority_set_rem (ts : List Task) (c j : Nat) (r : Int) :
    (taskAt (ts.set c { taskAt ts c with remainingTime := r }) j).priority
      = (taskAt ts j).priority :=
  taskAt_set_field (fun t => t.priority) ts c j _ rfl

theorem loopBody32_continue {s : Sched} {c : Nat} (hcur : s.currentTask = some c)
    (hadm : ∀ t ∈ s.tasks, admissible s.currentTime t = false)
    (hq : ∀ i ∈ s.readyQueue, (taskAt s.tasks i).priority ≤ (taskAt s.tasks c).priority)
    (hr : 2 ≤ (taskAt s.tasks c).remainingTime)
    (hmax : (taskAt s.tasks c).remainingTime ≤ INT_MAX) :
    loopBody32 s =
      { s with
        tasks := s.tasks.set c
          { taskAt s.tasks c with remainingTime := (taskAt s.tasks c).remainingTime - 1 }
        currentTime := wrapInt (s.currentTime + 1) } := by
  unfold loopBody32
  rw [admitTasks_eq_self hadm, preempt_eq_self_of_le hcur hq]
  have hw : wrapInt ((taskAt s.tasks c).remainingTime - 1)
      = (taskAt s.tasks c).remainingTime - 1 := by
    apply wrapInt_of_range
    · simp only [INT_MIN]; omega
    · omega
  have hne : ¬ (taskAt s.tasks c).remainingTime - 1 = 0 := by omega
  simp [execute32, hcur, hw, hne]

/-- While the current task has more than one unit of work left, nobody is admitted and
nobody in the queue has a higher priority, the 32-bit run only takes units from the
current task and advances the (wrapping) clock. -/
theorem run_phase32 (k : Nat) :
    ∀ (s : Sched) (c : Nat), s.currentTask = some c → loopCond s = true →
      (∀ t ∈ s.tasks, t.startTime ≠ -1 ∨ t.remainingTime ≤ 0) →
      (∀ i ∈ s.readyQueue, (taskAt s.tasks i).priority ≤ (taskAt s.tasks c).priority) →
      (k : Int) < (taskAt s.tasks c).remainingTime →
      (taskAt s.tasks c).remainingTime ≤ INT_MAX →
      INT_MIN ≤ s.currentTime → s.currentTime ≤ INT_MAX →
      runLoop32 k s =
        { s with
          tasks := s.tasks.set c
            { taskAt s.tasks c with remainingTime := (taskAt s.tasks c).remainingTime - k }
          currentTime := wrapInt (s.currentTime + k) } := by
  induction k with
  | zero =>
    intro s c _ _ _ _ _ _ h1 h2
    simp only [runLoop32, Nat.cast_zero, sub_zero, add_zero, wrapInt_of_range h1 h2]
    rw [set_taskAt_self]
  | succ k ih =>
    intro s c hcur hloop hadm hq hrem hmax h1 h2
    push_cast at hrem
    have hadm0 : ∀ t ∈ s.tasks, admissible s.currentTime t = false := by
      intro t ht
      apply not_admissible_of
      rcases hadm t ht with h | h
      · exact Or.inl h
      · exact Or.inr (Or.inl h)
    have hstep := loopBody32_continue hcur hadm0 hq (by omega) hmax
    simp only [runLoop32, if_pos hloop, hstep]
    have hcl : c < s.tasks.length := by
      by_contra hcon
      rw [taskAt_of_ge (Nat.le_of_not_lt hcon)] at hrem
      simp only [nullTask] at hrem
      omega
    have key := ih
      { s with
        tasks := s.tasks.set c
          { taskAt s.tasks c with remainingTime := (taskAt s.tasks c).remainingTime - 1 }
        currentTime := wrapInt (s.currentTime + 1) } c hcur
      (by simpa [loopCond] using hloop)
      (by
        intro t ht
        simp only at ht
        rcases List.mem_or_eq_of_mem_set ht with ht | ht
        · exact hadm t ht
        · rw [ht]
          rcases hadm _ (taskAt_mem hcl) with h | h
          · exact Or.inl h
          · omega)
      (by
        intro i hi
        exact le_of_eq_of_le (priority_set_rem s.tasks c i _)
          (le_of_le_of_eq (hq i hi) (priority_set_rem s.tasks c c _).symm))
      (by simp only [taskAt_set_self _ hcl]; omega)
      (by simp only [taskAt_set_self _ hcl]; omega)
      (wrapInt_range _).1 (wrapInt_range _).2
    rw [key]
    simp only [taskAt_set_self _ hcl, List.set_set, wrapInt_wrapInt_add, Sched.mk.injEq,
      true_and, and_true]
    constructor
    · congr 2
      push_cast
      ring
    · congr 1
      push_cast
      ring

/-! ## Runs in which the 32-bit clock overflows -/

theorem schedule32_of_runLoop32 {fuel : Nat} {now : Int} {ts : List Task} {s : Sched}
    (h : runLoop32 fuel (initSched now ts) = s) (hc : loopCond s = false) :
    schedule32 fuel now ts = some s := by
  unfold schedule32
  simp only [h, hc]
  simp

theorem runLoop32_step (n : Nat) {s : Sched} (h : loopCond s = true) :
    runLoop32 (1 + n) s = runLoop32 n (loopBody32 s) := by
  rw [runLoop32_add, runLoop32_one h]

theorem runLoop32_idle (k n : Nat) (s : Sched) (hcur : s.currentTask = none)
    (hq : s.readyQueue = []) (hloop : loopCond s = true) (h0 : 0 ≤ s.currentTime)
    (hk : s.currentTime + k ≤ INT_MAX)
    (hwait : ∀ t ∈ s.tasks, t.startTime ≠ -1 ∨ t.remainingTime ≤ 0 ∨
      s.currentTime + k ≤ t.arrivalTime) :
    runLoop32 (k + n) s = runLoop32 n { s with currentTime := s.currentTime + k } := by
  rw [runLoop32_add, idle_phase32 k s hcur hq hloop h0 hk hwait]

theorem runLoop32_run (k n : Nat) (s : Sched) (c : Nat) (hcur : s.currentTask = some c)
    (hloop : loopCond s = true)
    (hadm : ∀ t ∈ s.tasks, t.startTime ≠ -1 ∨ t.remainingTime ≤ 0)
    (hq : ∀ i ∈ s.readyQueue, (taskAt s.tasks i).priority ≤ (taskAt s.tasks c).priority)
    (hrem : (k : Int) < (taskAt s.tasks c).remainingTime)
    (hmax : (taskAt s.tasks c).remainingTime ≤ INT_MAX)
    (h1 : INT_MIN ≤ s.currentTime) (h2 : s.currentTime ≤ INT_MAX) :
    runLoop32 (k + n) s =
      runLoop32 n
        { s with
          tasks := s.tasks.set c
            { taskAt s.tasks c with remainingTime := (taskAt s.tasks c).remainingTime - k }
          currentTime := wrapInt (s.currentTime + k) } := by
  rw [runLoop32_add, run_phase32 k s c hcur hloop hadm hq hrem hmax h1 h2]

/-- The run on `lateLines`: `2^31 - 1` idle iterations, then the task executes and the
clock wraps. -/
theorem late_run :
    runLoop32 2147483648 (initSched 0 (loadTasks [] lateLines)) = lateFinal := by
  have h0 : initSched 0 (loadTasks [] lateLines) =
      { tasks := [mkTask "A" 2147483647 1 1], readyQueue := [], currentTask := none,
        currentTime := 0, completedTasks := 0 } := by decide
  rw [h0, show (2147483648 : Nat) = 2147483647 + 1 from rfl,
    runLoop32_idle 2147483647 1 _ rfl rfl (by decide) (by decide) (by decide) (by decide)]
  decide

/-- The run on `farApartLines`: `X` executes at tick 0, the loop idles up to the largest
`int` tick, then `Y` executes twice while the clock wraps. -/
theorem farApart_run :
    runLoop32 2147483649 (initSched 0 (loadTasks [] farApartLines)) = farApartFinal := by
  have h0 : initSched 0 (loadTasks [] farApartLines) =
      { tasks := [mkTask "X" (-2147483648) 2 1, mkTask "Y" 2147483647 1 2], readyQueue := [],
        currentTask := none, currentTime := 0, completedTasks := 0 } := by decide
  rw [h0, show (2147483649 : Nat) = 1 + (2147483646 + 2) from rfl,
    runLoop32_step _ (by decide),
    runLoop32_idle 2147483646 2 _ (by decide) (by decide) (by decide) (by decide) (by decide)
      (by decide)]
  decide

/-- The run on `wrapLines`: idle up to the largest `int` tick, then `P` executes
`2^31 - 1` times and `Q` once; the clock ends at `-1`. -/
theorem wrap_run :
    runLoop32 4294967295 (initSched 0 (loadTasks [] wrapLines)) = wrapFinal := by
  have h0 : initSched 0 (loadTasks [] wrapLines) =
      { tasks := [mkTask "P" 2147483647 2 2147483647, mkTask "Q" 2147483647 1 1],
        readyQueue := [], currentTask := none, currentTime := 0, completedTasks := 0 } := by
    decide
  rw [h0, show (4294967295 : Nat) = 2147483647 + (1 + (2147483645 + 2)) from rfl,
    runLoop32_idle 2147483647 _ _ rfl rfl (by decide) (by decide) (by decide) (by decide),
    runLoop32_step _ (by decide),
    runLoop32_run 2147483645 2 _ 0 (by decide) (by decide) (by decide) (by decide)
      (by decide) (by decide) (by decide) (by decide)]
  decide

/-- The run on `repeatLines`: `A` executes at tick 0, the loop idles up to the largest
`int` tick, `P` executes `2^31 - 1` times and `Q` three times; the clock ends at `1`. -/
theorem repeat_run :
    runLoop32 4294967297 (initSched 0 (loadTasks [] repeatLines)) = repeatFinal := by
  have h0 : initSched 0 (loadTasks [] repeatLines) =
      { tasks := [mkTask "A" 0 3 1, mkTask "P" 2147483647 2 2147483647,
                  mkTask "Q" 2147483647 1 3],
        readyQueue := [], currentTask := none, currentTime := 0, completedTasks := 0 } := by
    decide
  rw [h0, show (4294967297 : Nat) = 1 + (2147483646 + (1 + (2147483645 + 4))) from rfl,
    runLoop32_step _ (by decide),
    runLoop32_idle 2147483646 _ _ (by decide) (by decide) (by decide) (by decide) (by decide)
      (by decide),
    runLoop32_step _ (by decide),
    runLoop32_run 2147483645 4 _ 1 (by decide) (by decide) (by decide) (by decide)
      (by decide) (by decide) (by decide) (by decide)]
  decide

/-! ## Claims that depend on the range of the clock -/

/-- Within the range of `int` the 32-bit run returns: one state is returned for every
iteration budget of at least `tickBound ts`. -/
theorem schedule32_returns {ts : List Task} (hf : Fresh ts) (hp : PositiveBursts ts)
    (hr : ClockInRange ts) :
    ∃ s : Sched, ∀ fuel, tickBound ts ≤ fuel → schedule32 fuel 0 ts = some s := by
  obtain ⟨s, h1, _⟩ := ideal_terminates_all_finished ts hf hp
  refine ⟨s, fun fuel hfuel => ?_⟩
  rw [schedule32_eq hf hp hr]
  exact h1 fuel hfuel

/-- C2 as stated fails: on the input `wrapLines` (positive burst times) the function
returns after `2^32 - 1` iterations with the clock at `-1`, and the end time stored for
task `Q` is `-1`, the value that stands for "not set". -/
theorem C2_counterexample :
    Fresh (loadTasks [] wrapLines) ∧ PositiveBursts (loadTasks [] wrapLines) ∧
    schedule32 4294967295 0 (loadTasks [] wrapLines) = some wrapFinal ∧
    (taskAt wrapFinal.tasks 1).name = "Q" ∧ (taskAt wrapFinal.tasks 1).endTime = -1 :=
  ⟨by decide, by decide, schedule32_of_runLoop32 wrap_run (by decide), by decide, by decide⟩

/-- C2, amended: on freshly loaded tasks with positive burst times whose latest arrival
time plus total burst time does not exceed `INT_MAX` (so that the `int` clock does not
overflow), `Scheduler::schedule` started with `currentTime = 0` terminates: there is a
state `s` that the function returns for every iteration budget of at least
`tickBound ts`; in `s` the registry holds the loaded tasks and every task has
`remainingTime = 0` and `endTime ≠ -1`. -/
theorem C2_schedule_terminates_within_int_range (ts : List Task) (hf : Fresh ts)
    (hp : PositiveBursts ts) (hr : ClockInRange ts) :
    ∃ s : Sched, (∀ fuel, tickBound ts ≤ fuel → schedule32 fuel 0 ts = some s) ∧
      (s.tasks.map Task.static).Perm (ts.map Task.static) ∧
      ∀ t ∈ s.tasks, t.remainingTime = 0 ∧ t.endTime ≠ -1 := by
  obtain ⟨s, h1, h2, h3⟩ := ideal_terminates_all_finished ts hf hp
  refine ⟨s, ?_, h2, h3⟩
  intro fuel hfuel
  rw [schedule32_eq hf hp hr]
  exact h1 fuel hfuel

/-- Witness of C2 (amended) on the two-task example. -/
theorem C2_witness :
    Fresh demoTasks ∧ PositiveBursts demoTasks ∧ ClockInRange demoTasks ∧
      ∃ s : Sched, (∀ fuel, tickBound demoTasks ≤ fuel → schedule32 fuel 0 demoTasks = some s) ∧
        (s.tasks.map Task.static).Perm (demoTasks.map Task.static) ∧
        ∀ t ∈ s.tasks, t.remainingTime = 0 ∧ t.endTime ≠ -1 :=
  ⟨by decide, by decide, by decide,
    C2_schedule_terminates_within_int_range demoTasks (by decide) (by decide) (by decide)⟩

/-- C13 as stated fails: on the input `wrapLines` (positive burst times) the loop
boundary reached after `2^32 - 1` iterations has task `Q` with `remainingTime = 0` and
`endTime = -1`: the clock value recorded after its last tick is the value that stands
for "not set". -/
theorem C13_counterexample :
    PositiveBursts (loadTasks [] wrapLines) ∧
    (taskAt (runLoop32 4294967295 (initSched 0 (loadTasks [] wrapLines))).tasks 1).remainingTime
      = 0 ∧
    (taskAt (runLoop32 4294967295 (initSched 0 (loadTasks [] wrapLines))).tasks 1).endTime
      = -1 := by
  rw [wrap_run]
  decide

/-- C13, amended: on freshly loaded tasks with positive burst times whose latest arrival
time plus total burst time does not exceed `INT_MAX`, at every loop boundary a task has
`endTime ≠ -1` exactly when its `remainingTime` is `0`; an iteration does not assign an
end time that is set; an iteration that changes the end time of a task executes that
task with one unit remaining, takes it to `remainingTime = 0` and records the value of
the clock after the tick; at the end of the run every end time is set. -/
theorem C13_endTime_set_once_within_int_range (ts : List Task) (hf : Fresh ts)
    (hp : PositiveBursts ts) (hr : ClockInRange ts) (n : Nat) (s : Sched)
    (hs : s = runLoop32 n (initSched 0 ts)) (i : Nat) (hi : i < s.tasks.length) :
    ((taskAt s.tasks i).endTime ≠ -1 ↔ (taskAt s.tasks i).remainingTime = 0) ∧
    (loopCond s = true → (taskAt s.tasks i).endTime ≠ -1 →
      (taskAt (loopBody32 s).tasks i).endTime = (taskAt s.tasks i).endTime) ∧
    (loopCond s = true →
      (taskAt (loopBody32 s).tasks i).endTime ≠ (taskAt s.tasks i).endTime →
      (taskAt s.tasks i).endTime = -1 ∧ executing s = some i ∧
        (taskAt s.tasks i).remainingTime = 1 ∧
        (taskAt (loopBody32 s).tasks i).remainingTime = 0 ∧
        (taskAt (loopBody32 s).tasks i).endTime = (loopBody32 s).currentTime ∧
        (loopBody32 s).currentTime = s.currentTime + 1) ∧
    (∀ fuel s1, schedule32 fuel 0 ts = some s1 → ∀ t ∈ s1.tasks, t.endTime ≠ -1) := by
  rw [runLoop32_eq hf hp hr] at hs
  obtain ⟨h1, h2, h3, h4⟩ := ideal_endTime_set_once ts hf hp n s hs i hi
  refine ⟨h1, ?_, ?_, ?_⟩
  · intro hc hset
    have hb : loopBody32 s = loopBody s := by
      rw [hs] at hc ⊢
      exact loopBody32_eq_of_reachable hf hp hr n hc
    rw [hb]
    exact h2 hset
  · intro hc hchg
    have hb : loopBody32 s = loopBody s := by
      rw [hs] at hc ⊢
      exact loopBody32_eq_of_reachable hf hp hr n hc
    rw [hb] at hchg ⊢
    obtain ⟨e1, e2, e3, e4, e5, e6⟩ := h3 hchg
    exact ⟨e1, e2, e3, e4, by rw [e5, e6], e6⟩
  · intro fuel s1 hs1
    rw [schedule32_eq hf hp hr] at hs1
    exact h4 fuel s1 hs1

/-- Witness of C13 (amended): in the fourth iteration of the two-task example task `B`
gets its end time. -/
theorem C13_witness :
    Fresh demoTasks ∧ PositiveBursts demoTasks ∧ ClockInRange demoTasks ∧
    demoAt 3 = runLoop32 3 (initSched 0 demoTasks) ∧ 1 < (demoAt 3).tasks.length ∧
    loopCond (demoAt 3) = true ∧
    (taskAt (loopBody32 (demoAt 3)).tasks 1).endTime ≠ (taskAt (demoAt 3).tasks 1).endTime ∧
    (taskAt (demoAt 3).tasks 1).endTime = -1 ∧ executing (demoAt 3) = some 1 ∧
    (taskAt (demoAt 3).tasks 1).remainingTime = 1 ∧
    (taskAt (loopBody32 (demoAt 3)).tasks 1).remainingTime = 0 ∧
    (taskAt (loopBody32 (demoAt 3)).tasks 1).endTime = (loopBody32 (demoAt 3)).currentTime ∧
    (loopBody32 (demoAt 3)).currentTime = (demoAt 3).currentTime + 1 :=
  ⟨by decide, by decide, by decide, by decide, by decide, by decide, by decide,
    (C13_endTime_set_once_within_int_range demoTasks (by decide) (by decide) (by decide) 3
      (demoAt 3) (by decide) 1 (by decide)).2.2.1 (by decide) (by decide)⟩

/-- C17 as stated fails: on the input `lateLines` (one task, positive burst time,
non-negative arrival time) the task arrives at tick `2147483647` with burst time `1`,
and the end time stored for it is `-2147483648`, not `2147483647 + 1`. -/
theorem C17_counterexample :
    Fresh (loadTasks [] lateLines) ∧ PositiveBursts (loadTasks [] lateLines) ∧
    (∀ t ∈ loadTasks [] lateLines, 0 ≤ t.arrivalTime) ∧
    schedule32 2147483648 0 (loadTasks [] lateLines) = some lateFinal ∧
    TopPriority lateFinal.tasks 0 ∧
    (taskAt lateFinal.tasks 0).endTime = -2147483648 ∧
    (taskAt lateFinal.tasks 0).arrivalTime + (taskAt lateFinal.tasks 0).burstTime
      = 2147483648 :=
  ⟨by decide, by decide, by decide, schedule32_of_runLoop32 late_run (by decide),
    ⟨by decide, fun j hj hne => by
      have hj1 : j < 1 := hj
      omega⟩,
    by decide, by decide⟩

/-- C17, amended: on freshly loaded tasks with positive burst times and non-negative
arrival times whose latest arrival time plus total burst time does not exceed `INT_MAX`,
run from `currentTime = 0`, a task `T` whose priority is strictly higher than that of
every other task ends with `startTime = arrivalTime` and
`endTime = arrivalTime + burstTime`.  On the single task `X(0, 5, 1)` the loop performs
exactly one iteration and leaves `X.startTime = 0`, `X.endTime = 1`. -/
theorem C17_top_priority_task_runs_undisturbed (ts : List Task) (hf : Fresh ts)
    (hp : PositiveBursts ts) (ha : ∀ t ∈ ts, 0 ≤ t.arrivalTime) (hr : ClockInRange ts)
    (fuel : Nat) (s : Sched) (hs : schedule32 fuel 0 ts = some s) (T : Nat)
    (hT : TopPriority s.tasks T) :
    ((taskAt s.tasks T).startTime = (taskAt s.tasks T).arrivalTime ∧
      (taskAt s.tasks T).endTime
        = (taskAt s.tasks T).arrivalTime + (taskAt s.tasks T).burstTime) ∧
    (schedule32 0 0 singleTask = none ∧
      (schedule32 1 0 singleTask).map (fun r => generateGanttChart r.tasks)
        = some [("X", 0, 1)] ∧
      iterations32 1 (initSched 0 singleTask) = 1 ∧
      iterations32 5 (initSched 0 singleTask) = 1) := by
  refine ⟨?_, by decide⟩
  rw [schedule32_eq hf hp hr] at hs
  exact ideal_top_priority_runs_undisturbed ts hf hp ha fuel s hs T hT

/-- Witness of C17 (amended): task `B` of the two-task example has the highest priority;
it arrives at tick 1 and ends at tick `1 + 3`. -/
theorem C17_witness :
    Fresh demoTasks ∧ PositiveBursts demoTasks ∧ (∀ t ∈ demoTasks, 0 ≤ t.arrivalTime) ∧
    ClockInRange demoTasks ∧
    schedule32 7 0 demoTasks = some (demoAt 7) ∧ TopPriority (demoAt 7).tasks 1 ∧
    (taskAt (demoAt 7).tasks 1).startTime = (taskAt (demoAt 7).tasks 1).arrivalTime ∧
    (taskAt (demoAt 7).tasks 1).endTime
      = (taskAt (demoAt 7).tasks 1).arrivalTime + (taskAt (demoAt 7).tasks 1).burstTime :=
  have hT : TopPriority (demoAt 7).tasks 1 :=
    ⟨by decide, fun j hj hne => by
      have hj2 : j < 2 := hj
      have hj0 : j = 0 := by omega
      subst hj0
      decide⟩
  have hrun : schedule32 7 0 demoTasks = some (demoAt 7) :=
    (schedule32_eq (by decide) (by decide) (by decide) 7).trans (by decide)
  ⟨by decide, by decide, by decide, by decide, hrun, hT,
    (C17_top_priority_task_runs_undisturbed demoTasks (by decide) (by decide) (by decide)
      (by decide) 7 (demoAt 7) hrun 1 hT).1⟩

/-- C18 as stated fails: on the input `farApartLines` (positive burst times) task `X` has
a higher priority than task `Y` and `X.arrivalTime = -2147483648` is less than the end
time `-2147483647` stored for `Y`, but `X.endTime = 1` is not less than it. -/
theorem C18_counterexample :
    Fresh (loadTasks [] farApartLines) ∧ PositiveBursts (loadTasks [] farApartLines) ∧
    schedule32 2147483649 0 (loadTasks [] farApartLines) = some farApartFinal ∧
    (taskAt farApartFinal.tasks 1).priority < (taskAt farApartFinal.tasks 0).priority ∧
    (taskAt farApartFinal.tasks 0).arrivalTime < (taskAt farApartFinal.tasks 1).endTime ∧
    ¬ ((taskAt farApartFinal.tasks 0).endTime < (taskAt farApartFinal.tasks 1).endTime) :=
  ⟨by decide, by decide, schedule32_of_runLoop32 farApart_run (by decide), by decide,
    by decide, by decide⟩

/-- C18, amended: on freshly loaded tasks with positive burst times whose latest arrival
time plus total burst time does not exceed `INT_MAX`, run from `currentTime = 0`, if
task `X` has a strictly higher priority than task `Y` and arrives before `Y` completes
(`X.arrivalTime < Y.endTime`), then `X` completes before `Y`. -/
theorem C18_higher_priority_finishes_first (ts : List Task) (hf : Fresh ts)
    (hp : PositiveBursts ts) (hr : ClockInRange ts) (fuel : Nat) (s : Sched)
    (hs : schedule32 fuel 0 ts = some s)
    (X Y : Nat) (hX : X < s.tasks.length) (hY : Y < s.tasks.length)
    (hprio : (taskAt s.tasks Y).priority < (taskAt s.tasks X).priority)
    (harr : (taskAt s.tasks X).arrivalTime < (taskAt s.tasks Y).endTime) :
    (taskAt s.tasks X).endTime < (taskAt s.tasks Y).endTime := by
  rw [schedule32_eq hf hp hr] at hs
  exact ideal_higher_priority_finishes_first ts hf hp fuel s hs X Y hX hY hprio harr

/-- Witness of C18 (amended): in the two-task example `B` (priority 2) arrives at tick 1,
before `A` (priority 1) completes at tick 7, and completes at tick 4. -/
theorem C18_witness :
    Fresh demoTasks ∧ PositiveBursts demoTasks ∧ ClockInRange demoTasks ∧
    schedule32 7 0 demoTasks = some (demoAt 7) ∧
    (taskAt (demoAt 7).tasks 0).priority < (taskAt (demoAt 7).tasks 1).priority ∧
    (taskAt (demoAt 7).tasks 1).arrivalTime < (taskAt (demoAt 7).tasks 0).endTime ∧
    (taskAt (demoAt 7).tasks 1).endTime < (taskAt (demoAt 7).tasks 0).endTime :=
  have hrun : schedule32 7 0 demoTasks = some (demoAt 7) :=
    (schedule32_eq (by decide) (by decide) (by decide) 7).trans (by decide)
  ⟨by decide, by decide, by decide, hrun, by decide, by decide,
    C18_higher_priority_finishes_first demoTasks (by decide) (by decide) (by decide) 7
      (demoAt 7) hrun 1 0 (by decide) (by decide) (by decide) (by decide)⟩

theorem execute32_tasks_remainingTime (s : Sched) (c i : Nat) (h : s.currentTask = some c) :
    (taskAt (execute32 s).tasks i).remainingTime =
      (taskAt (s.tasks.set c { taskAt s.tasks c with
        remainingTime := wrapInt ((taskAt s.tasks c).remainingTime - 1) }) i).remainingTime := by
  unfold execute32
  rw [h]
  simp only
  by_cases hr : wrapInt ((taskAt s.tasks c).remainingTime - 1) = 0
  · rw [if_pos hr]
    simp only
    by_cases hcl : c < s.tasks.length
    · rw [taskAt_set _ _ _ _ hcl, taskAt_set _ _ _ _ hcl]
      split <;> rfl
    · rw [List.set_eq_of_length_le (Nat.le_of_not_lt hcl),
        List.set_eq_of_length_le (Nat.le_of_not_lt hcl)]
  · rw [if_neg hr]

theorem loopBody32_remainingTime (s : Sched) (i : Nat) :
    (taskAt (loopBody32 s).tasks i).remainingTime =
      if executing s = some i ∧ i < s.tasks.length then
        wrapInt ((taskAt s.tasks i).remainingTime - 1)
      else (taskAt s.tasks i).remainingTime := by
  have hP : ∀ j, taskAt (preempt (admitTasks s)).tasks j
      = admitOne s.currentTime (taskAt s.tasks j) := by
    intro j; rw [preempt_tasks, taskAt_admitTasks]
  have hlen : (preempt (admitTasks s)).tasks.length = s.tasks.length := by simp
  unfold loopBody32
  cases hex : executing s with
  | none =>
    have hcur : (preempt (admitTasks s)).currentTask = none := hex
    rw [if_neg (fun hcon => by simp at hcon)]
    unfold execute32
    rw [hcur]
    simp only
    rw [hP, admitOne_remainingTime]
  | some c =>
    have hcur : (preempt (admitTasks s)).currentTask = some c := hex
    rw [execute32_tasks_remainingTime _ c i hcur]
    by_cases hcl : c < s.tasks.length
    · rw [taskAt_set _ _ _ _ (by rw [hlen]; exact hcl)]
      by_cases hic : i = c
      · subst hic
        rw [if_pos rfl, if_pos ⟨rfl, hcl⟩, hP, admitOne_remainingTime]
      · rw [if_neg hic, if_neg (fun hcon => hic (Option.some.inj hcon.1).symm), hP,
          admitOne_remainingTime]
    · have hge : (preempt (admitTasks s)).tasks.length ≤ c := by
        rw [hlen]; exact Nat.le_of_not_lt hcl
      have hno : ¬ (some c = some i ∧ i < s.tasks.length) := by
        intro hcon
        have := Option.some.inj hcon.1
        omega
      rw [if_neg hno, List.set_eq_of_length_le hge, hP, admitOne_remainingTime]

/-- C19 as stated fails: on the input `repeatLines` (positive burst times) the run takes
`2^32 + 1` ticks, and the end times stored for the different tasks `A` and `Q` are both
`1`. -/
theorem C19_counterexample :
    Fresh (loadTasks [] repeatLines) ∧ PositiveBursts (loadTasks [] repeatLines) ∧
    schedule32 4294967297 0 (loadTasks [] repeatLines) = some repeatFinal ∧
    (taskAt repeatFinal.tasks 0).name = "A" ∧ (taskAt repeatFinal.tasks 2).name = "Q" ∧
    (taskAt repeatFinal.tasks 0).endTime = 1 ∧ (taskAt repeatFinal.tasks 2).endTime = 1 :=
  ⟨by decide, by decide, schedule32_of_runLoop32 repeat_run (by decide), by decide,
    by decide, by decide, by decide⟩

/-- C19, amended: an iteration of the loop changes the remaining time of at most one
task, the one that executes, and the new value is the old one minus one in `int`
arithmetic, which is exactly one less unless the old value is `INT_MIN`; and on freshly
loaded tasks with positive burst times whose latest arrival time plus total burst time
does not exceed `INT_MAX`, run from `currentTime = 0`, the end times of two different
tasks are different when the run is over. -/
theorem C19_one_task_per_tick_distinct_end_times (ts : List Task) (hf : Fresh ts)
    (hp : PositiveBursts ts) (hr : ClockInRange ts) :
    (∀ (s : Sched) (i j : Nat),
      ((taskAt (loopBody32 s).tasks i).remainingTime ≠ (taskAt s.tasks i).remainingTime →
        executing s = some i ∧
          (taskAt (loopBody32 s).tasks i).remainingTime
            = wrapInt ((taskAt s.tasks i).remainingTime - 1) ∧
          (INT_MIN < (taskAt s.tasks i).remainingTime →
            (taskAt s.tasks i).remainingTime ≤ INT_MAX →
            (taskAt (loopBody32 s).tasks i).remainingTime
              = (taskAt s.tasks i).remainingTime - 1)) ∧
      ((taskAt (loopBody32 s).tasks i).remainingTime ≠ (taskAt s.tasks i).remainingTime →
        (taskAt (loopBody32 s).tasks j).remainingTime ≠ (taskAt s.tasks j).remainingTime →
        i = j)) ∧
    (∀ fuel s, schedule32 fuel 0 ts = some s →
      ∀ i j, i < s.tasks.length → j < s.tasks.length → i ≠ j →
        (taskAt s.tasks i).endTime ≠ -1 ∧ (taskAt s.tasks j).endTime ≠ -1 ∧
          (taskAt s.tasks i).endTime ≠ (taskAt s.tasks j).endTime) := by
  have step : ∀ (s : Sched) (i : Nat),
      (taskAt (loopBody32 s).tasks i).remainingTime ≠ (taskAt s.tasks i).remainingTime →
        executing s = some i ∧
          (taskAt (loopBody32 s).tasks i).remainingTime
            = wrapInt ((taskAt s.tasks i).remainingTime - 1) := by
    intro s i hchg
    rw [loopBody32_remainingTime] at hchg ⊢
    by_cases hc : executing s = some i ∧ i < s.tasks.length
    · rw [if_pos hc]; exact ⟨hc.1, rfl⟩
    · rw [if_neg hc] at hchg
      exact absurd rfl hchg
  refine ⟨fun s i j => ⟨fun hi => ?_, fun hi hj => ?_⟩, ?_⟩
  · obtain ⟨h1, h2⟩ := step s i hi
    refine ⟨h1, h2, fun hlo hhi => ?_⟩
    rw [h2]
    apply wrapInt_of_range
    · simp only [INT_MIN] at hlo ⊢; omega
    · simp only [INT_MAX] at hhi ⊢; omega
  · have h1 := (step s i hi).1
    have h2 := (step s j hj).1
    rw [h1] at h2
    exact Option.some.inj h2
  · intro fuel s hs
    rw [schedule32_eq hf hp hr] at hs
    exact (ideal_one_task_per_tick_distinct_end_times ts hf hp).2 fuel s hs

/-- Witness of C19 (amended) on the two-task example. -/
theorem C19_witness :
    Fresh demoTasks ∧ PositiveBursts demoTasks ∧ ClockInRange demoTasks ∧
    schedule32 7 0 demoTasks = some (demoAt 7) ∧
    (taskAt (demoAt 7).tasks 0).endTime ≠ (taskAt (demoAt 7).tasks 1).endTime :=
  have hrun : schedule32 7 0 demoTasks = some (demoAt 7) :=
    (schedule32_eq (by decide) (by decide) (by decide) 7).trans (by decide)
  ⟨by decide, by decide, by decide, hrun,
    ((C19_one_task_per_tick_distinct_end_times demoTasks (by decide) (by decide)
      (by decide)).2 7 (demoAt 7) hrun 0 1 (by decide) (by decide) (by decide)).2.2⟩

end PriorityCPU
